import Mathlib

/-! # BFS file system API (`fs.c`): a shallow embedding

The user-level file API of the BFS file system (`fsRead`, `fsWrite`, `fsSeek`,
`fsTell`, `fsSize`) is embedded as functions over an explicit machine state.

* `i32` values are `Int`; every `+`, `-`, `*` on them is wrapped to 32 bits.
  C division and remainder truncate towards zero (`Int.tdiv`, `Int.tmod`).
* Memory reached through a pointer is a function from byte offsets to bytes.
  The bytes `fsWrite` is given are an argument; the caller's buffer that
  `fsRead` fills is a component of the state, so that it can be inspected
  whether the call returns or not.
* `FATAL(e)` ends the process: a call either returns a value or aborts, and in
  both cases the state reached (the disk is persistent) is kept.
* A `for` loop is a function recursive on the number of values of `i` left,
  `lastFBN - firstFBN + 1` at the start; the variable `totalBlocks` of
  `fsWrite`, which is never read, is left out.
* `bfs.h`, `bfs.c` and `bio.c` are not part of the sources at hand.  The block
  size `BYTESPERBLOCK` is a parameter `B`; the Block Store and descriptor-layer
  primitives that `fs.c` calls are modelled from the specification (sections 3,
  6 and 7) and every such definition says so.
  `fsReadWith` is `fsRead` with the block fetch `bfsRead` as a parameter, for
  statements that hold over every fetch that returns.
-/

namespace BFS

/-! ## Machine integers and memory -/

/-- A byte of data (`i8`); the file system only moves bytes around. -/
abbrev Byte := Nat

/-- Memory addressed from a pointer: byte offset to byte. -/
abbrev Mem := Int → Byte

/-- Largest `i32`. -/
def INT32_MAX : Int := 2147483647

/-- Smallest `i32`. -/
def INT32_MIN : Int := -2147483648

/-- Reduction of an integer to the two's-complement `i32` range. -/
def wrap32 (x : Int) : Int := (x + 2147483648) % 4294967296 - 2147483648

/-- The C expression `a + b` on `i32`. -/
def add32 (a b : Int) : Int := wrap32 (a + b)

/-- The C expression `a - b` on `i32`. -/
def sub32 (a b : Int) : Int := wrap32 (a - b)

/-- The C expression `a * b` on `i32`. -/
def mul32 (a b : Int) : Int := wrap32 (a * b)

/-- The C expression `a / b` on `i32` (truncating). -/
def div32 (a b : Int) : Int := Int.tdiv a b

/-- The C expression `a % b` on `i32` (sign of the dividend). -/
def mod32 (a b : Int) : Int := Int.tmod a b

/-- The effect of `memcpy(dst + dOff, src + sOff, len)` on the memory at `dst`. -/
def memcpy (dst : Mem) (dOff : Int) (src : Mem) (sOff len : Int) : Mem :=
  fun j => if dOff ≤ j ∧ j < dOff + len then src (sOff + (j - dOff)) else dst j

/-- The stdio constant `SEEK_SET`. -/
def SEEK_SET : Int := 0

/-- The stdio constant `SEEK_CUR`. -/
def SEEK_CUR : Int := 1

/-- The stdio constant `SEEK_END`. -/
def SEEK_END : Int := 2

/-! ## State -/

/-- Modelled from the spec: the metadata record of a file (the inode type of
bfs.h is missing): its size in bytes and the physical block number (DBN) of
each of its logical blocks (FBN) 0, 1, 2, ... -/
structure Inode where
  size : Int
  blocks : List Int

/-- Modelled from the spec: an entry of the open file table `g_oft` (its type
in bfs.h is missing): the file it is open on and the cursor. -/
structure OFTE where
  inum : Int
  curs : Int
deriving DecidableEq

/-- Calls observed at the boundary of `fs.c`: block fetches (`bfsRead`), block
resolutions (`bfsFbnToDbn`), block stores (`bioWrite`), extension requests
(`bfsExtend`) and copies into the caller's buffer (offset, length). -/
inductive Event where
  | fetch (inum fbn : Int)
  | resolve (inum fbn : Int)
  | store (dbn : Int)
  | extend (inum count : Int)
  | copyOut (off len : Int)
deriving DecidableEq

/-- The machine state: the open file table, the inode of every file, the disk
(physical block number to block contents), the free physical blocks, the
contents of freshly allocated heap memory, the caller's memory at the `buf`
argument of `fsRead`, and the trace of boundary calls. -/
structure State where
  g_oft : List OFTE
  inodes : Int → Inode
  disk : Int → Mem
  free : List Int
  junk : Mem
  userBuf : Mem
  log : List Event

/-- Reasons for which a call ends the process. `EBADCURS` and `EBADWHENCE` are
raised by `fsSeek`; the others model unrecoverable conditions below `fs.c`: a
descriptor without open file table entry, a logical block index the Block Store
cannot resolve, and a `memcpy` that leaves a block-sized heap buffer or has a
negative length. -/
inductive Fatal where
  | EBADCURS
  | EBADWHENCE
  | badHandle
  | badBlockIndex
  | memoryFault
deriving DecidableEq

/-- Outcome of a call: it returns `a` in state `st`, or the process is ended by
`FATAL(e)` in state `st`. -/
inductive Res (α : Type) where
  | ok (a : α) (st : State)
  | abort (e : Fatal) (st : State)

/-- The state in which a call ended. -/
def Res.state {α : Type} : Res α → State
  | .ok _ st => st
  | .abort _ st => st

/-- The value a call returned, if it returned. -/
def Res.value {α : Type} : Res α → Option α
  | .ok a _ => some a
  | .abort _ _ => none

/-- The reason for which a call ended the process, if it did. -/
def Res.fatal {α : Type} : Res α → Option Fatal
  | .ok _ _ => none
  | .abort e _ => some e

/-- Computations of `fs.c`: state passing with abort. -/
def M (α : Type) : Type := State → Res α

/-- Sequencing: an abort ends the computation. -/
def M.bind {α β : Type} (m : M α) (f : α → M β) : M β := fun st =>
  match m st with
  | .ok a st1 => f a st1
  | .abort e st1 => .abort e st1

/-- Return without effect. -/
def M.pure {α : Type} (a : α) : M α := fun st => .ok a st

instance : Monad M where
  pure := M.pure
  bind := M.bind

/-- Modelled from the spec: the macro `FATAL(e)` (bfs.h is missing): the
failure is not returned to the caller, the process ends. -/
def FATAL {α : Type} (e : Fatal) : M α := fun st => .abort e st

/-- The state `st` with the event `ev` appended to its trace. -/
def logged (st : State) (ev : Event) : State := { st with log := st.log ++ [ev] }

/-- Append an event to the trace. -/
def trace (ev : Event) : M Unit := fun st => .ok () (logged st ev)

/-! ## Descriptor layer and Block Store -/

/-- The entry `g_oft[i]`, if `i` is a slot of the table. -/
def oftGet (st : State) (i : Int) : Option OFTE :=
  if 0 ≤ i then st.g_oft[i.toNat]? else none

/-- Modelled from the spec: `bfsFdToInum` (bfs.c is missing).  A handle is the
association of an integer token with (identifier, cursor); the token is the slot
of its record in the open file table.  An invalid handle is fatal. -/
def bfsFdToInum (fd : Int) : M Int := fun st =>
  match oftGet st fd with
  | some e => .ok e.inum st
  | none => .abort .badHandle st

/-- Modelled from the spec: `bfsFindOFTE` (bfs.c is missing), the slot of the
open file table record of file `inum`; fatal if the file is not open. -/
def bfsFindOFTE (inum : Int) : M Int := fun st =>
  match st.g_oft.findIdx? (fun e => e.inum == inum) with
  | some i => .ok (i : Int) st
  | none => .abort .badHandle st

/-- Modelled from the spec: `bfsTell` (bfs.c is missing), `tell(handle)`: the
current cursor, no side effect. -/
def bfsTell (fd : Int) : M Int := fun st =>
  match oftGet st fd with
  | some e => .ok e.curs st
  | none => .abort .badHandle st

/-- The read access `g_oft[ofte].curs`. -/
def oftCurs (ofte : Int) : M Int := fun st =>
  match oftGet st ofte with
  | some e => .ok e.curs st
  | none => .abort .badHandle st

/-- The assignment `g_oft[ofte].curs = curs`. -/
def oftSetCurs (ofte curs : Int) : M Unit := fun st =>
  match oftGet st ofte with
  | some e => .ok () { st with g_oft := st.g_oft.set ofte.toNat { e with curs := curs } }
  | none => .abort .badHandle st

/-- Modelled from the spec: `bfsSetCursor` (bfs.c is missing): set the cursor of
the open file table record of file `inum`. -/
def bfsSetCursor (inum curs : Int) : M Unit := do
  let ofte ← bfsFindOFTE inum
  oftSetCurs ofte curs

/-- Modelled from the spec: `bfsGetSize` (bfs.c is missing),
`getSize(identifier)`. -/
def bfsGetSize (inum : Int) : M Int := fun st => .ok (st.inodes inum).size st

/-- Modelled from the spec: `bfsSetSize` (bfs.c is missing),
`setSize(identifier, integer)`. -/
def bfsSetSize (inum size : Int) : M Unit := fun st =>
  .ok () { st with inodes := Function.update st.inodes inum { st.inodes inum with size := size } }

/-- The physical block of logical block `fbn` of file `inum`, if allocated. -/
def dbnOf (st : State) (inum fbn : Int) : Option Int :=
  if 0 ≤ fbn then (st.inodes inum).blocks[fbn.toNat]? else none

/-- Modelled from the spec: `bfsFbnToDbn` (bfs.c is missing),
`resolveBlock(identifier, logicalBlockIndex)`.  It succeeds for every allocated
index; an index outside the allocation is a malformed block index, which ends
the process (section 7). -/
def bfsFbnToDbn (inum fbn : Int) : M Int := do
  trace (.resolve inum fbn)
  fun st =>
    match dbnOf st inum fbn with
    | some dbn => .ok dbn st
    | none => .abort .badBlockIndex st

/-- Modelled from the spec: `bfsRead` (bfs.c is missing): fetch the whole logical
block `fbn` of file `inum` into the `B`-byte buffer `buf`
(`resolveBlock` then `readBlock`). -/
def bfsRead (B inum fbn : Int) (buf : Mem) : M Mem := do
  trace (.fetch inum fbn)
  fun st =>
    match dbnOf st inum fbn with
    | some dbn => .ok (fun j => if 0 ≤ j ∧ j < B then st.disk dbn j else buf j) st
    | none => .abort .badBlockIndex st

/-- Modelled from the spec: `bioWrite` (bio.c is missing),
`writeBlock(physicalAddress, B bytes)`: store the first `B` bytes of `buf` as
the contents of physical block `dbn`. -/
def bioWrite (B dbn : Int) (buf : Mem) : M Unit := do
  trace (.store dbn)
  fun st => .ok ()
    { st with disk := fun d j => if d = dbn ∧ 0 ≤ j ∧ j < B then buf j else st.disk d j }

/-- Result of an extension request. -/
inductive ExtendResult where
  | Ok
  | AllocationError
deriving DecidableEq

/-- Modelled from the spec: `bfsExtend` (bfs.c is missing),
`extend(identifier, newBlockCount) → Ok | AllocationError`: bring the block
allocation of file `inum` to `count` blocks with blocks taken from the free
blocks; when the store cannot supply them the request fails and allocates
nothing.  Block contents are not touched. -/
def bfsExtend (inum count : Int) : M ExtendResult := do
  trace (.extend inum count)
  fun st =>
    let ino := st.inodes inum
    let need := count.toNat - ino.blocks.length
    if need ≤ st.free.length then
      .ok .Ok { st with
        inodes := Function.update st.inodes inum { ino with blocks := ino.blocks ++ st.free.take need }
        free := st.free.drop need }
    else .ok .AllocationError st

/-- The call `malloc(BYTESPERBLOCK)`: a `B`-byte buffer of unspecified
contents. -/
def malloc : M Mem := fun st => .ok st.junk st

/-- The call `memcpy(buf + dOff, bioBuf + sOff, len)` from a `B`-byte heap block
into the caller's buffer.  Reading outside the block, or a negative length (a
huge `size_t`), is a memory fault. -/
def memcpyOut (B : Int) (dOff : Int) (bioBuf : Mem) (sOff len : Int) : M Unit :=
  if 0 ≤ sOff ∧ 0 ≤ len ∧ sOff + len ≤ B then do
    trace (.copyOut dOff len)
    fun st => .ok () { st with userBuf := memcpy st.userBuf dOff bioBuf sOff len }
  else FATAL .memoryFault

/-- The call `memcpy(bioBuf + dOff, src + sOff, len)` from the caller's buffer
into a `B`-byte heap block.  Writing outside the block, or a negative length (a
huge `size_t`), is a memory fault. -/
def memcpyIn (B : Int) (bioBuf : Mem) (dOff : Int) (src : Mem) (sOff len : Int) : M Mem :=
  if 0 ≤ dOff ∧ 0 ≤ len ∧ dOff + len ≤ B then pure (memcpy bioBuf dOff src sOff len)
  else FATAL .memoryFault

/-! ## fs.c -/

/-- The function `fsTell` of fs.c. -/
def fsTell (fd : Int) : M Int := bfsTell fd

/-- The function `fsSize` of fs.c. -/
def fsSize (fd : Int) : M Int := do
  let inum ← bfsFdToInum fd
  bfsGetSize inum

/-- The function `fsSeek` of fs.c. -/
def fsSeek (fd offset whence : Int) : M Int := do
  if offset < 0 then FATAL .EBADCURS
  let inum ← bfsFdToInum fd
  let ofte ← bfsFindOFTE inum
  if whence = SEEK_SET then
    oftSetCurs ofte offset
  else if whence = SEEK_CUR then do
    let curs ← oftCurs ofte
    oftSetCurs ofte (add32 curs offset)
  else if whence = SEEK_END then do
    let fend ← fsSize fd
    oftSetCurs ofte (add32 fend offset)
  else
    FATAL .EBADWHENCE
  pure 0

/-- The body of the `for` loop of `fsRead`, run for the `k` remaining values of
`i`; the state of the loop is `bufOffset`, which it returns. -/
def fsReadLoop (B inum cursor firstFBN : Int) : Nat → Int → Int → M Int
  | 0, _, bufOffset => pure bufOffset
  | k + 1, i, bufOffset => do
    let bioBuf ← malloc
    if i = firstFBN then
      let bioBuf ← bfsRead B inum i bioBuf
      let blockOffset := mod32 cursor B
      let numAllocations := sub32 B blockOffset
      memcpyOut B 0 bioBuf blockOffset numAllocations
      fsReadLoop B inum cursor firstFBN k (i + 1) (add32 bufOffset numAllocations)
    else
      let bioBuf ← bfsRead B inum i bioBuf
      memcpyOut B bufOffset bioBuf 0 B
      fsReadLoop B inum cursor firstFBN k (i + 1) (add32 bufOffset B)

/-- The function `fsRead` of fs.c, filling the caller's buffer `userBuf`. -/
def fsRead (B fd numb : Int) : M Int := do
  let inum ← bfsFdToInum fd
  let cursor ← bfsTell fd
  let firstFBN := div32 cursor B
  let totalBytes := add32 cursor numb
  let lastFBN := div32 totalBytes B
  let _ ← fsReadLoop B inum cursor firstFBN (lastFBN - firstFBN + 1).toNat firstFBN 0
  bfsSetCursor inum (add32 cursor numb)
  pure numb

/-- The body of the `for` loop of `fsRead` (fs.c) with the call
`bfsRead(inum, i, bioBuf)`, whose body is in the absent `bfs.c`, as the
parameter `fetch`. -/
def fsReadLoopWith (fetch : Int → Int → Mem → M Mem) (B inum cursor firstFBN : Int) :
    Nat → Int → Int → M Int
  | 0, _, bufOffset => pure bufOffset
  | k + 1, i, bufOffset => do
    let bioBuf ← malloc
    if i = firstFBN then
      let bioBuf ← fetch inum i bioBuf
      let blockOffset := mod32 cursor B
      let numAllocations := sub32 B blockOffset
      memcpyOut B 0 bioBuf blockOffset numAllocations
      fsReadLoopWith fetch B inum cursor firstFBN k (i + 1) (add32 bufOffset numAllocations)
    else
      let bioBuf ← fetch inum i bioBuf
      memcpyOut B bufOffset bioBuf 0 B
      fsReadLoopWith fetch B inum cursor firstFBN k (i + 1) (add32 bufOffset B)

/-- The function `fsRead` of fs.c with `bfsRead` as the parameter `fetch`;
`fsRead B` is `fsReadWith (bfsRead B) B`. -/
def fsReadWith (fetch : Int → Int → Mem → M Mem) (B fd numb : Int) : M Int := do
  let inum ← bfsFdToInum fd
  let cursor ← bfsTell fd
  let firstFBN := div32 cursor B
  let totalBytes := add32 cursor numb
  let lastFBN := div32 totalBytes B
  let _ ← fsReadLoopWith fetch B inum cursor firstFBN (lastFBN - firstFBN + 1).toNat firstFBN 0
  bfsSetCursor inum (add32 cursor numb)
  pure numb

/-- The value `fsWrite` computes for `fCurrentBlocks`, the number of blocks a
file of size `fSize` has. -/
def fCurrentBlocks (B fSize : Int) : Int :=
  if mod32 fSize B = 0 then div32 fSize B
  else if mod32 fSize B ≠ 0 then add32 (div32 fSize B) 1
  else 0

/-- The value `fsWrite` computes for `blocksNeeded`, the number of new blocks
that hold `memNeeded` bytes. -/
def blocksNeeded (B memNeeded : Int) : Int :=
  if mod32 memNeeded B = 0 then div32 memNeeded B
  else if mod32 memNeeded B ≠ 0 then add32 (div32 memNeeded B) 1
  else 0

/-- The growth step of `fsWrite` (the `if (fSize < newfSize)` block). -/
def fsWriteGrow (B inum fSize newfSize : Int) : M Unit := do
  if fSize < newfSize then
    let fTotalAvailable := mul32 (fCurrentBlocks B fSize) B
    if fTotalAvailable < newfSize then
      let memNeeded := sub32 newfSize fTotalAvailable
      let fbnSize := add32 (fCurrentBlocks B fSize) (blocksNeeded B memNeeded)
      let _ ← bfsExtend inum fbnSize
    bfsSetSize inum newfSize

/-- The body of the `for` loop of `fsWrite`, run for the `k` remaining values of
`i`; the state of the loop is `bufOffset`. -/
def fsWriteLoop (B inum cursor numb : Int) (buf : Mem) (fbnStart fbnEnd : Int) :
    Nat → Int → Int → M Int
  | 0, _, bufOffset => pure bufOffset
  | k + 1, i, bufOffset => do
    let bioBuf ← malloc
    if i = fbnStart then
      let bioBuf ← bfsRead B inum i bioBuf
      let firstBlockOffset := mod32 cursor B
      let firstBlockBytes :=
        if fbnStart = fbnEnd then numb
        else if fbnEnd > fbnStart then sub32 B firstBlockOffset
        else -1
      let bioBuf ← memcpyIn B bioBuf firstBlockOffset buf 0 firstBlockBytes
      let dbn ← bfsFbnToDbn inum i
      bioWrite B dbn bioBuf
      fsWriteLoop B inum cursor numb buf fbnStart fbnEnd k (i + 1) (add32 bufOffset firstBlockBytes)
    else if i = fbnEnd then
      let bioBuf ← bfsRead B inum i bioBuf
      let lastBlockStart := mul32 B fbnEnd
      let lastBlockBytes := sub32 (add32 cursor numb) lastBlockStart
      let bioBuf ← memcpyIn B bioBuf 0 buf (sub32 numb lastBlockBytes) lastBlockBytes
      let dbn ← bfsFbnToDbn inum i
      bioWrite B dbn bioBuf
      fsWriteLoop B inum cursor numb buf fbnStart fbnEnd k (i + 1) (add32 bufOffset lastBlockBytes)
    else
      let bioBuf ← memcpyIn B bioBuf 0 buf bufOffset B
      let dbn ← bfsFbnToDbn inum i
      bioWrite B dbn bioBuf
      fsWriteLoop B inum cursor numb buf fbnStart fbnEnd k (i + 1) (add32 bufOffset B)

/-- The function `fsWrite` of fs.c. -/
def fsWrite (B fd numb : Int) (buf : Mem) : M Int := do
  let inum ← bfsFdToInum fd
  let cursor ← bfsTell fd
  let fSize ← bfsGetSize inum
  let newfSize := add32 cursor numb
  fsWriteGrow B inum fSize newfSize
  let fbnStart := div32 cursor B
  let fbnEnd := div32 (add32 cursor numb) B
  let _ ← fsWriteLoop B inum cursor numb buf fbnStart fbnEnd (fbnEnd - fbnStart + 1).toNat fbnStart 0
  bfsSetCursor inum (add32 cursor numb)
  pure 0

/-- The function `fsOpen` of fs.c.  The constant `EFNF` (bfs.h) and the
functions `bfsLookupFile` and `bfsInumToFd` (bfs.c) are missing and are
parameters: the directory lookup returns the inode number of `fname` or `EFNF`,
the descriptor layer returns the descriptor it assigns to an inode number. -/
def fsOpen (EFNF : Int) (bfsLookupFile : String → M Int) (bfsInumToFd : Int → M Int)
    (fname : String) : M Int := do
  let inum ← bfsLookupFile fname
  if inum = EFNF then pure EFNF
  else bfsInumToFd inum

/-- The function `fsCreate` of fs.c, with the missing constant `EFNF` and the
missing functions `bfsCreateFile` and `bfsInumToFd` as parameters: the creation
returns the inode number of the new file or `EFNF`. -/
def fsCreate (EFNF : Int) (bfsCreateFile : String → M Int) (bfsInumToFd : Int → M Int)
    (fname : String) : M Int := do
  let inum ← bfsCreateFile fname
  if inum = EFNF then pure EFNF
  else bfsInumToFd inum

/-- The first half of the round trip: set the cursor to `o` and write the byte
sequence `v`. -/
def seekWrite (B fd o : Int) (v : List Byte) : M Int := do
  let _ ← fsSeek fd o SEEK_SET
  fsWrite B fd (v.length : Int) (fun j => v.getD j.toNat 0)

/-- A call of the file API on a handle: `fsSeek`, `fsRead` or `fsWrite` with its
arguments. -/
inductive Call where
  | seek (offset whence : Int)
  | read (numb : Int)
  | write (numb : Int) (buf : Mem)

/-- Run one call on the handle `fd`. -/
def runCall (B fd : Int) : Call → M Int
  | .seek offset whence => fsSeek fd offset whence
  | .read numb => fsRead B fd numb
  | .write numb buf => fsWrite B fd numb buf

/-- Run a sequence of calls on the handle `fd`, all of which succeed: the
state after the last call, or `none` when a call ends the process. -/
def runAll (B fd : Int) : List Call → State → Option State
  | [], st => some st
  | c :: cs, st =>
    match runCall B fd c st with
    | .ok _ st1 => runAll B fd cs st1
    | .abort _ _ => none

/-! ## Vocabulary of the statements -/

/-- The handle `fd` is open on file `inum`: slot `fd` of the open file table
holds a record for `inum`, and it is the record the table finds for `inum`. -/
def IsHandle (st : State) (fd inum : Int) : Prop :=
  (oftGet st fd).map (fun e => e.inum) = some inum ∧
  st.g_oft.findIdx? (fun e => e.inum == inum) = some fd.toNat

instance (st : State) (fd inum : Int) : Decidable (IsHandle st fd inum) := by
  unfold IsHandle; infer_instance

/-- The cursor of handle `fd` (0 when `fd` is not a slot of the table). -/
def cursorOf (st : State) (fd : Int) : Int :=
  match oftGet st fd with
  | some e => e.curs
  | none => 0

/-- The state `st` with the cursor of slot `fd` replaced by `c`. -/
def withCursor (st : State) (fd c : Int) : State :=
  match oftGet st fd with
  | some e => { st with g_oft := st.g_oft.set fd.toNat { e with curs := c } }
  | none => st

/-- The states `st` and `st1` hold the same store: they differ at most in the
caller's buffer and the trace. -/
def SameStore (st st1 : State) : Prop :=
  st1.g_oft = st.g_oft ∧ st1.inodes = st.inodes ∧ st1.disk = st.disk ∧
  st1.free = st.free ∧ st1.junk = st.junk

/-- The states `st` and `st1` hold the same metadata: they differ at most in the
disk contents, the caller's buffer and the trace. -/
def SameMeta (st st1 : State) : Prop :=
  st1.g_oft = st.g_oft ∧ st1.inodes = st.inodes ∧ st1.free = st.free ∧ st1.junk = st.junk

/-- Every outcome of `m`, returning or aborting, is `R`-related to the state in
which `m` started. -/
def Preserves (R : State → State → Prop) {α : Type} (m : M α) : Prop :=
  ∀ st, R st (m st).state

/-- The byte range `[c, c + n)` of a write or read in blocks of `B` bytes: it
starts at offset `r1` of block `first` and ends before offset `r2` of block
`last`; all quantities are `i32` values. -/
structure Span (B c n first last r1 r2 : Int) : Prop where
  hB : 0 < B
  hBmax : B ≤ INT32_MAX
  hc : 0 ≤ c
  hn : 0 ≤ n
  hcn : c + n ≤ INT32_MAX
  hfirst : c = B * first + r1
  hr1 : 0 ≤ r1
  hr1B : r1 < B
  hlast : c + n = B * last + r2
  hr2 : 0 ≤ r2
  hr2B : r2 < B

/-- The byte at position `q` of the byte stream of file `inum`, the
concatenation of its logical blocks 0, 1, 2, ... of `B` bytes each (0 where no
block is allocated). -/
def fileByte (B : Int) (st : State) (inum q : Int) : Byte :=
  match dbnOf st inum (q / B) with
  | some d => st.disk d (q % B)
  | none => 0

/-- The number of blocks allocated to file `inum`. -/
def blockCount (st : State) (inum : Int) : Int := ((st.inodes inum).blocks.length : Int)

/-- Following the spec's words: `ceil(a / B)`, the standard ceiling division. -/
def ceilDiv (a B : Int) : Int := (a + B - 1) / B

/-- The extension requests of a trace, in order: file and requested block
count. -/
def extendRequests : List Event → List (Int × Int)
  | [] => []
  | .extend inum count :: l => (inum, count) :: extendRequests l
  | .fetch _ _ :: l => extendRequests l
  | .resolve _ _ :: l => extendRequests l
  | .store _ :: l => extendRequests l
  | .copyOut _ _ :: l => extendRequests l

/-- The block fetches of a trace, in order: file and logical block index. -/
def fetchedBlocks : List Event → List (Int × Int)
  | [] => []
  | .fetch inum fbn :: l => (inum, fbn) :: fetchedBlocks l
  | .extend _ _ :: l => fetchedBlocks l
  | .resolve _ _ :: l => fetchedBlocks l
  | .store _ :: l => fetchedBlocks l
  | .copyOut _ _ :: l => fetchedBlocks l

/-- The number of bytes copied into the caller's buffer in a trace: the sum of
the lengths of its copies. -/
def copiedBytes : List Event → Int
  | [] => 0
  | .copyOut _ len :: l => len + copiedBytes l
  | .extend _ _ :: l => copiedBytes l
  | .resolve _ _ :: l => copiedBytes l
  | .store _ :: l => copiedBytes l
  | .fetch _ _ :: l => copiedBytes l

/-- The events a call added to the trace, the call starting in `st` and ending
in `st1`. -/
def callTrace (st st1 : State) : List Event := st1.log.drop st.log.length

/-- The `k` block indices from `i` on: `i`, `i + 1`, ..., `i + k - 1`. -/
def blockRange : Int → Nat → List Int
  | _, 0 => []
  | i, k + 1 => i :: blockRange (i + 1) k

/-- The trace of `st1` is the trace of `st` followed by events among which the
only block fetches are of the logical blocks `first` and `last`. -/
def FetchesOnly (first last : Int) (st st1 : State) : Prop :=
  ∃ L, st1.log = st.log ++ L ∧ ∀ inum f, Event.fetch inum f ∈ L → f = first ∨ f = last

/-- The states `st` and `st1` have the same extension requests in their
traces. -/
def SameRequests (st st1 : State) : Prop :=
  extendRequests st1.log = extendRequests st.log

/-- The size of file `inum`. -/
def fileSize (st : State) (inum : Int) : Int := (st.inodes inum).size

/-- The call `c`, made in state `st` on the handle `fd` of file `inum`, has a
non-negative byte count and computes its new cursor without leaving the `i32`
range. -/
def callInRange (st : State) (fd inum : Int) : Call → Bool
  | .seek offset whence =>
    decide ((whence = SEEK_CUR → cursorOf st fd + offset ≤ INT32_MAX) ∧
      (whence = SEEK_END → fileSize st inum + offset ≤ INT32_MAX))
  | .read numb => decide (0 ≤ numb ∧ cursorOf st fd + numb ≤ INT32_MAX)
  | .write numb _ => decide (0 ≤ numb ∧ cursorOf st fd + numb ≤ INT32_MAX)

/-- Every call of the sequence is in range in the state in which it is made. -/
def allInRange (B fd inum : Int) : List Call → State → Bool
  | [], _ => true
  | c :: cs, st => callInRange st fd inum c && allInRange B fd inum cs (runCall B fd c st).state


/-- An `i32` value. -/
def IsI32 (x : Int) : Prop := INT32_MIN ≤ x ∧ x ≤ INT32_MAX

instance (x : Int) : Decidable (IsI32 x) := by unfold IsI32; infer_instance

/-! ## Example states -/

/-- A file (inode 7) of size 0 with no block, open on descriptor 0 with cursor
0, in a store with four free blocks. -/
def emptyFile : State :=
  { g_oft := [⟨7, 0⟩], inodes := fun _ => ⟨0, []⟩, disk := fun _ _ => 0,
    free := [20, 21, 22, 23], junk := fun _ => 0, userBuf := fun _ => 0, log := [] }

/-- The input bytes 1, 2, 3, ... (modulo 251) of the examples. -/
def pattern : Mem := fun j => j.toNat % 251 + 1

/-- A caller's buffer filled with the byte 255. -/
def ones : Mem := fun _ => 255

/-- A file (inode 7) of size 10 whose single block is physical block 20, holding
the bytes of `pattern`; open on descriptor 0 with cursor 0; three free
blocks. -/
def smallFile : State :=
  { g_oft := [⟨7, 0⟩], inodes := fun _ => ⟨10, [20]⟩,
    disk := fun d j => if d = 20 then pattern j else 0,
    free := [21, 22, 23], junk := fun _ => 0, userBuf := fun _ => 0, log := [] }

/-- A file (inode 7) of size `5 * 512` on the physical blocks 10 to 14, every
byte of which is 9; open on descriptor 0 with cursor 512. -/
def fiveBlockFile : State :=
  { g_oft := [⟨7, 512⟩], inodes := fun _ => ⟨2560, [10, 11, 12, 13, 14]⟩,
    disk := fun _ _ => 9, free := [21, 22, 23], junk := fun _ => 0, userBuf := fun _ => 0,
    log := [] }

/-- A file (inode 7) of size 512 whose single block is physical block 20, holding
the bytes of `pattern`; open on descriptor 0 with cursor 0; three free
blocks. -/
def oneBlockFile : State :=
  { g_oft := [⟨7, 0⟩], inodes := fun _ => ⟨512, [20]⟩,
    disk := fun d j => if d = 20 then pattern j else 0,
    free := [21, 22, 23], junk := fun _ => 0, userBuf := fun _ => 0, log := [] }

/-- A directory lookup for the examples: the name `"a"` is inode 7, every
other name is reported absent with the value `EFNF`. -/
def lookupOnlyA (EFNF : Int) (fname : String) : M Int :=
  pure (if fname = "a" then 7 else EFNF)

/-- The empty file of `emptyFile` with the cursor at 510. -/
def emptyFileAt510 : State := { emptyFile with g_oft := [⟨7, 510⟩] }

/-- The file of `smallFile` in a store without free block. -/
def smallFileFull : State := { smallFile with free := [] }

/-- The file of `smallFile` with the cursor at 20, past the end of the file. -/
def smallFilePastEnd : State := { smallFile with g_oft := [⟨7, 20⟩] }

/-! ## Basic facts -/

theorem bind_apply {α β : Type} (m : M α) (f : α → M β) (st : State) :
    (m >>= f) st = match m st with
      | .ok a st1 => f a st1
      | .abort e st1 => .abort e st1 := rfl

theorem pure_apply {α : Type} (a : α) (st : State) : (pure a : M α) st = .ok a st := rfl

theorem wrap32_eq {x : Int} (h : IsI32 x) : wrap32 x = x := by
  unfold IsI32 INT32_MIN INT32_MAX at h
  unfold wrap32
  omega

theorem mul_le_of_le {B a b : Int} (hB : 0 < B) (h : a ≤ b) : B * a ≤ B * b :=
  Int.mul_le_mul_of_nonneg_left h (le_of_lt hB)

theorem mul_step {B a b : Int} (hB : 0 < B) (h : a < b) : B * a + B ≤ B * b := by
  have h1 : B * (a + 1) ≤ B * b := mul_le_of_le hB (by omega)
  have h2 : B * (a + 1) = B * a + B := by ring
  omega

theorem lt_of_mul_lt {B a b : Int} (hB : 0 < B) (h : B * a < B * b) : a < b := by
  by_contra hn
  have h1 : B * b ≤ B * a := mul_le_of_le hB (by omega)
  omega

theorem div32_of_nonneg {a B : Int} (ha : 0 ≤ a) (hB : 0 < B) : div32 a B = a / B := by
  unfold div32
  exact Int.tdiv_eq_ediv ha (le_of_lt hB)

theorem mod32_of_nonneg {a B : Int} (ha : 0 ≤ a) (hB : 0 < B) : mod32 a B = a % B := by
  unfold mod32
  exact Int.tmod_eq_emod ha (le_of_lt hB)

theorem ediv_of_decomp {B q r : Int} (hB : 0 < B) (h0 : 0 ≤ r) (h1 : r < B) :
    (B * q + r) / B = q := by
  have e1 : B * q + r = r + B * q := by ring
  rw [e1, Int.add_mul_ediv_left _ _ (ne_of_gt hB), Int.ediv_eq_zero_of_lt h0 h1]
  simp

theorem emod_of_decomp {B q r : Int} (h0 : 0 ≤ r) (h1 : r < B) :
    (B * q + r) % B = r := by
  have e1 : B * q + r = r + B * q := by ring
  rw [e1, Int.add_mul_emod_self_left, Int.emod_eq_of_lt h0 h1]

/-- Every non-negative range has its block decomposition. -/
theorem span_of_range {B c n : Int} (hB : 0 < B) (hBmax : B ≤ INT32_MAX) (hc : 0 ≤ c)
    (hn : 0 ≤ n) (hcn : c + n ≤ INT32_MAX) :
    Span B c n (c / B) ((c + n) / B) (c % B) ((c + n) % B) where
  hB := hB
  hBmax := hBmax
  hc := hc
  hn := hn
  hcn := hcn
  hfirst := (Int.ediv_add_emod c B).symm
  hr1 := Int.emod_nonneg c (ne_of_gt hB)
  hr1B := Int.emod_lt_of_pos c hB
  hlast := (Int.ediv_add_emod (c + n) B).symm
  hr2 := Int.emod_nonneg (c + n) (ne_of_gt hB)
  hr2B := Int.emod_lt_of_pos (c + n) hB

theorem Span.first_nonneg {B c n first last r1 r2 : Int} (sp : Span B c n first last r1 r2) :
    0 ≤ first := by
  have h1 := sp.hB
  have h2 := sp.hc
  have h3 := sp.hfirst
  have h4 := sp.hr1B
  by_contra hneg
  have h5 : B * first + B ≤ B * 0 := mul_step h1 (by omega)
  simp only [Int.mul_zero] at h5
  omega

theorem Span.first_le_last {B c n first last r1 r2 : Int} (sp : Span B c n first last r1 r2) :
    first ≤ last := by
  have h1 := sp.hB
  have h3 := sp.hfirst
  have h4 := sp.hlast
  have h5 := sp.hr1
  have h6 := sp.hr2B
  have h7 := sp.hn
  by_contra hneg
  have h8 : B * last + B ≤ B * first := mul_step h1 (by omega)
  omega

theorem Span.div_first {B c n first last r1 r2 : Int} (sp : Span B c n first last r1 r2) :
    div32 c B = first := by
  rw [div32_of_nonneg sp.hc sp.hB, sp.hfirst]
  exact ediv_of_decomp sp.hB sp.hr1 sp.hr1B

theorem Span.mod_first {B c n first last r1 r2 : Int} (sp : Span B c n first last r1 r2) :
    mod32 c B = r1 := by
  rw [mod32_of_nonneg sp.hc sp.hB, sp.hfirst]
  exact emod_of_decomp sp.hr1 sp.hr1B

theorem Span.add_eq {B c n first last r1 r2 : Int} (sp : Span B c n first last r1 r2) :
    add32 c n = c + n := by
  unfold add32
  apply wrap32_eq
  have h1 := sp.hc
  have h2 := sp.hn
  have h3 := sp.hcn
  unfold IsI32 INT32_MIN
  unfold INT32_MAX at h3 ⊢
  omega

theorem Span.div_last {B c n first last r1 r2 : Int} (sp : Span B c n first last r1 r2) :
    div32 (add32 c n) B = last := by
  have h1 := sp.hc
  have h2 := sp.hn
  rw [sp.add_eq, div32_of_nonneg (by omega) sp.hB, sp.hlast]
  exact ediv_of_decomp sp.hB sp.hr2 sp.hr2B

theorem isHandle_get {st : State} {fd inum : Int} (h : IsHandle st fd inum) :
    0 ≤ fd ∧ oftGet st fd = some ⟨inum, cursorOf st fd⟩ := by
  obtain ⟨h1, _⟩ := h
  unfold cursorOf
  unfold oftGet at h1 ⊢
  by_cases hfd : 0 ≤ fd
  · simp only [hfd, if_true] at h1 ⊢
    cases hg : st.g_oft[fd.toNat]? with
    | none => simp [hg] at h1
    | some e =>
      simp only [hg, Option.map_some', Option.some.injEq] at h1
      subst h1
      exact ⟨trivial, rfl⟩
  · simp [hfd] at h1

theorem bfsFdToInum_eq {st : State} {fd inum : Int} (h : IsHandle st fd inum) :
    bfsFdToInum fd st = .ok inum st := by
  unfold bfsFdToInum
  rw [(isHandle_get h).2]

theorem bfsTell_eq {st : State} {fd inum : Int} (h : IsHandle st fd inum) :
    bfsTell fd st = .ok (cursorOf st fd) st := by
  unfold bfsTell
  rw [(isHandle_get h).2]

theorem bfsFindOFTE_eq {st : State} {fd inum : Int} (h : IsHandle st fd inum) :
    bfsFindOFTE inum st = .ok fd st := by
  unfold bfsFindOFTE
  rw [h.2]
  have := (isHandle_get h).1
  simp only [Res.ok.injEq, and_true]
  omega

theorem findIdx?_set_same {p : OFTE → Bool} (l : List OFTE) (i : Nat) (e e1 : OFTE) (s : Nat)
    (hg : l[i]? = some e) (hp : p e1 = p e) :
    (l.set i e1).findIdx? p s = l.findIdx? p s := by
  induction l generalizing i s with
  | nil => simp
  | cons x xs ih =>
    cases i with
    | zero =>
      simp only [List.getElem?_cons_zero, Option.some.injEq] at hg
      subst hg
      simp [hp]
    | succ j =>
      simp only [List.getElem?_cons_succ] at hg
      simp only [List.set_cons_succ, List.findIdx?_cons]
      rw [ih j (s + 1) hg]

theorem oftSetCurs_eq {st : State} {fd inum : Int} (h : IsHandle st fd inum) (c : Int) :
    oftSetCurs fd c st = .ok () (withCursor st fd c) := by
  unfold oftSetCurs withCursor
  rw [(isHandle_get h).2]

theorem oftCurs_eq {st : State} {fd inum : Int} (h : IsHandle st fd inum) :
    oftCurs fd st = .ok (cursorOf st fd) st := by
  unfold oftCurs
  rw [(isHandle_get h).2]

theorem bfsSetCursor_eq {st : State} {fd inum : Int} (h : IsHandle st fd inum) (c : Int) :
    bfsSetCursor inum c st = .ok () (withCursor st fd c) := by
  unfold bfsSetCursor
  rw [bind_apply, bfsFindOFTE_eq h]
  exact oftSetCurs_eq h c

theorem isHandle_congr {st st1 : State} {fd inum : Int} (hg : st1.g_oft = st.g_oft)
    (h : IsHandle st fd inum) : IsHandle st1 fd inum := by
  unfold IsHandle oftGet at *
  rw [hg]
  exact h

theorem cursorOf_congr {st st1 : State} (fd : Int) (hg : st1.g_oft = st.g_oft) :
    cursorOf st1 fd = cursorOf st fd := by
  unfold cursorOf oftGet
  rw [hg]

theorem withCursor_g_oft {st : State} {fd inum : Int} (h : IsHandle st fd inum) (c : Int) :
    (withCursor st fd c).g_oft = st.g_oft.set fd.toNat ⟨inum, c⟩ := by
  unfold withCursor
  rw [(isHandle_get h).2]

theorem withCursor_inodes (st : State) (fd c : Int) : (withCursor st fd c).inodes = st.inodes := by
  unfold withCursor
  cases oftGet st fd <;> rfl

theorem withCursor_disk (st : State) (fd c : Int) : (withCursor st fd c).disk = st.disk := by
  unfold withCursor
  cases oftGet st fd <;> rfl

theorem withCursor_free (st : State) (fd c : Int) : (withCursor st fd c).free = st.free := by
  unfold withCursor
  cases oftGet st fd <;> rfl

theorem withCursor_userBuf (st : State) (fd c : Int) :
    (withCursor st fd c).userBuf = st.userBuf := by
  unfold withCursor
  cases oftGet st fd <;> rfl

theorem withCursor_log (st : State) (fd c : Int) : (withCursor st fd c).log = st.log := by
  unfold withCursor
  cases oftGet st fd <;> rfl

theorem get_of_isHandle {st : State} {fd inum : Int} (h : IsHandle st fd inum) :
    st.g_oft[fd.toNat]? = some ⟨inum, cursorOf st fd⟩ := by
  have h2 := isHandle_get h
  have h3 := h2.2
  unfold oftGet at h3
  simpa [h2.1] using h3

theorem isHandle_withCursor {st : State} {fd inum : Int} (h : IsHandle st fd inum) (c : Int) :
    IsHandle (withCursor st fd c) fd inum := by
  have hget := get_of_isHandle h
  have h0 := (isHandle_get h).1
  have hlt : fd.toNat < st.g_oft.length := by
    rcases Nat.lt_or_ge fd.toNat st.g_oft.length with hl | hl
    · exact hl
    · rw [List.getElem?_eq_none hl] at hget
      cases hget
  refine ⟨?_, ?_⟩
  · unfold oftGet
    rw [withCursor_g_oft h c]
    simp [h0, List.getElem?_set, hlt]
  · rw [withCursor_g_oft h c, findIdx?_set_same _ _ _ _ _ hget (by rfl)]
    exact h.2

theorem cursorOf_withCursor {st : State} {fd inum : Int} (h : IsHandle st fd inum) (c : Int) :
    cursorOf (withCursor st fd c) fd = c := by
  have hget := get_of_isHandle h
  have h0 := (isHandle_get h).1
  have hlt : fd.toNat < st.g_oft.length := by
    rcases Nat.lt_or_ge fd.toNat st.g_oft.length with hl | hl
    · exact hl
    · rw [List.getElem?_eq_none hl] at hget
      cases hget
  unfold cursorOf oftGet
  rw [withCursor_g_oft h c]
  simp [h0, List.getElem?_set, hlt]

theorem fsSize_eq {st : State} {fd inum : Int} (h : IsHandle st fd inum) :
    fsSize fd st = .ok (fileSize st inum) st := by
  unfold fsSize
  rw [bind_apply, bfsFdToInum_eq h]
  rfl

/-- The outcome of `fsSeek` on an open handle with a non-negative offset. -/
theorem fsSeek_eq {st : State} {fd inum : Int} (h : IsHandle st fd inum) (x whence : Int)
    (hx : 0 ≤ x) :
    fsSeek fd x whence st =
      if whence = SEEK_SET then .ok 0 (withCursor st fd x)
      else if whence = SEEK_CUR then .ok 0 (withCursor st fd (add32 (cursorOf st fd) x))
      else if whence = SEEK_END then .ok 0 (withCursor st fd (add32 (fileSize st inum) x))
      else .abort .EBADWHENCE st := by
  have hx2 : ¬ x < 0 := by omega
  unfold fsSeek
  simp only [hx2, if_false, bind_apply, pure_apply, bfsFdToInum_eq h, bfsFindOFTE_eq h]
  have d1 : ¬ SEEK_CUR = SEEK_SET := by decide
  have d2 : ¬ SEEK_END = SEEK_SET := by decide
  have d3 : ¬ SEEK_END = SEEK_CUR := by decide
  by_cases h1 : whence = SEEK_SET
  · simp only [h1, if_true, bind_apply, oftSetCurs_eq h, pure_apply]
  · by_cases h2 : whence = SEEK_CUR
    · simp only [h2, d1, if_true, if_false, bind_apply, oftSetCurs_eq h, oftCurs_eq h,
        pure_apply]
    · by_cases h3 : whence = SEEK_END
      · simp only [h3, d2, d3, if_true, if_false, bind_apply, oftSetCurs_eq h, fsSize_eq h,
          pure_apply]
      · simp only [h1, h2, h3, if_false, bind_apply, FATAL]

/-- The outcome of `fsSeek` with a negative offset. -/
theorem fsSeek_neg (st : State) (fd x whence : Int) (hx : x < 0) :
    fsSeek fd x whence st = .abort .EBADCURS st := by
  unfold fsSeek
  simp only [hx, if_true, bind_apply, FATAL]

theorem fsSeek_frame (st : State) (fd x whence : Int) :
    (fsSeek fd x whence st).state.inodes = st.inodes ∧
    (fsSeek fd x whence st).state.disk = st.disk ∧
    (fsSeek fd x whence st).state.free = st.free := by
  by_cases hx : x < 0
  · rw [fsSeek_neg st fd x whence hx]
    exact ⟨rfl, rfl, rfl⟩
  · unfold fsSeek
    simp only [hx, if_false, bind_apply, pure_apply]
    unfold bfsFdToInum
    cases hg : oftGet st fd with
    | none => exact ⟨rfl, rfl, rfl⟩
    | some e =>
      simp only []
      unfold bfsFindOFTE
      cases hf : st.g_oft.findIdx? (fun e1 => e1.inum == e.inum) with
      | none => exact ⟨rfl, rfl, rfl⟩
      | some i =>
        simp only []
        have hset : ∀ c : Int, (oftSetCurs (i : Int) c st).state.inodes = st.inodes ∧
            (oftSetCurs (i : Int) c st).state.disk = st.disk ∧
            (oftSetCurs (i : Int) c st).state.free = st.free := by
          intro c
          unfold oftSetCurs
          cases oftGet st (i : Int) <;> exact ⟨rfl, rfl, rfl⟩
        have hbind : ∀ c : Int,
            ((do oftSetCurs (i : Int) c; pure (0 : Int) : M Int) st).state =
              (oftSetCurs (i : Int) c st).state := by
          intro c
          rw [bind_apply]
          cases oftSetCurs (i : Int) c st <;> rfl
        split
        · rw [hbind]; exact hset x
        · split
          · rw [bind_apply]
            unfold oftCurs
            cases oftGet st (i : Int) with
            | none => exact ⟨rfl, rfl, rfl⟩
            | some e2 =>
              simp only []
              rw [hbind]; exact hset _
          · split
            · rw [bind_apply]
              unfold fsSize
              rw [bind_apply]
              unfold bfsFdToInum
              rw [hg]
              simp only [bfsGetSize]
              rw [hbind]; exact hset _
            · exact ⟨rfl, rfl, rfl⟩

/-- C6: on an open handle and for an offset `x ≥ 0` (cursor, size and the sums
within `i32`), `fsSeek` returns 0 and sets the cursor to `x` for `SEEK_SET`, to
the old cursor plus `x` for `SEEK_CUR` and to the file size plus `x` for
`SEEK_END`, whatever the file size; `fsTell` after `SEEK_SET x` returns `x`,
`SEEK_CUR 0` keeps the cursor, `fsTell` after `SEEK_END 0` returns the size;
and no `fsSeek` call changes an inode (size, block allocation), a disk block
or the free blocks. -/
theorem fsSeek_cursor_algebra (st : State) (fd inum x : Int) (h : IsHandle st fd inum)
    (hx : 0 ≤ x) (hc : IsI32 (cursorOf st fd)) (hs : IsI32 (fileSize st inum))
    (hcx : cursorOf st fd + x ≤ INT32_MAX) (hsx : fileSize st inum + x ≤ INT32_MAX) :
    ((fsSeek fd x SEEK_SET st).value = some 0 ∧
      cursorOf (fsSeek fd x SEEK_SET st).state fd = x) ∧
    ((fsSeek fd x SEEK_CUR st).value = some 0 ∧
      cursorOf (fsSeek fd x SEEK_CUR st).state fd = cursorOf st fd + x) ∧
    ((fsSeek fd x SEEK_END st).value = some 0 ∧
      cursorOf (fsSeek fd x SEEK_END st).state fd = fileSize st inum + x) ∧
    (fsTell fd (fsSeek fd x SEEK_SET st).state).value = some x ∧
    cursorOf (fsSeek fd 0 SEEK_CUR st).state fd = cursorOf st fd ∧
    (fsTell fd (fsSeek fd 0 SEEK_END st).state).value = some (fileSize st inum) ∧
    (∀ y whence : Int,
      (fsSeek fd y whence st).state.inodes = st.inodes ∧
      (fsSeek fd y whence st).state.disk = st.disk ∧
      (fsSeek fd y whence st).state.free = st.free) := by
  have d1 : ¬ SEEK_CUR = SEEK_SET := by decide
  have d2 : ¬ SEEK_END = SEEK_SET := by decide
  have d3 : ¬ SEEK_END = SEEK_CUR := by decide
  have eSet : fsSeek fd x SEEK_SET st = .ok 0 (withCursor st fd x) := by
    rw [fsSeek_eq h x SEEK_SET hx]; simp only [if_true]
  have eCur : ∀ y, 0 ≤ y → fsSeek fd y SEEK_CUR st =
      .ok 0 (withCursor st fd (add32 (cursorOf st fd) y)) := by
    intro y hy
    rw [fsSeek_eq h y SEEK_CUR hy]; simp only [d1, if_true, if_false]
  have eEnd : ∀ y, 0 ≤ y → fsSeek fd y SEEK_END st =
      .ok 0 (withCursor st fd (add32 (fileSize st inum) y)) := by
    intro y hy
    rw [fsSeek_eq h y SEEK_END hy]; simp only [d2, d3, if_true, if_false]
  have aCur : add32 (cursorOf st fd) x = cursorOf st fd + x := by
    unfold add32
    apply wrap32_eq
    unfold IsI32 at *
    omega
  have aEnd : add32 (fileSize st inum) x = fileSize st inum + x := by
    unfold add32
    apply wrap32_eq
    unfold IsI32 at *
    omega
  have aCur0 : add32 (cursorOf st fd) 0 = cursorOf st fd := by
    unfold add32
    rw [Int.add_zero]
    exact wrap32_eq hc
  have aEnd0 : add32 (fileSize st inum) 0 = fileSize st inum := by
    unfold add32
    rw [Int.add_zero]
    exact wrap32_eq hs
  refine ⟨⟨?_, ?_⟩, ⟨?_, ?_⟩, ⟨?_, ?_⟩, ?_, ?_, ?_, ?_⟩
  · rw [eSet]; rfl
  · rw [eSet]; exact cursorOf_withCursor h x
  · rw [eCur x hx]; rfl
  · rw [eCur x hx, aCur]; exact cursorOf_withCursor h _
  · rw [eEnd x hx]; rfl
  · rw [eEnd x hx, aEnd]; exact cursorOf_withCursor h _
  · rw [eSet]
    show (fsTell fd (withCursor st fd x)).value = some x
    unfold fsTell
    rw [bfsTell_eq (isHandle_withCursor h x), cursorOf_withCursor h x]
    rfl
  · rw [eCur 0 (le_refl 0), aCur0]; exact cursorOf_withCursor h _
  · rw [eEnd 0 (le_refl 0), aEnd0]
    show (fsTell fd (withCursor st fd (fileSize st inum))).value = some (fileSize st inum)
    unfold fsTell
    rw [bfsTell_eq (isHandle_withCursor h _), cursorOf_withCursor h _]
    rfl
  · intro y whence
    exact fsSeek_frame st fd y whence

/-- C7: on an open handle, `fsSeek` ends with `EBADCURS` exactly when the offset
is negative (whatever `whence`), ends with `EBADWHENCE` exactly when the offset
is non-negative and `whence` is none of `SEEK_SET`, `SEEK_CUR`, `SEEK_END`, and
in both cases leaves the whole state, hence the cursor, as it was. -/
theorem fsSeek_rejection (st : State) (fd inum x whence : Int) (h : IsHandle st fd inum) :
    ((fsSeek fd x whence st).fatal = some .EBADCURS ↔ x < 0) ∧
    ((fsSeek fd x whence st).fatal = some .EBADWHENCE ↔
      (0 ≤ x ∧ whence ≠ SEEK_SET ∧ whence ≠ SEEK_CUR ∧ whence ≠ SEEK_END)) ∧
    (((fsSeek fd x whence st).fatal = some .EBADCURS ∨
        (fsSeek fd x whence st).fatal = some .EBADWHENCE) →
      (fsSeek fd x whence st).state = st ∧
      cursorOf (fsSeek fd x whence st).state fd = cursorOf st fd) := by
  by_cases hx : x < 0
  · rw [fsSeek_neg st fd x whence hx]
    refine ⟨⟨fun _ => hx, fun _ => rfl⟩, ⟨?_, ?_⟩, fun _ => ⟨rfl, rfl⟩⟩
    · intro hf
      cases hf
    · intro hf
      omega
  · have hx0 : 0 ≤ x := by omega
    have d1 : ¬ SEEK_CUR = SEEK_SET := by decide
    have d2 : ¬ SEEK_END = SEEK_SET := by decide
    have d3 : ¬ SEEK_END = SEEK_CUR := by decide
    rw [fsSeek_eq h x whence hx0]
    by_cases h1 : whence = SEEK_SET
    · simp [h1, Res.fatal, hx]
    · by_cases h2 : whence = SEEK_CUR
      · simp [h2, d1, Res.fatal, hx]
      · by_cases h3 : whence = SEEK_END
        · simp [h3, d2, d3, Res.fatal, hx]
        · simp [h1, h2, h3, Res.fatal, Res.state, hx, hx0]

/-- Witness of `fsSeek_cursor_algebra`: offset 5 on the fresh handle of an
empty file. -/
theorem fsSeek_cursor_algebra_witness :
    IsHandle emptyFile 0 7 ∧
    (fsTell 0 (fsSeek 0 5 SEEK_SET emptyFile).state).value = some 5 ∧
    cursorOf (fsSeek 0 5 SEEK_END emptyFile).state 0 = fileSize emptyFile 7 + 5 :=
  ⟨by decide,
    (fsSeek_cursor_algebra emptyFile 0 7 5 (by decide) (by decide) (by decide) (by decide)
      (by decide) (by decide)).2.2.2.1,
    (fsSeek_cursor_algebra emptyFile 0 7 5 (by decide) (by decide) (by decide) (by decide)
      (by decide) (by decide)).2.2.1.2⟩

/-- Witness of `fsSeek_rejection`: `fsSeek(fd, -1, SEEK_SET)` on the fresh handle
of an empty file. -/
theorem fsSeek_rejection_witness :
    IsHandle emptyFile 0 7 ∧
    ((fsSeek 0 (-1) SEEK_SET emptyFile).fatal = some .EBADCURS ↔ (-1 : Int) < 0) :=
  ⟨by decide, (fsSeek_rejection emptyFile 0 7 (-1) SEEK_SET (by decide)).1⟩

/-! ## Frame reasoning -/

theorem sameStore_refl (st : State) : SameStore st st := ⟨rfl, rfl, rfl, rfl, rfl⟩

theorem sameStore_trans {a b c : State} (h1 : SameStore a b) (h2 : SameStore b c) :
    SameStore a c := by
  obtain ⟨a1, a2, a3, a4, a5⟩ := h1
  obtain ⟨b1, b2, b3, b4, b5⟩ := h2
  exact ⟨b1.trans a1, b2.trans a2, b3.trans a3, b4.trans a4, b5.trans a5⟩

theorem sameMeta_refl (st : State) : SameMeta st st := ⟨rfl, rfl, rfl, rfl⟩

theorem sameMeta_trans {a b c : State} (h1 : SameMeta a b) (h2 : SameMeta b c) :
    SameMeta a c := by
  obtain ⟨a1, a2, a3, a4⟩ := h1
  obtain ⟨b1, b2, b3, b4⟩ := h2
  exact ⟨b1.trans a1, b2.trans a2, b3.trans a3, b4.trans a4⟩

theorem sameStore_sameMeta {a b : State} (h : SameStore a b) : SameMeta a b :=
  ⟨h.1, h.2.1, h.2.2.2.1, h.2.2.2.2⟩

theorem preserves_bind {R : State → State → Prop} (ht : ∀ a b c, R a b → R b c → R a c)
    {α β : Type} {m : M α} {f : α → M β} (hm : Preserves R m) (hf : ∀ a, Preserves R (f a)) :
    Preserves R (m >>= f) := by
  intro st
  rw [bind_apply]
  have h1 := hm st
  cases hms : m st with
  | ok a s1 =>
    rw [hms] at h1
    exact ht _ _ _ h1 (hf a s1)
  | abort e s1 =>
    rw [hms] at h1
    exact h1

theorem preserves_pure {R : State → State → Prop} (hr : ∀ a, R a a) {α : Type} (a : α) :
    Preserves R (pure a : M α) := fun st => hr st

theorem preserves_FATAL {R : State → State → Prop} (hr : ∀ a, R a a) {α : Type} (e : Fatal) :
    Preserves R (FATAL e : M α) := fun st => hr st

theorem preserves_ite {R : State → State → Prop} {α : Type} (c : Prop) [Decidable c]
    {m1 m2 : M α} (h1 : Preserves R m1) (h2 : Preserves R m2) :
    Preserves R (if c then m1 else m2) := by
  split
  · exact h1
  · exact h2

theorem sameStore_bind {α β : Type} {m : M α} {f : α → M β} (hm : Preserves SameStore m)
    (hf : ∀ a, Preserves SameStore (f a)) : Preserves SameStore (m >>= f) :=
  @preserves_bind SameStore (fun _ _ _ h1 h2 => sameStore_trans h1 h2) _ _ _ _ hm hf

theorem sameMeta_bind {α β : Type} {m : M α} {f : α → M β} (hm : Preserves SameMeta m)
    (hf : ∀ a, Preserves SameMeta (f a)) : Preserves SameMeta (m >>= f) :=
  @preserves_bind SameMeta (fun _ _ _ h1 h2 => sameMeta_trans h1 h2) _ _ _ _ hm hf

theorem sameMeta_of_sameStore {α : Type} {m : M α} (h : Preserves SameStore m) :
    Preserves SameMeta m := fun st => sameStore_sameMeta (h st)

theorem sameStore_trace (ev : Event) : Preserves SameStore (trace ev) :=
  fun _ => ⟨rfl, rfl, rfl, rfl, rfl⟩

theorem sameStore_malloc : Preserves SameStore malloc := fun st => sameStore_refl st

theorem sameStore_bfsRead (B inum fbn : Int) (buf : Mem) :
    Preserves SameStore (bfsRead B inum fbn buf) := by
  unfold bfsRead
  apply sameStore_bind (sameStore_trace _)
  intro _ st
  dsimp only
  split <;> exact sameStore_refl st

theorem sameStore_bfsFbnToDbn (inum fbn : Int) :
    Preserves SameStore (bfsFbnToDbn inum fbn) := by
  unfold bfsFbnToDbn
  apply sameStore_bind (sameStore_trace _)
  intro _ st
  dsimp only
  split <;> exact sameStore_refl st

theorem sameStore_memcpyOut (B : Int) (dOff : Int) (bioBuf : Mem) (sOff len : Int) :
    Preserves SameStore (memcpyOut B dOff bioBuf sOff len) := by
  unfold memcpyOut
  apply preserves_ite
  · apply sameStore_bind (sameStore_trace _)
    intro _ st
    exact sameStore_refl st
  · exact preserves_FATAL sameStore_refl _

theorem sameStore_memcpyIn (B : Int) (bioBuf : Mem) (dOff : Int) (src : Mem) (sOff len : Int) :
    Preserves SameStore (memcpyIn B bioBuf dOff src sOff len) := by
  unfold memcpyIn
  apply preserves_ite
  · exact preserves_pure sameStore_refl _
  · exact preserves_FATAL sameStore_refl _

theorem sameStore_fsReadLoop (B inum cursor firstFBN : Int) (k : Nat) (i : Int)
    (bufOffset : Int) :
    Preserves SameStore (fsReadLoop B inum cursor firstFBN k i bufOffset) := by
  induction k generalizing i bufOffset with
  | zero => exact preserves_pure sameStore_refl _
  | succ k ih =>
    unfold fsReadLoop
    apply sameStore_bind sameStore_malloc
    intro bioBuf
    apply preserves_ite
    · apply sameStore_bind (sameStore_bfsRead _ _ _ _)
      intro b1
      apply sameStore_bind (sameStore_memcpyOut _ _ _ _ _)
      intro _
      exact ih _ _
    · apply sameStore_bind (sameStore_bfsRead _ _ _ _)
      intro b1
      apply sameStore_bind (sameStore_memcpyOut _ _ _ _ _)
      intro _
      exact ih _ _

/-! ## fsRead -/

/-- On an open handle `fsRead` is its block loop followed by the cursor update. -/
theorem fsRead_eq {st : State} {fd inum : Int} (h : IsHandle st fd inum) (B n : Int) :
    fsRead B fd n st =
      match fsReadLoop B inum (cursorOf st fd) (div32 (cursorOf st fd) B)
          (div32 (add32 (cursorOf st fd) n) B - div32 (cursorOf st fd) B + 1).toNat
          (div32 (cursorOf st fd) B) 0 st with
      | .ok _ st1 => .ok n (withCursor st1 fd (add32 (cursorOf st fd) n))
      | .abort e st1 => .abort e st1 := by
  unfold fsRead
  simp only [bind_apply, bfsFdToInum_eq h, bfsTell_eq h]
  have hp := sameStore_fsReadLoop B inum (cursorOf st fd) (div32 (cursorOf st fd) B)
    (div32 (add32 (cursorOf st fd) n) B - div32 (cursorOf st fd) B + 1).toNat
    (div32 (cursorOf st fd) B) 0 st
  cases hl : fsReadLoop B inum (cursorOf st fd) (div32 (cursorOf st fd) B)
      (div32 (add32 (cursorOf st fd) n) B - div32 (cursorOf st fd) B + 1).toNat
      (div32 (cursorOf st fd) B) 0 st with
  | abort e st1 => rfl
  | ok out st1 =>
    rw [hl] at hp
    have h1 : IsHandle st1 fd inum := isHandle_congr hp.1 h
    simp only [bfsSetCursor_eq h1, pure_apply]

/-- C10: `fsRead` on an open handle (cursor plus count within `i32`) changes no
inode (file size, block allocation), no disk block and no free block, whether
it returns or aborts; and when it returns the count `ret`, the cursor
afterwards is the cursor before plus `ret`. -/
theorem fsRead_frame (B : Int) (st : State) (fd inum n : Int)
    (h : IsHandle st fd inum) (hov : IsI32 (cursorOf st fd + n)) :
    (fsRead B fd n st).state.inodes = st.inodes ∧
    (fsRead B fd n st).state.disk = st.disk ∧
    (fsRead B fd n st).state.free = st.free ∧
    (∀ ret, (fsRead B fd n st).value = some ret →
      cursorOf (fsRead B fd n st).state fd = cursorOf st fd + ret) := by
  rw [fsRead_eq h]
  have hp := sameStore_fsReadLoop B inum (cursorOf st fd) (div32 (cursorOf st fd) B)
    (div32 (add32 (cursorOf st fd) n) B - div32 (cursorOf st fd) B + 1).toNat
    (div32 (cursorOf st fd) B) 0 st
  cases hl : fsReadLoop B inum (cursorOf st fd) (div32 (cursorOf st fd) B)
      (div32 (add32 (cursorOf st fd) n) B - div32 (cursorOf st fd) B + 1).toNat
      (div32 (cursorOf st fd) B) 0 st with
  | abort e st1 =>
    rw [hl] at hp
    refine ⟨hp.2.1, hp.2.2.1, hp.2.2.2.1, ?_⟩
    intro ret hv
    cases hv
  | ok out st1 =>
    rw [hl] at hp
    have h1 : IsHandle st1 fd inum := isHandle_congr hp.1 h
    refine ⟨?_, ?_, ?_, ?_⟩
    · show (withCursor st1 fd _).inodes = st.inodes
      rw [withCursor_inodes]; exact hp.2.1
    · show (withCursor st1 fd _).disk = st.disk
      rw [withCursor_disk]; exact hp.2.2.1
    · show (withCursor st1 fd _).free = st.free
      rw [withCursor_free]; exact hp.2.2.2.1
    · intro ret hv
      simp only [Res.value, Option.some.injEq] at hv
      show cursorOf (withCursor st1 fd _) fd = _
      rw [cursorOf_withCursor h1, ← hv]
      unfold add32
      exact wrap32_eq hov

/-! ## The growth step of fsWrite -/

theorem bfsExtend_spec (inum count : Int) (st : State) :
    ∃ r st1 m, bfsExtend inum count st = .ok r st1 ∧
      st1.g_oft = st.g_oft ∧ st1.disk = st.disk ∧ st1.junk = st.junk ∧
      (∀ i, i ≠ inum → st1.inodes i = st.inodes i) ∧
      (st1.inodes inum).size = (st.inodes inum).size ∧
      (st1.inodes inum).blocks = (st.inodes inum).blocks ++ st.free.take m ∧
      st1.free = st.free.drop m ∧
      (r = .Ok → count.toNat ≤ (st1.inodes inum).blocks.length) ∧
      (count.toNat - (st.inodes inum).blocks.length ≤ st.free.length → r = .Ok) := by
  unfold bfsExtend
  simp only [bind_apply, trace, logged]
  by_cases hn : count.toNat - (st.inodes inum).blocks.length ≤ st.free.length
  · simp only [hn, if_true]
    refine ⟨.Ok, _, count.toNat - (st.inodes inum).blocks.length, rfl, rfl, rfl, rfl, ?_, ?_, ?_,
      rfl, ?_, fun _ => rfl⟩
    · intro i hi
      simp only [Function.update_noteq hi]
    · simp only [Function.update_same]
    · simp only [Function.update_same]
    · intro _
      simp only [Function.update_same, List.length_append, List.length_take]
      omega
  · simp only [hn, if_false]
    refine ⟨.AllocationError, _, 0, rfl, rfl, rfl, rfl, ?_, rfl, ?_, ?_, ?_, ?_⟩
    · intro i _
      rfl
    · simp
    · simp
    · intro hr
      cases hr
    · intro h2
      exact False.elim h2

/-- The growth step returns; it leaves the open file table, the disk and the
other files alone, sets the size to `newfSize` when that is larger than
`fSize`, and can only append free blocks to the allocation. -/
theorem fsWriteGrow_spec (B inum fSize newfSize : Int) (st : State) :
    ∃ st1 m, fsWriteGrow B inum fSize newfSize st = .ok () st1 ∧
      st1.g_oft = st.g_oft ∧ st1.disk = st.disk ∧ st1.junk = st.junk ∧
      (∀ i, i ≠ inum → st1.inodes i = st.inodes i) ∧
      (st1.inodes inum).size = (if fSize < newfSize then newfSize else (st.inodes inum).size) ∧
      (st1.inodes inum).blocks = (st.inodes inum).blocks ++ st.free.take m ∧
      st1.free = st.free.drop m := by
  unfold fsWriteGrow
  by_cases hlt : fSize < newfSize
  · simp only [hlt, if_true]
    by_cases hav : mul32 (fCurrentBlocks B fSize) B < newfSize
    · obtain ⟨r, st1, m, he, h1, h2, h3, h4, h5, h6, h7, _⟩ := bfsExtend_spec inum
        (add32 (fCurrentBlocks B fSize)
          (blocksNeeded B (sub32 newfSize (mul32 (fCurrentBlocks B fSize) B)))) st
      simp only [hav, if_true, bind_apply, he, pure_apply, bfsSetSize]
      refine ⟨_, m, rfl, h1, h2, h3, ?_, ?_, ?_, h7⟩
      · intro i hi
        simp only [Function.update_noteq hi]
        exact h4 i hi
      · simp only [Function.update_same]
      · simp only [Function.update_same]
        exact h6
    · simp only [hav, if_false, bind_apply, pure_apply, bfsSetSize]
      refine ⟨_, 0, rfl, rfl, rfl, rfl, ?_, ?_, ?_, ?_⟩
      · intro i hi
        simp only [Function.update_noteq hi]
      · simp only [Function.update_same]
      · simp
      · simp
  · simp only [hlt, if_false, pure_apply]
    refine ⟨st, 0, rfl, rfl, rfl, rfl, fun _ _ => rfl, rfl, ?_, ?_⟩
    · simp
    · simp

/-! ## fsWrite: metadata -/

theorem sameMeta_bioWrite (B dbn : Int) (buf : Mem) : Preserves SameMeta (bioWrite B dbn buf) := by
  unfold bioWrite
  apply sameMeta_bind (sameMeta_of_sameStore (sameStore_trace _))
  intro _ st
  exact sameMeta_refl st

theorem sameMeta_fsWriteLoop (B inum cursor numb : Int) (buf : Mem) (fbnStart fbnEnd : Int)
    (k : Nat) (i bufOffset : Int) :
    Preserves SameMeta (fsWriteLoop B inum cursor numb buf fbnStart fbnEnd k i bufOffset) := by
  induction k generalizing i bufOffset with
  | zero => exact preserves_pure sameMeta_refl _
  | succ k ih =>
    unfold fsWriteLoop
    apply sameMeta_bind (sameMeta_of_sameStore sameStore_malloc)
    intro bioBuf
    apply preserves_ite
    · apply sameMeta_bind (sameMeta_of_sameStore (sameStore_bfsRead _ _ _ _))
      intro b1
      apply sameMeta_bind (sameMeta_of_sameStore (sameStore_memcpyIn _ _ _ _ _ _))
      intro b2
      apply sameMeta_bind (sameMeta_of_sameStore (sameStore_bfsFbnToDbn _ _))
      intro dbn
      apply sameMeta_bind (sameMeta_bioWrite _ _ _)
      intro _
      exact ih _ _
    · apply preserves_ite
      · apply sameMeta_bind (sameMeta_of_sameStore (sameStore_bfsRead _ _ _ _))
        intro b1
        apply sameMeta_bind (sameMeta_of_sameStore (sameStore_memcpyIn _ _ _ _ _ _))
        intro b2
        apply sameMeta_bind (sameMeta_of_sameStore (sameStore_bfsFbnToDbn _ _))
        intro dbn
        apply sameMeta_bind (sameMeta_bioWrite _ _ _)
        intro _
        exact ih _ _
      · apply sameMeta_bind (sameMeta_of_sameStore (sameStore_memcpyIn _ _ _ _ _ _))
        intro b2
        apply sameMeta_bind (sameMeta_of_sameStore (sameStore_bfsFbnToDbn _ _))
        intro dbn
        apply sameMeta_bind (sameMeta_bioWrite _ _ _)
        intro _
        exact ih _ _

/-- On an open handle `fsWrite` is the growth step, the block loop and the
cursor update. -/
theorem fsWrite_eq {st : State} {fd inum : Int} (h : IsHandle st fd inum) (B n : Int) (buf : Mem) :
    fsWrite B fd n buf st =
      match fsWriteGrow B inum (fileSize st inum) (add32 (cursorOf st fd) n) st with
      | .ok _ st1 =>
        match fsWriteLoop B inum (cursorOf st fd) n buf (div32 (cursorOf st fd) B)
            (div32 (add32 (cursorOf st fd) n) B)
            (div32 (add32 (cursorOf st fd) n) B - div32 (cursorOf st fd) B + 1).toNat
            (div32 (cursorOf st fd) B) 0 st1 with
        | .ok _ st2 => .ok 0 (withCursor st2 fd (add32 (cursorOf st fd) n))
        | .abort e st2 => .abort e st2
      | .abort e st1 => .abort e st1 := by
  unfold fsWrite
  simp only [bind_apply, bfsFdToInum_eq h, bfsTell_eq h, bfsGetSize, fileSize]
  obtain ⟨st1, m, he, hg, _⟩ := fsWriteGrow_spec B inum (st.inodes inum).size
    (add32 (cursorOf st fd) n) st
  simp only [he]
  have hp := sameMeta_fsWriteLoop B inum (cursorOf st fd) n buf (div32 (cursorOf st fd) B)
    (div32 (add32 (cursorOf st fd) n) B)
    (div32 (add32 (cursorOf st fd) n) B - div32 (cursorOf st fd) B + 1).toNat
    (div32 (cursorOf st fd) B) 0 st1
  cases hl : fsWriteLoop B inum (cursorOf st fd) n buf (div32 (cursorOf st fd) B)
      (div32 (add32 (cursorOf st fd) n) B)
      (div32 (add32 (cursorOf st fd) n) B - div32 (cursorOf st fd) B + 1).toNat
      (div32 (cursorOf st fd) B) 0 st1 with
  | abort e st2 => rfl
  | ok r st2 =>
    rw [hl] at hp
    have h2 : IsHandle st2 fd inum := isHandle_congr (hp.1.trans hg) h
    simp only [bfsSetCursor_eq h2, pure_apply]

/-- C4: `fsWrite` of `n` bytes at cursor `c` (with `c + n` within `i32`) on an
open handle of a file of size `s` leaves the file with size `c + n` when
`c + n > s` and with size `s` when `c + n ≤ s`, that is with size
`max s (c + n)`, which is never less than `s`; this holds in the state
reached whether the call returns or aborts. -/
theorem fsWrite_size (B : Int) (st : State) (fd inum n : Int) (buf : Mem)
    (h : IsHandle st fd inum) (hov : IsI32 (cursorOf st fd + n)) :
    (fileSize st inum < cursorOf st fd + n →
      fileSize (fsWrite B fd n buf st).state inum = cursorOf st fd + n) ∧
    (cursorOf st fd + n ≤ fileSize st inum →
      fileSize (fsWrite B fd n buf st).state inum = fileSize st inum) ∧
    fileSize (fsWrite B fd n buf st).state inum = max (fileSize st inum) (cursorOf st fd + n) ∧
    fileSize st inum ≤ fileSize (fsWrite B fd n buf st).state inum := by
  have hadd : add32 (cursorOf st fd) n = cursorOf st fd + n := by
    unfold add32
    exact wrap32_eq hov
  have key : fileSize (fsWrite B fd n buf st).state inum =
      if fileSize st inum < cursorOf st fd + n then cursorOf st fd + n else fileSize st inum := by
    rw [fsWrite_eq h]
    obtain ⟨st1, m, he, hg, _, _, _, hsz, _⟩ := fsWriteGrow_spec B inum (fileSize st inum)
      (add32 (cursorOf st fd) n) st
    simp only [he]
    have hp := sameMeta_fsWriteLoop B inum (cursorOf st fd) n buf (div32 (cursorOf st fd) B)
      (div32 (add32 (cursorOf st fd) n) B)
      (div32 (add32 (cursorOf st fd) n) B - div32 (cursorOf st fd) B + 1).toNat
      (div32 (cursorOf st fd) B) 0 st1
    rw [hadd] at hsz
    cases hl : fsWriteLoop B inum (cursorOf st fd) n buf (div32 (cursorOf st fd) B)
        (div32 (add32 (cursorOf st fd) n) B)
        (div32 (add32 (cursorOf st fd) n) B - div32 (cursorOf st fd) B + 1).toNat
        (div32 (cursorOf st fd) B) 0 st1 with
    | abort e st2 =>
      rw [hl] at hp
      have hi : st2.inodes = st1.inodes := hp.2.1
      show (st2.inodes inum).size = _
      rw [hi]
      exact hsz
    | ok r st2 =>
      rw [hl] at hp
      have hi : st2.inodes = st1.inodes := hp.2.1
      show ((withCursor st2 fd _).inodes inum).size = _
      rw [withCursor_inodes, hi]
      exact hsz
  rw [key]
  refine ⟨?_, ?_, ?_, ?_⟩
  · intro hlt
    simp only [hlt, if_true]
  · intro hle
    have : ¬ fileSize st inum < cursorOf st fd + n := by omega
    simp only [this, if_false]
  · split
    · rename_i hlt
      rw [max_eq_right (le_of_lt hlt)]
    · rename_i hge
      rw [max_eq_left (by omega)]
  · split <;> omega

/-! ## fsWrite: the block loop -/

theorem dbnOf_logged (st : State) (ev : Event) (inum i : Int) :
    dbnOf (logged st ev) inum i = dbnOf st inum i := rfl

theorem malloc_eq (st : State) : malloc st = .ok st.junk st := rfl

theorem bfsRead_some {st : State} {inum i d : Int} (h : dbnOf st inum i = some d) (B : Int)
    (b : Mem) :
    bfsRead B inum i b st =
      .ok (fun j => if 0 ≤ j ∧ j < B then st.disk d j else b j) (logged st (.fetch inum i)) := by
  unfold bfsRead
  simp only [bind_apply, trace, dbnOf_logged, h]
  rfl

theorem bfsRead_none {st : State} {inum i : Int} (h : dbnOf st inum i = none) (B : Int)
    (b : Mem) :
    bfsRead B inum i b st = .abort .badBlockIndex (logged st (.fetch inum i)) := by
  unfold bfsRead
  simp only [bind_apply, trace, dbnOf_logged, h]

theorem bfsFbnToDbn_some {st : State} {inum i d : Int} (h : dbnOf st inum i = some d) :
    bfsFbnToDbn inum i st = .ok d (logged st (.resolve inum i)) := by
  unfold bfsFbnToDbn
  simp only [bind_apply, trace, dbnOf_logged, h]

theorem bfsFbnToDbn_none {st : State} {inum i : Int} (h : dbnOf st inum i = none) :
    bfsFbnToDbn inum i st = .abort .badBlockIndex (logged st (.resolve inum i)) := by
  unfold bfsFbnToDbn
  simp only [bind_apply, trace, dbnOf_logged, h]

theorem memcpyIn_ok {B dOff len : Int} (h : 0 ≤ dOff ∧ 0 ≤ len ∧ dOff + len ≤ B) (b src : Mem)
    (sOff : Int) (st : State) :
    memcpyIn B b dOff src sOff len st = .ok (memcpy b dOff src sOff len) st := by
  unfold memcpyIn
  simp only [h, and_self, if_true, pure_apply]

theorem bioWrite_eq (B d : Int) (b : Mem) (st : State) :
    bioWrite B d b st = .ok ()
      { logged st (.store d) with
        disk := fun e j => if e = d ∧ 0 ≤ j ∧ j < B then b j else st.disk e j } := rfl

theorem add32_eq {a b : Int} (h1 : -2147483648 ≤ a + b) (h2 : a + b ≤ 2147483647) :
    add32 a b = a + b := by
  unfold add32
  exact wrap32_eq ⟨h1, h2⟩

theorem sub32_eq {a b : Int} (h1 : -2147483648 ≤ a - b) (h2 : a - b ≤ 2147483647) :
    sub32 a b = a - b := by
  unfold sub32
  exact wrap32_eq ⟨h1, h2⟩

theorem mul32_eq {a b : Int} (h1 : -2147483648 ≤ a * b) (h2 : a * b ≤ 2147483647) :
    mul32 a b = a * b := by
  unfold mul32
  exact wrap32_eq ⟨h1, h2⟩

theorem fsWriteLoop_step {B c n first last r1 r2 : Int} (sp : Span B c n first last r1 r2)
    (inum : Int) (buf : Mem) (k : Nat) (i bo : Int) (st : State)
    (hi1 : first ≤ i) (hi2 : i ≤ last) (hbo0 : i = first → bo = 0)
    (hbo : first < i → bo = B * i - c) :
    (dbnOf st inum i = none →
      ∃ st1, fsWriteLoop B inum c n buf first last (k + 1) i bo st = .abort .badBlockIndex st1 ∧
        SameStore st st1) ∧
    (∀ d, dbnOf st inum i = some d →
      ∃ st1 bo1, fsWriteLoop B inum c n buf first last (k + 1) i bo st =
          fsWriteLoop B inum c n buf first last k (i + 1) bo1 st1 ∧
        SameMeta st st1 ∧
        (∀ e j, st1.disk e j =
          if e = d ∧ 0 ≤ j ∧ j < B ∧ c ≤ B * i + j ∧ B * i + j < c + n then buf (B * i + j - c)
          else st.disk e j) ∧
        (i < last → bo1 = B * (i + 1) - c)) := by
  have hB := sp.hB
  have hBmax := sp.hBmax
  have hc := sp.hc
  have hn := sp.hn
  have hcn := sp.hcn
  have hfirst := sp.hfirst
  have hr1 := sp.hr1
  have hr1B := sp.hr1B
  have hlast := sp.hlast
  have hr2 := sp.hr2
  have hr2B := sp.hr2B
  have hfl := sp.first_le_last
  unfold INT32_MAX at hBmax hcn
  constructor
  · intro hd
    rw [fsWriteLoop]
    by_cases e1 : i = first
    · simp only [e1, if_true, bind_apply, malloc_eq]
      rw [e1] at hd
      rw [bfsRead_none hd]
      exact ⟨_, rfl, rfl, rfl, rfl, rfl, rfl⟩
    · by_cases e2 : i = last
      · subst e2
        simp only [e1, if_true, if_false, bind_apply, malloc_eq]
        rw [bfsRead_none hd]
        exact ⟨_, rfl, rfl, rfl, rfl, rfl, rfl⟩
      · simp only [e1, e2, if_false, bind_apply, malloc_eq]
        have hg : 0 ≤ (0 : Int) ∧ 0 ≤ B ∧ 0 + B ≤ B := by omega
        rw [memcpyIn_ok hg]
        dsimp only
        rw [bfsFbnToDbn_none hd]
        exact ⟨_, rfl, rfl, rfl, rfl, rfl, rfl⟩
  · intro d hd
    rw [fsWriteLoop]
    by_cases e1 : i = first
    · subst e1
      simp only [if_true, bind_apply, malloc_eq, sp.mod_first]
      rw [bfsRead_some hd]
      dsimp only
      by_cases e2 : i = last
      · subst e2
        simp only [if_true]
        have hg : 0 ≤ r1 ∧ 0 ≤ n ∧ r1 + n ≤ B := by omega
        rw [memcpyIn_ok hg]
        dsimp only
        rw [bfsFbnToDbn_some (by exact hd)]
        dsimp only
        rw [bioWrite_eq]
        dsimp only
        refine ⟨_, _, rfl, ⟨rfl, rfl, rfl, rfl⟩, ?_, ?_⟩
        · intro e j
          simp only [memcpy, logged]
          split_ifs <;> first | rfl | omega | (congr 1; omega)
        · intro hlt
          omega
      · have hlt : i < last := by omega
        have hne : ¬ last = i := by omega
        have hm := mul_step hB hlt
        have e3 : sub32 B r1 = B - r1 := sub32_eq (by omega) (by omega)
        have e4 : add32 bo (B - r1) = B - r1 := by
          rw [hbo0 rfl]
          exact (add32_eq (by omega) (by omega)).trans (by omega)
        have hgt : last > i := hlt
        simp only [e2, if_false, hgt, if_true, e3, e4]
        have hg : 0 ≤ r1 ∧ 0 ≤ B - r1 ∧ r1 + (B - r1) ≤ B := by omega
        rw [memcpyIn_ok hg]
        dsimp only
        rw [bfsFbnToDbn_some (by exact hd)]
        dsimp only
        rw [bioWrite_eq]
        dsimp only
        refine ⟨_, _, rfl, ⟨rfl, rfl, rfl, rfl⟩, ?_, ?_⟩
        · intro e j
          simp only [memcpy, logged]
          split_ifs <;> first | rfl | omega | (congr 1; omega)
        · intro _
          have e5 : B * (i + 1) = B * i + B := by ring
          omega
    · have hlt1 : first < i := by omega
      have hm1 := mul_step hB hlt1
      by_cases e2 : i = last
      · subst e2
        simp only [e1, if_false, if_true, bind_apply, malloc_eq, sp.add_eq]
        rw [bfsRead_some hd]
        dsimp only
        have e3 : mul32 B i = B * i := mul32_eq (by omega) (by omega)
        have e4 : sub32 (c + n) (B * i) = r2 :=
          (sub32_eq (by omega) (by omega)).trans (by omega)
        have e5 : sub32 n r2 = n - r2 := sub32_eq (by omega) (by omega)
        simp only [e3, e4, e5]
        have hg : 0 ≤ (0 : Int) ∧ 0 ≤ r2 ∧ 0 + r2 ≤ B := by omega
        rw [memcpyIn_ok hg]
        dsimp only
        rw [bfsFbnToDbn_some (by exact hd)]
        dsimp only
        rw [bioWrite_eq]
        dsimp only
        refine ⟨_, _, rfl, ⟨rfl, rfl, rfl, rfl⟩, ?_, ?_⟩
        · intro e j
          simp only [memcpy, logged]
          split_ifs <;> first | rfl | omega | (congr 1; omega)
        · intro hlt
          omega
      · have hlt2 : i < last := by omega
        have hm2 := mul_step hB hlt2
        simp only [e1, e2, if_false, bind_apply, malloc_eq]
        have hg : 0 ≤ (0 : Int) ∧ 0 ≤ B ∧ 0 + B ≤ B := by omega
        rw [memcpyIn_ok hg]
        dsimp only
        rw [bfsFbnToDbn_some hd]
        dsimp only
        rw [bioWrite_eq]
        dsimp only
        have hb := hbo hlt1
        have e3 : add32 bo B = bo + B := add32_eq (by omega) (by omega)
        rw [e3]
        refine ⟨_, _, rfl, ⟨rfl, rfl, rfl, rfl⟩, ?_, ?_⟩
        · intro e j
          simp only [memcpy, logged]
          split_ifs <;> first | rfl | omega | (congr 1; omega)
        · intro _
          have e5 : B * (i + 1) = B * i + B := by ring
          omega

theorem dbnOf_congr {st st1 : State} (h : st1.inodes = st.inodes) (inum f : Int) :
    dbnOf st1 inum f = dbnOf st inum f := by
  unfold dbnOf
  rw [h]

theorem dbnOf_inj {st : State} {inum : Int} (hnd : (st.inodes inum).blocks.Nodup)
    {f1 f2 d : Int} (h1 : dbnOf st inum f1 = some d) (h2 : dbnOf st inum f2 = some d) :
    f1 = f2 := by
  unfold dbnOf at h1 h2
  by_cases p1 : 0 ≤ f1
  · by_cases p2 : 0 ≤ f2
    · simp only [p1, p2, if_true] at h1 h2
      have l1 : f1.toNat < (st.inodes inum).blocks.length := by
        rcases Nat.lt_or_ge f1.toNat (st.inodes inum).blocks.length with hl | hl
        · exact hl
        · rw [List.getElem?_eq_none hl] at h1
          cases h1
      have l2 : f2.toNat < (st.inodes inum).blocks.length := by
        rcases Nat.lt_or_ge f2.toNat (st.inodes inum).blocks.length with hl | hl
        · exact hl
        · rw [List.getElem?_eq_none hl] at h2
          cases h2
      rw [List.getElem?_eq_getElem l1] at h1
      rw [List.getElem?_eq_getElem l2] at h2
      have e : (st.inodes inum).blocks[f1.toNat] = (st.inodes inum).blocks[f2.toNat] := by
        simp only [Option.some.injEq] at h1 h2
        rw [h1, h2]
      have := (List.Nodup.getElem_inj_iff hnd).1 e
      omega
    · simp [p2] at h2
  · simp [p1] at h1

theorem dbnOf_some_iff {st : State} {inum f : Int} :
    (∃ d, dbnOf st inum f = some d) ↔ (0 ≤ f ∧ f < ((st.inodes inum).blocks.length : Int)) := by
  unfold dbnOf
  by_cases p : 0 ≤ f
  · simp only [p, if_true, true_and]
    constructor
    · rintro ⟨d, hd⟩
      rcases Nat.lt_or_ge f.toNat (st.inodes inum).blocks.length with hl | hl
      · omega
      · rw [List.getElem?_eq_none hl] at hd
        cases hd
    · intro hl
      have hl2 : f.toNat < (st.inodes inum).blocks.length := by omega
      exact ⟨_, List.getElem?_eq_getElem hl2⟩
  · simp [p]

/-- The write loop changes a disk byte only where a block of the loop's range
holds a byte of the written range. -/
theorem fsWriteLoop_frame {B c n first last r1 r2 : Int} (sp : Span B c n first last r1 r2)
    (inum : Int) (buf : Mem) (k : Nat) :
    ∀ (i bo : Int) (st : State), first ≤ i → i + k = last + 1 → (i = first → bo = 0) →
      (first < i → i ≤ last → bo = B * i - c) →
      ∀ e j, (∀ fbn, i ≤ fbn → fbn ≤ last → dbnOf st inum fbn = some e →
          ¬ (0 ≤ j ∧ j < B ∧ c ≤ B * fbn + j ∧ B * fbn + j < c + n)) →
        (fsWriteLoop B inum c n buf first last k i bo st).state.disk e j = st.disk e j := by
  induction k with
  | zero =>
    intro i bo st _ _ _ _ e j _
    rfl
  | succ k ih =>
    intro i bo st hi1 hik hbo0 hbo e j hout
    have hi2 : i ≤ last := by omega
    have hstep := fsWriteLoop_step sp inum buf k i bo st hi1 hi2 hbo0 (fun h => hbo h hi2)
    cases hd : dbnOf st inum i with
    | none =>
      obtain ⟨st1, he, hs⟩ := hstep.1 hd
      rw [he]
      show st1.disk e j = st.disk e j
      rw [hs.2.2.1]
    | some d =>
      obtain ⟨st1, bo1, he, hm, hdisk, hbo1⟩ := hstep.2 d hd
      rw [he]
      have hih := ih (i + 1) bo1 st1 (by omega) (by omega) (by intro h; omega)
        (by intro _ h2; exact hbo1 (by omega)) e j (by
          intro fbn h1 h2 h3
          rw [dbnOf_congr hm.2.1] at h3
          exact hout fbn (by omega) h2 h3)
      rw [hih, hdisk]
      have := hout i (le_refl i) hi2
      by_cases hed : e = d
      · subst hed
        have h4 := this hd
        have h5 : ¬ (e = e ∧ 0 ≤ j ∧ j < B ∧ c ≤ B * i + j ∧ B * i + j < c + n) := by
          intro h6
          exact h4 h6.2
        rw [if_neg h5]
      · have h5 : ¬ (e = d ∧ 0 ≤ j ∧ j < B ∧ c ≤ B * i + j ∧ B * i + j < c + n) := by
          intro h6
          exact hed h6.1
        rw [if_neg h5]

/-- When the blocks of its range are allocated and distinct, the write loop
returns and every byte of the written range holds the input byte. -/
theorem fsWriteLoop_content {B c n first last r1 r2 : Int} (sp : Span B c n first last r1 r2)
    (inum : Int) (buf : Mem) (k : Nat) :
    ∀ (i bo : Int) (st : State), first ≤ i → i + k = last + 1 → (i = first → bo = 0) →
      (first < i → i ≤ last → bo = B * i - c) →
      (∀ fbn, i ≤ fbn → fbn ≤ last → ∃ d, dbnOf st inum fbn = some d) →
      (st.inodes inum).blocks.Nodup →
      ∃ bo1 st1, fsWriteLoop B inum c n buf first last k i bo st = .ok bo1 st1 ∧
        SameMeta st st1 ∧
        (∀ fbn d j, i ≤ fbn → fbn ≤ last → dbnOf st inum fbn = some d → 0 ≤ j → j < B →
          c ≤ B * fbn + j → B * fbn + j < c + n → st1.disk d j = buf (B * fbn + j - c)) := by
  induction k with
  | zero =>
    intro i bo st _ hik _ _ _ _
    refine ⟨bo, st, rfl, sameMeta_refl st, ?_⟩
    intro fbn d j h1 h2
    omega
  | succ k ih =>
    intro i bo st hi1 hik hbo0 hbo halloc hnd
    have hi2 : i ≤ last := by omega
    have hstep := fsWriteLoop_step sp inum buf k i bo st hi1 hi2 hbo0 (fun h => hbo h hi2)
    obtain ⟨d0, hd0⟩ := halloc i (le_refl i) hi2
    obtain ⟨st1, bo1, he, hm, hdisk, hbo1⟩ := hstep.2 d0 hd0
    have hnd1 : (st1.inodes inum).blocks.Nodup := by
      rw [hm.2.1]
      exact hnd
    have hh1 : first ≤ i + 1 := by omega
    have hh2 : i + 1 + (k : Int) = last + 1 := by omega
    have hh3 : i + 1 = first → bo1 = 0 := by intro h; omega
    have hh4 : first < i + 1 → i + 1 ≤ last → bo1 = B * (i + 1) - c := by
      intro _ h2
      exact hbo1 (by omega)
    obtain ⟨bo2, st2, he2, hm2, hcont⟩ := ih (i + 1) bo1 st1 hh1 hh2 hh3 hh4
      (by
        intro fbn h1 h2
        rw [dbnOf_congr hm.2.1]
        exact halloc fbn (by omega) h2) hnd1
    refine ⟨bo2, st2, he.trans he2, sameMeta_trans hm hm2, ?_⟩
    intro fbn d j h1 h2 hd hj0 hjB hlo hhi
    by_cases hfi : fbn = i
    · subst hfi
      have hdd : d = d0 := by
        rw [hd0] at hd
        exact (Option.some.inj hd).symm
      subst hdd
      have hfr := fsWriteLoop_frame sp inum buf k (fbn + 1) bo1 st1 hh1 hh2 hh3 hh4 d j (by
        intro f g1 g2 g3
        rw [dbnOf_congr hm.2.1] at g3
        have := dbnOf_inj hnd g3 hd0
        omega)
      rw [he2] at hfr
      show st2.disk d j = _
      have hfr2 : st2.disk d j = st1.disk d j := hfr
      rw [hfr2, hdisk]
      have h5 : d = d ∧ 0 ≤ j ∧ j < B ∧ c ≤ B * fbn + j ∧ B * fbn + j < c + n :=
        ⟨rfl, hj0, hjB, hlo, hhi⟩
      rw [if_pos h5]
    · exact hcont fbn d j (by omega) h2 (by rw [dbnOf_congr hm.2.1]; exact hd) hj0 hjB hlo hhi

/-! ## fsRead: the block loop -/

theorem memcpyOut_ok {B sOff len : Int} (h : 0 ≤ sOff ∧ 0 ≤ len ∧ sOff + len ≤ B) (dOff : Int)
    (b : Mem) (st : State) :
    memcpyOut B dOff b sOff len st =
      .ok () { logged st (.copyOut dOff len) with
        userBuf := memcpy st.userBuf dOff b sOff len } := by
  unfold memcpyOut
  simp only [h, and_self, if_true, bind_apply, trace]
  rfl

/-- One iteration of the read loop on an allocated block copies the bytes of
the block that lie at or after the cursor to their place in the caller's
buffer; on a block that is not allocated it ends the process. -/
theorem fsReadLoop_step {B c n first last r1 r2 : Int} (sp : Span B c n first last r1 r2)
    (inum : Int) (k : Nat) (i bo : Int) (st : State)
    (hi1 : first ≤ i) (hi2 : i ≤ last) (hbo0 : i = first → bo = 0)
    (hbo : first < i → bo = B * i - c) :
    (dbnOf st inum i = none →
      ∃ st1, fsReadLoop B inum c first (k + 1) i bo st = .abort .badBlockIndex st1 ∧
        SameStore st st1 ∧ st1.userBuf = st.userBuf) ∧
    (∀ d, dbnOf st inum i = some d →
      ∃ st1 bo1, fsReadLoop B inum c first (k + 1) i bo st =
          fsReadLoop B inum c first k (i + 1) bo1 st1 ∧
        SameStore st st1 ∧
        (∀ p, st1.userBuf p =
          if 0 ≤ p ∧ B * i - c ≤ p ∧ p < B * (i + 1) - c then st.disk d (p + c - B * i)
          else st.userBuf p) ∧
        (i < last → bo1 = B * (i + 1) - c)) := by
  have hB := sp.hB
  have hBmax := sp.hBmax
  have hc := sp.hc
  have hn := sp.hn
  have hcn := sp.hcn
  have hfirst := sp.hfirst
  have hr1 := sp.hr1
  have hr1B := sp.hr1B
  have hlast := sp.hlast
  have hr2 := sp.hr2
  have hr2B := sp.hr2B
  have hfl := sp.first_le_last
  have e5 : B * (i + 1) = B * i + B := by ring
  unfold INT32_MAX at hBmax hcn
  constructor
  · intro hd
    rw [fsReadLoop]
    by_cases e1 : i = first
    · simp only [e1, if_true, bind_apply, malloc_eq]
      rw [e1] at hd
      rw [bfsRead_none hd]
      exact ⟨_, rfl, ⟨rfl, rfl, rfl, rfl, rfl⟩, rfl⟩
    · simp only [e1, if_false, bind_apply, malloc_eq]
      rw [bfsRead_none hd]
      exact ⟨_, rfl, ⟨rfl, rfl, rfl, rfl, rfl⟩, rfl⟩
  · intro d hd
    rw [fsReadLoop]
    by_cases e1 : i = first
    · subst e1
      simp only [if_true, bind_apply, malloc_eq, sp.mod_first]
      rw [bfsRead_some hd]
      dsimp only
      have e3 : sub32 B r1 = B - r1 := sub32_eq (by omega) (by omega)
      rw [e3]
      have hg : 0 ≤ r1 ∧ 0 ≤ B - r1 ∧ r1 + (B - r1) ≤ B := by omega
      rw [memcpyOut_ok hg]
      dsimp only
      refine ⟨_, _, rfl, ⟨rfl, rfl, rfl, rfl, rfl⟩, ?_, ?_⟩
      · intro p
        simp only [memcpy, logged]
        split_ifs <;> first | rfl | omega | (congr 1; omega)
      · intro hlt
        have hm := mul_step hB hlt
        rw [hbo0 rfl]
        exact (add32_eq (by omega) (by omega)).trans (by omega)
    · have hlt1 : first < i := by omega
      have hm1 := mul_step hB hlt1
      have hm2 := mul_le_of_le hB hi2
      simp only [e1, if_false, bind_apply, malloc_eq]
      rw [bfsRead_some hd]
      dsimp only
      have hg : 0 ≤ (0 : Int) ∧ 0 ≤ B ∧ 0 + B ≤ B := by omega
      rw [memcpyOut_ok hg]
      dsimp only
      have hb := hbo hlt1
      refine ⟨_, _, rfl, ⟨rfl, rfl, rfl, rfl, rfl⟩, ?_, ?_⟩
      · intro p
        simp only [memcpy, logged]
        split_ifs <;> first | rfl | omega | (congr 1; omega)
      · intro hlt
        have hm := mul_step hB hlt
        exact (add32_eq (by omega) (by omega)).trans (by omega)

/-- The read loop leaves the caller's buffer below the place of its first block
alone, and for every block up to which all blocks are allocated, the bytes at
or after the cursor are in the caller's buffer when the loop ends, returning or
not; when all blocks of its range are allocated, the loop returns. -/
theorem fsReadLoop_content {B c n first last r1 r2 : Int} (sp : Span B c n first last r1 r2)
    (inum : Int) (k : Nat) :
    ∀ (i bo : Int) (st : State), first ≤ i → i + k = last + 1 → (i = first → bo = 0) →
      (first < i → i ≤ last → bo = B * i - c) →
      (∀ p, p < B * i - c →
        (fsReadLoop B inum c first k i bo st).state.userBuf p = st.userBuf p) ∧
      (∀ fbn d j, i ≤ fbn → fbn ≤ last →
        (∀ f, i ≤ f → f ≤ fbn → ∃ e, dbnOf st inum f = some e) →
        dbnOf st inum fbn = some d → 0 ≤ j → j < B → c ≤ B * fbn + j →
        (fsReadLoop B inum c first k i bo st).state.userBuf (B * fbn + j - c) = st.disk d j) ∧
      ((∀ f, i ≤ f → f ≤ last → ∃ e, dbnOf st inum f = some e) →
        ∃ bo1, (fsReadLoop B inum c first k i bo st).value = some bo1) := by
  have hB := sp.hB
  induction k with
  | zero =>
    intro i bo st _ hik _ _
    refine ⟨fun _ _ => rfl, ?_, fun _ => ⟨bo, rfl⟩⟩
    intro fbn d j h1 h2
    omega
  | succ k ih =>
    intro i bo st hi1 hik hbo0 hbo
    have hi2 : i ≤ last := by omega
    have e5 : B * (i + 1) = B * i + B := by ring
    have hstep := fsReadLoop_step sp inum k i bo st hi1 hi2 hbo0 (fun h => hbo h hi2)
    cases hd : dbnOf st inum i with
    | none =>
      obtain ⟨st1, he, hs, hu⟩ := hstep.1 hd
      rw [he]
      refine ⟨?_, ?_, ?_⟩
      · intro p _
        exact congrFun hu p
      · intro fbn d j h1 _ hall
        obtain ⟨e, he2⟩ := hall i (le_refl i) h1
        rw [hd] at he2
        cases he2
      · intro hall
        obtain ⟨e, he2⟩ := hall i (le_refl i) hi2
        rw [hd] at he2
        cases he2
    | some d0 =>
      obtain ⟨st1, bo1, he, hs, hbuf, hbo1⟩ := hstep.2 d0 hd
      have hh1 : first ≤ i + 1 := by omega
      have hh2 : i + 1 + (k : Int) = last + 1 := by omega
      have hh3 : i + 1 = first → bo1 = 0 := by intro h; omega
      have hh4 : first < i + 1 → i + 1 ≤ last → bo1 = B * (i + 1) - c := by
        intro _ h2
        exact hbo1 (by omega)
      obtain ⟨ih1, ih2, ih3⟩ := ih (i + 1) bo1 st1 hh1 hh2 hh3 hh4
      rw [he]
      refine ⟨?_, ?_, ?_⟩
      · intro p hp
        rw [ih1 p (by omega), hbuf]
        have h5 : ¬ (0 ≤ p ∧ B * i - c ≤ p ∧ p < B * (i + 1) - c) := by omega
        rw [if_neg h5]
      · intro fbn d j h1 h2 hall hdd hj0 hjB hlo
        by_cases hfi : fbn = i
        · subst hfi
          have hdd2 : d = d0 := by
            rw [hd] at hdd
            exact (Option.some.inj hdd).symm
          subst hdd2
          rw [ih1 _ (by omega), hbuf]
          have h5 : 0 ≤ B * fbn + j - c ∧ B * fbn - c ≤ B * fbn + j - c ∧
              B * fbn + j - c < B * (fbn + 1) - c := by omega
          rw [if_pos h5]
          congr 1
          omega
        · have h3 := ih2 fbn d j (by omega) h2 (by
            intro f g1 g2
            rw [dbnOf_congr hs.2.1]
            exact hall f (by omega) g2) (by rw [dbnOf_congr hs.2.1]; exact hdd) hj0 hjB hlo
          rw [h3, hs.2.2.1]
      · intro hall
        exact ih3 (by
          intro f g1 g2
          rw [dbnOf_congr hs.2.1]
          exact hall f (by omega) g2)

/-! ## fsWrite: coverage after the growth step -/

theorem le_mul_of_pos {B q : Int} (hB : 0 < B) (hq : 0 ≤ q) : q ≤ B * q := by
  have h1 : 1 * q ≤ B * q := Int.mul_le_mul_of_nonneg_right (by omega) hq
  omega

/-- The block count `fsWrite` computes for a size is the ceiling of the size
over the block size. -/
theorem fCurrentBlocks_ceil {B s : Int} (hB : 0 < B) (hs0 : 0 ≤ s) (hs : s ≤ 2147483646) :
    0 ≤ fCurrentBlocks B s ∧ s ≤ B * fCurrentBlocks B s ∧ B * fCurrentBlocks B s < s + B := by
  unfold fCurrentBlocks
  rw [mod32_of_nonneg hs0 hB, div32_of_nonneg hs0 hB]
  have h1 : B * (s / B) + s % B = s := Int.ediv_add_emod s B
  have h2 : 0 ≤ s % B := Int.emod_nonneg s (ne_of_gt hB)
  have h3 : s % B < B := Int.emod_lt_of_pos s hB
  have h4 : 0 ≤ s / B := Int.ediv_nonneg hs0 (le_of_lt hB)
  have h5 : s / B ≤ B * (s / B) := le_mul_of_pos hB h4
  by_cases hr : s % B = 0
  · simp only [hr, if_true]
    omega
  · simp only [hr, if_false, ne_eq, not_false_eq_true, if_true]
    have e1 : add32 (s / B) 1 = s / B + 1 := add32_eq (by omega) (by omega)
    have e2 : B * (s / B + 1) = B * (s / B) + B := by ring
    rw [e1, e2]
    omega

theorem blocksNeeded_eq (B m : Int) : blocksNeeded B m = fCurrentBlocks B m := rfl

/-- After the growth step the allocation of the file covers the new size,
provided it covered the old size and the store has enough free blocks. -/
theorem fsWriteGrow_covers {B s new : Int} (hB : 0 < B) (hs0 : 0 ≤ s) (hsB : s + B ≤ INT32_MAX)
    (hnew : new ≤ 2147483646) (inum : Int) (st st1 : State)
    (hwf : s ≤ B * ((st.inodes inum).blocks.length : Int))
    (hfree : new ≤ B * (((st.inodes inum).blocks.length : Int) + (st.free.length : Int)))
    (he : fsWriteGrow B inum s new st = .ok () st1) :
    new ≤ B * ((st1.inodes inum).blocks.length : Int) := by
  unfold INT32_MAX at hsB
  unfold fsWriteGrow at he
  by_cases hlt : s < new
  · simp only [hlt, if_true] at he
    obtain ⟨c0, c1, c2⟩ := fCurrentBlocks_ceil hB hs0 (by omega)
    have e1 : mul32 (fCurrentBlocks B s) B = B * fCurrentBlocks B s := by
      rw [Int.mul_comm B]
      apply mul32_eq
      · rw [Int.mul_comm]; omega
      · rw [Int.mul_comm]; omega
    rw [e1] at he
    by_cases hav : B * fCurrentBlocks B s < new
    · have e2 : sub32 new (B * fCurrentBlocks B s) = new - B * fCurrentBlocks B s :=
        sub32_eq (by omega) (by omega)
      rw [e2, blocksNeeded_eq] at he
      obtain ⟨m0, m1, m2⟩ := fCurrentBlocks_ceil hB
        (show 0 ≤ new - B * fCurrentBlocks B s by omega) (by omega)
      have hq1 : fCurrentBlocks B s ≤ B * fCurrentBlocks B s := le_mul_of_pos hB c0
      have hq2 : fCurrentBlocks B (new - B * fCurrentBlocks B s) ≤
          B * fCurrentBlocks B (new - B * fCurrentBlocks B s) := le_mul_of_pos hB m0
      have e6 : B * (fCurrentBlocks B s + fCurrentBlocks B (new - B * fCurrentBlocks B s) - 1)
          = B * fCurrentBlocks B s + B * fCurrentBlocks B (new - B * fCurrentBlocks B s) - B := by
        ring
      have hq3 : fCurrentBlocks B s + fCurrentBlocks B (new - B * fCurrentBlocks B s) ≤ new := by
        by_cases hz : 0 ≤ fCurrentBlocks B s + fCurrentBlocks B (new - B * fCurrentBlocks B s) - 1
        · have := le_mul_of_pos hB hz
          omega
        · omega
      have e3 : add32 (fCurrentBlocks B s) (fCurrentBlocks B (new - B * fCurrentBlocks B s)) =
          fCurrentBlocks B s + fCurrentBlocks B (new - B * fCurrentBlocks B s) :=
        add32_eq (by omega) (by omega)
      rw [e3] at he
      obtain ⟨r, st2, m, hx, _, _, _, _, _, _, _, hok, hen⟩ := bfsExtend_spec inum
        (fCurrentBlocks B s + fCurrentBlocks B (new - B * fCurrentBlocks B s)) st
      simp only [hav, if_true, bind_apply, hx, pure_apply, bfsSetSize, Res.ok.injEq,
        true_and] at he
      have e4 : B * (fCurrentBlocks B s + fCurrentBlocks B (new - B * fCurrentBlocks B s)) =
          B * fCurrentBlocks B s + B * fCurrentBlocks B (new - B * fCurrentBlocks B s) := by
        ring
      have hcnt : fCurrentBlocks B s + fCurrentBlocks B (new - B * fCurrentBlocks B s) ≤
          ((st.inodes inum).blocks.length : Int) + (st.free.length : Int) := by
        have h9 : B * (fCurrentBlocks B s + fCurrentBlocks B (new - B * fCurrentBlocks B s) - 1) <
            B * (((st.inodes inum).blocks.length : Int) + (st.free.length : Int)) := by
          omega
        have := lt_of_mul_lt hB h9
        omega
      have hr : r = .Ok := hen (by omega)
      have hlen := hok hr
      have hlen2 : fCurrentBlocks B s + fCurrentBlocks B (new - B * fCurrentBlocks B s) ≤
          ((st2.inodes inum).blocks.length : Int) := by omega
      have h10 := mul_le_of_le hB hlen2
      rw [← he]
      simp only [Function.update_same]
      omega
    · simp only [hav, if_false, bind_apply, pure_apply, bfsSetSize, Res.ok.injEq,
        true_and] at he
      rw [← he]
      simp only [Function.update_same]
      have hcb : fCurrentBlocks B s ≤ ((st.inodes inum).blocks.length : Int) := by
        by_contra hneg
        have := mul_step hB (show ((st.inodes inum).blocks.length : Int) < fCurrentBlocks B s by
          omega)
        omega
      have := mul_le_of_le hB hcb
      omega
  · simp only [hlt, if_false, pure_apply, Res.ok.injEq, true_and] at he
    rw [← he]
    omega

/-! ## fsRead: contents -/

theorem Span.toNat_count {B c n first last r1 r2 : Int} (sp : Span B c n first last r1 r2) :
    first + ((last - first + 1).toNat : Int) = last + 1 := by
  have := sp.first_le_last
  omega

/-- The first `n` bytes of the caller's buffer after `fsRead`, for a range
inside the file (`n = 0` included). -/
theorem fsRead_delivers_range (B : Int) (st : State) (fd inum n : Int) (hB : 0 < B)
    (hBmax : B ≤ INT32_MAX) (h : IsHandle st fd inum) (hc : 0 ≤ cursorOf st fd) (hn : 0 ≤ n)
    (hsz : cursorOf st fd + n ≤ fileSize st inum) (hmax : fileSize st inum ≤ INT32_MAX)
    (hwf : fileSize st inum ≤ B * blockCount st inum) :
    (∀ p, 0 ≤ p → p < n →
      (fsRead B fd n st).state.userBuf p = fileByte B st inum (cursorOf st fd + p)) ∧
    (((cursorOf st fd + n) % B ≠ 0 ∨ (cursorOf st fd + n) / B < blockCount st inum) →
      (fsRead B fd n st).value = some n) := by
  have sp := span_of_range hB hBmax hc hn (le_trans hsz hmax)
  have hk := sp.toNat_count
  have hcont := fsReadLoop_content sp inum
    ((cursorOf st fd + n) / B - cursorOf st fd / B + 1).toNat (cursorOf st fd / B) 0 st
    (le_refl _) hk (fun _ => rfl) (fun h1 _ => absurd h1 (lt_irrefl _))
  obtain ⟨_, hc2, hc3⟩ := hcont
  have hfl := sp.first_le_last
  have hf0 := sp.first_nonneg
  have hlast := sp.hlast
  have hr2 := sp.hr2
  have halloc : ∀ f, cursorOf st fd / B ≤ f → B * f < fileSize st inum →
      ∃ e, dbnOf st inum f = some e := by
    intro f g1 g2
    rw [dbnOf_some_iff]
    refine ⟨by omega, ?_⟩
    unfold blockCount at hwf
    exact lt_of_mul_lt hB (by omega)
  rw [fsRead_eq h, sp.div_first, sp.div_last]
  constructor
  · intro p hp0 hpn
    have hu : (match fsReadLoop B inum (cursorOf st fd) (cursorOf st fd / B)
          ((cursorOf st fd + n) / B - cursorOf st fd / B + 1).toNat (cursorOf st fd / B) 0 st with
        | .ok _ st1 => Res.ok n (withCursor st1 fd (add32 (cursorOf st fd) n))
        | .abort e st1 => Res.abort e st1).state.userBuf =
        (fsReadLoop B inum (cursorOf st fd) (cursorOf st fd / B)
          ((cursorOf st fd + n) / B - cursorOf st fd / B + 1).toNat (cursorOf st fd / B) 0
          st).state.userBuf := by
      cases fsReadLoop B inum (cursorOf st fd) (cursorOf st fd / B)
          ((cursorOf st fd + n) / B - cursorOf st fd / B + 1).toNat (cursorOf st fd / B) 0 st with
      | ok a st1 => exact withCursor_userBuf _ _ _
      | abort e st1 => rfl
    rw [hu]
    have q1 : B * ((cursorOf st fd + p) / B) + (cursorOf st fd + p) % B = cursorOf st fd + p :=
      Int.ediv_add_emod _ _
    have q2 : 0 ≤ (cursorOf st fd + p) % B := Int.emod_nonneg _ (ne_of_gt hB)
    have q3 : (cursorOf st fd + p) % B < B := Int.emod_lt_of_pos _ hB
    have q4 : cursorOf st fd / B ≤ (cursorOf st fd + p) / B :=
      Int.ediv_le_ediv hB (by omega)
    have q5 : (cursorOf st fd + p) / B ≤ (cursorOf st fd + n) / B :=
      Int.ediv_le_ediv hB (by omega)
    obtain ⟨d, hd⟩ := halloc ((cursorOf st fd + p) / B) q4 (by omega)
    have hall : ∀ f, cursorOf st fd / B ≤ f → f ≤ (cursorOf st fd + p) / B →
        ∃ e, dbnOf st inum f = some e := by
      intro f g1 g2
      have := mul_le_of_le hB g2
      exact halloc f g1 (by omega)
    have key := hc2 ((cursorOf st fd + p) / B) d ((cursorOf st fd + p) % B) q4 q5 hall hd q2 q3
      (by omega)
    have e1 : B * ((cursorOf st fd + p) / B) + (cursorOf st fd + p) % B - cursorOf st fd = p := by
      omega
    rw [e1] at key
    rw [key]
    unfold fileByte
    rw [hd]
  · intro hend
    have hall : ∀ f, cursorOf st fd / B ≤ f → f ≤ (cursorOf st fd + n) / B →
        ∃ e, dbnOf st inum f = some e := by
      intro f g1 g2
      have g3 := mul_le_of_le hB g2
      rcases hend with h1 | h1
      · have : 0 < (cursorOf st fd + n) % B := by omega
        exact halloc f g1 (by omega)
      · rw [dbnOf_some_iff]
        unfold blockCount at h1
        omega
    obtain ⟨bo1, hv⟩ := hc3 hall
    cases hl : fsReadLoop B inum (cursorOf st fd) (cursorOf st fd / B)
        ((cursorOf st fd + n) / B - cursorOf st fd / B + 1).toNat (cursorOf st fd / B) 0 st with
    | ok a st1 => rfl
    | abort e st1 =>
      rw [hl] at hv
      cases hv

/-! ## fsWrite: contents -/

theorem dbnOf_of_append {st st1 : State} {inum : Int} {l : List Int}
    (hb : (st1.inodes inum).blocks = (st.inodes inum).blocks ++ l) {f d : Int}
    (hd : dbnOf st inum f = some d) : dbnOf st1 inum f = some d := by
  have hlen := (@dbnOf_some_iff st inum f).1 ⟨d, hd⟩
  unfold dbnOf at hd ⊢
  simp only [hlen.1, if_true] at hd ⊢
  rw [hb, List.getElem?_append_left (by omega)]
  exact hd

/-- The state in which `fsWrite` ends, returning or not, has the inodes the
growth step left and the disk the block loop left. -/
theorem fsWrite_state {st : State} {fd inum : Int} (h : IsHandle st fd inum) (B n : Int)
    (buf : Mem) (st1 : State)
    (he : fsWriteGrow B inum (fileSize st inum) (add32 (cursorOf st fd) n) st = .ok () st1) :
    (fsWrite B fd n buf st).state.inodes = st1.inodes ∧
    (fsWrite B fd n buf st).state.disk =
      (fsWriteLoop B inum (cursorOf st fd) n buf (div32 (cursorOf st fd) B)
        (div32 (add32 (cursorOf st fd) n) B)
        (div32 (add32 (cursorOf st fd) n) B - div32 (cursorOf st fd) B + 1).toNat
        (div32 (cursorOf st fd) B) 0 st1).state.disk ∧
    (∀ r st2, fsWriteLoop B inum (cursorOf st fd) n buf (div32 (cursorOf st fd) B)
        (div32 (add32 (cursorOf st fd) n) B)
        (div32 (add32 (cursorOf st fd) n) B - div32 (cursorOf st fd) B + 1).toNat
        (div32 (cursorOf st fd) B) 0 st1 = .ok r st2 →
      fsWrite B fd n buf st = .ok 0 (withCursor st2 fd (add32 (cursorOf st fd) n))) := by
  rw [fsWrite_eq h]
  simp only [he]
  have hp := sameMeta_fsWriteLoop B inum (cursorOf st fd) n buf (div32 (cursorOf st fd) B)
    (div32 (add32 (cursorOf st fd) n) B)
    (div32 (add32 (cursorOf st fd) n) B - div32 (cursorOf st fd) B + 1).toNat
    (div32 (cursorOf st fd) B) 0 st1
  cases hl : fsWriteLoop B inum (cursorOf st fd) n buf (div32 (cursorOf st fd) B)
      (div32 (add32 (cursorOf st fd) n) B)
      (div32 (add32 (cursorOf st fd) n) B - div32 (cursorOf st fd) B + 1).toNat
      (div32 (cursorOf st fd) B) 0 st1 with
  | abort e st2 =>
    rw [hl] at hp
    refine ⟨hp.2.1, rfl, ?_⟩
    intro r st3 h3
    cases h3
  | ok r st2 =>
    rw [hl] at hp
    refine ⟨?_, ?_, ?_⟩
    · show (withCursor st2 fd _).inodes = _
      rw [withCursor_inodes]
      exact hp.2.1
    · show (withCursor st2 fd _).disk = _
      rw [withCursor_disk]
      rfl
    · intro r2 st3 h3
      simp only [Res.ok.injEq] at h3
      rw [h3.2]

/-- C3: `fsWrite` of `n ≥ 0` bytes at cursor `c ≥ 0` (with `c + n` within `i32`)
on an open handle of a file whose blocks, together with the free blocks of the
store, are pairwise distinct physical blocks: in the state in which the call
ends, every byte of every block of the file at a file position outside
`[c, c + n)` is what it was before the call.  In particular, on a file of size
`5 * B` with its five blocks, writing `3 * B` bytes at cursor `B` returns 0,
leaves blocks 0 and 4 unchanged and makes blocks 1, 2, 3 the input. -/
theorem fsWrite_preserves_outside (B : Int) (st : State) (fd inum n : Int) (buf : Mem)
    (hB : 0 < B) (hBmax : B ≤ INT32_MAX) (h : IsHandle st fd inum) (hc : 0 ≤ cursorOf st fd)
    (hn : 0 ≤ n) (hcn : cursorOf st fd + n ≤ INT32_MAX)
    (hnodup : ((st.inodes inum).blocks ++ st.free).Nodup) :
    (∀ fbn d j, dbnOf (fsWrite B fd n buf st).state inum fbn = some d → 0 ≤ j → j < B →
      ¬ (cursorOf st fd ≤ B * fbn + j ∧ B * fbn + j < cursorOf st fd + n) →
      (fsWrite B fd n buf st).state.disk d j = st.disk d j) ∧
    (fileSize st inum = 5 * B → cursorOf st fd = B → n = 3 * B → 5 ≤ blockCount st inum →
      (fsWrite B fd n buf st).value = some 0 ∧
      ∀ d j, 0 ≤ j → j < B →
        ((dbnOf st inum 0 = some d ∨ dbnOf st inum 4 = some d) →
          (fsWrite B fd n buf st).state.disk d j = st.disk d j) ∧
        (∀ fbn, 1 ≤ fbn → fbn ≤ 3 → dbnOf st inum fbn = some d →
          (fsWrite B fd n buf st).state.disk d j = buf (B * (fbn - 1) + j))) := by
  have sp := span_of_range hB hBmax hc hn hcn
  have hk := sp.toNat_count
  obtain ⟨st1, m, he, hg, hdisk, _, _, _, hblocks, _⟩ := fsWriteGrow_spec B inum (fileSize st inum)
    (add32 (cursorOf st fd) n) st
  obtain ⟨hsi, hsd, hsr⟩ := fsWrite_state h B n buf st1 he
  rw [sp.div_first, sp.div_last] at hsd hsr
  have hnd1 : (st1.inodes inum).blocks.Nodup := by
    rw [hblocks]
    exact List.Nodup.sublist ((List.take_sublist m st.free).append_left _) hnodup
  have frame : ∀ fbn d j, dbnOf st1 inum fbn = some d → 0 ≤ j → j < B →
      ¬ (cursorOf st fd ≤ B * fbn + j ∧ B * fbn + j < cursorOf st fd + n) →
      (fsWrite B fd n buf st).state.disk d j = st.disk d j := by
    intro fbn d j hd hj0 hjB hout
    rw [hsd]
    have := fsWriteLoop_frame sp inum buf
      ((cursorOf st fd + n) / B - cursorOf st fd / B + 1).toNat (cursorOf st fd / B) 0 st1
      (le_refl _) hk (fun _ => rfl) (fun h1 _ => absurd h1 (lt_irrefl _)) d j (by
        intro f _ _ g3
        have e := dbnOf_inj hnd1 g3 hd
        subst e
        intro g4
        exact hout g4.2.2)
    rw [this, hdisk]
  constructor
  · intro fbn d j hd
    rw [dbnOf_congr hsi] at hd
    exact frame fbn d j hd
  · intro hs5 hcB hn3 hb5
    have sp2 : Span B (cursorOf st fd) n 1 4 0 0 :=
      { hB := hB, hBmax := hBmax, hc := hc, hn := hn, hcn := hcn
        hfirst := by rw [hcB]; ring
        hr1 := le_refl 0
        hr1B := hB
        hlast := by rw [hcB, hn3]; ring
        hr2 := le_refl 0
        hr2B := hB }
    have f1 : cursorOf st fd / B = 1 := by
      rw [← sp.div_first]
      exact sp2.div_first
    have f4 : (cursorOf st fd + n) / B = 4 := by
      rw [← sp.div_last]
      exact sp2.div_last
    rw [f1, f4] at hsr
    have halloc : ∀ f, 0 ≤ f → f ≤ 4 → ∃ d, dbnOf st inum f = some d := by
      intro f g1 g2
      rw [dbnOf_some_iff]
      unfold blockCount at hb5
      omega
    obtain ⟨bo2, st2, hl, hm2, hcont⟩ := fsWriteLoop_content sp2 inum buf ((4 : Int) - 1 + 1).toNat
      1 0 st1 (le_refl _) (by decide) (fun _ => rfl) (fun h1 _ => absurd h1 (lt_irrefl _))
      (by
        intro f g1 g2
        obtain ⟨d, hd⟩ := halloc f (by omega) g2
        exact ⟨d, dbnOf_of_append hblocks hd⟩) hnd1
    have hres := hsr bo2 st2 hl
    refine ⟨by rw [hres]; rfl, ?_⟩
    intro d j hj0 hjB
    constructor
    · intro h04
      rcases h04 with h0 | h4
      · exact frame 0 d j (dbnOf_of_append hblocks h0) hj0 hjB (by omega)
      · exact frame 4 d j (dbnOf_of_append hblocks h4) hj0 hjB (by omega)
    · intro fbn g1 g2 hd
      rw [hres]
      show (withCursor st2 fd _).disk d j = _
      rw [withCursor_disk]
      have e1 : B * (fbn - 1) = B * fbn - B := by ring
      have h123 : fbn = 1 ∨ fbn = 2 ∨ fbn = 3 := by omega
      have key := hcont fbn d j g1 (by omega) (dbnOf_of_append hblocks hd) hj0 hjB
        (by rcases h123 with e | e | e <;> subst e <;> omega)
        (by rcases h123 with e | e | e <;> subst e <;> omega)
      rw [key, e1]
      congr 1
      omega

/-- C8: on an open handle at cursor `c ≥ 0`, for `n > 0` with `c + n` at most
the file size, in a store that has a block for every logical block below the
size: when `fsRead` ends, the first `n` bytes of the caller's buffer are the
bytes at positions `[c, c + n)` of the file's byte stream; and `fsRead` returns
`n` whenever block `(c + n) / B` is allocated, in particular whenever `c + n` is
not a multiple of `B`. -/
theorem fsRead_content (B : Int) (st : State) (fd inum n : Int) (hB : 0 < B)
    (hBmax : B ≤ INT32_MAX) (h : IsHandle st fd inum) (hc : 0 ≤ cursorOf st fd) (hn : 0 < n)
    (hsz : cursorOf st fd + n ≤ fileSize st inum) (hmax : fileSize st inum ≤ INT32_MAX)
    (hwf : fileSize st inum ≤ B * blockCount st inum) :
    (∀ p, 0 ≤ p → p < n →
      (fsRead B fd n st).state.userBuf p = fileByte B st inum (cursorOf st fd + p)) ∧
    (((cursorOf st fd + n) % B ≠ 0 ∨ (cursorOf st fd + n) / B < blockCount st inum) →
      (fsRead B fd n st).value = some n) :=
  fsRead_delivers_range B st fd inum n hB hBmax h hc (le_of_lt hn) hsz hmax hwf

/-! ## The round trip -/

theorem fsSeek_set {st : State} {fd inum : Int} (h : IsHandle st fd inum) {o : Int} (ho : 0 ≤ o) :
    fsSeek fd o SEEK_SET st = .ok 0 (withCursor st fd o) := by
  rw [fsSeek_eq h o SEEK_SET ho]
  simp only [if_true]

theorem fileSize_withCursor (st : State) (fd c inum : Int) :
    fileSize (withCursor st fd c) inum = fileSize st inum := by
  unfold fileSize
  rw [withCursor_inodes]

theorem blockCount_withCursor (st : State) (fd c inum : Int) :
    blockCount (withCursor st fd c) inum = blockCount st inum := by
  unfold blockCount
  rw [withCursor_inodes]

theorem dbnOf_withCursor (st : State) (fd c inum f : Int) :
    dbnOf (withCursor st fd c) inum f = dbnOf st inum f :=
  dbnOf_congr (withCursor_inodes st fd c) inum f

theorem extendRequests_append (l1 l2 : List Event) :
    extendRequests (l1 ++ l2) = extendRequests l1 ++ extendRequests l2 := by
  induction l1 with
  | nil => rfl
  | cons ev l ih =>
    cases ev <;> simp [extendRequests, ih]

theorem ceilDiv_unique {B a x : Int} (hB : 0 < B) (h1 : a ≤ B * x) (h2 : B * x < a + B) :
    ceilDiv a B = x := by
  unfold ceilDiv
  have e : a + B - 1 = B * x + (a + B - 1 - B * x) := by ring
  rw [e]
  exact ediv_of_decomp hB (by omega) (by omega)

theorem fCurrentBlocks_eq_ceilDiv {B s : Int} (hB : 0 < B) (hs0 : 0 ≤ s) (hs : s ≤ 2147483646) :
    fCurrentBlocks B s = ceilDiv s B := by
  obtain ⟨_, h1, h2⟩ := fCurrentBlocks_ceil hB hs0 hs
  exact (ceilDiv_unique hB h1 h2).symm

theorem sameRequests_refl (st : State) : SameRequests st st := rfl

theorem sameRequests_trans {a b c : State} (h1 : SameRequests a b) (h2 : SameRequests b c) :
    SameRequests a c := by
  unfold SameRequests at *
  rw [h2, h1]

theorem sameRequests_bind {α β : Type} {m : M α} {f : α → M β} (hm : Preserves SameRequests m)
    (hf : ∀ a, Preserves SameRequests (f a)) : Preserves SameRequests (m >>= f) :=
  @preserves_bind SameRequests (fun _ _ _ h1 h2 => sameRequests_trans h1 h2) _ _ _ _ hm hf

theorem sameRequests_trace (ev : Event) (h : extendRequests [ev] = []) :
    Preserves SameRequests (trace ev) := by
  intro st
  show extendRequests (st.log ++ [ev]) = extendRequests st.log
  rw [extendRequests_append, h, List.append_nil]

theorem sameRequests_of_log {α : Type} {m : M α} (h : ∀ st, (m st).state.log = st.log) :
    Preserves SameRequests m := by
  intro st
  unfold SameRequests
  rw [h st]

theorem sameRequests_malloc : Preserves SameRequests malloc := fun st => sameRequests_refl st

theorem sameRequests_bfsRead (B inum fbn : Int) (buf : Mem) :
    Preserves SameRequests (bfsRead B inum fbn buf) := by
  unfold bfsRead
  apply sameRequests_bind (sameRequests_trace (.fetch inum fbn) rfl)
  intro _
  apply sameRequests_of_log
  intro st
  dsimp only
  split <;> rfl

theorem sameRequests_bfsFbnToDbn (inum fbn : Int) :
    Preserves SameRequests (bfsFbnToDbn inum fbn) := by
  unfold bfsFbnToDbn
  apply sameRequests_bind (sameRequests_trace (.resolve inum fbn) rfl)
  intro _
  apply sameRequests_of_log
  intro st
  dsimp only
  split <;> rfl

theorem sameRequests_memcpyIn (B : Int) (bioBuf : Mem) (dOff : Int) (src : Mem) (sOff len : Int) :
    Preserves SameRequests (memcpyIn B bioBuf dOff src sOff len) := by
  unfold memcpyIn
  apply preserves_ite
  · exact preserves_pure sameRequests_refl _
  · exact preserves_FATAL sameRequests_refl _

theorem sameRequests_bioWrite (B dbn : Int) (buf : Mem) :
    Preserves SameRequests (bioWrite B dbn buf) := by
  unfold bioWrite
  apply sameRequests_bind (sameRequests_trace (.store dbn) rfl)
  intro _
  apply sameRequests_of_log
  intro st
  rfl

theorem sameRequests_fsWriteLoop (B inum cursor numb : Int) (buf : Mem) (fbnStart fbnEnd : Int)
    (k : Nat) (i bufOffset : Int) :
    Preserves SameRequests (fsWriteLoop B inum cursor numb buf fbnStart fbnEnd k i bufOffset) := by
  induction k generalizing i bufOffset with
  | zero => exact preserves_pure sameRequests_refl _
  | succ k ih =>
    unfold fsWriteLoop
    apply sameRequests_bind sameRequests_malloc
    intro bioBuf
    apply preserves_ite
    · apply sameRequests_bind (sameRequests_bfsRead _ _ _ _)
      intro b1
      apply sameRequests_bind (sameRequests_memcpyIn _ _ _ _ _ _)
      intro b2
      apply sameRequests_bind (sameRequests_bfsFbnToDbn _ _)
      intro dbn
      apply sameRequests_bind (sameRequests_bioWrite _ _ _)
      intro _
      exact ih _ _
    · apply preserves_ite
      · apply sameRequests_bind (sameRequests_bfsRead _ _ _ _)
        intro b1
        apply sameRequests_bind (sameRequests_memcpyIn _ _ _ _ _ _)
        intro b2
        apply sameRequests_bind (sameRequests_bfsFbnToDbn _ _)
        intro dbn
        apply sameRequests_bind (sameRequests_bioWrite _ _ _)
        intro _
        exact ih _ _
      · apply sameRequests_bind (sameRequests_memcpyIn _ _ _ _ _ _)
        intro b2
        apply sameRequests_bind (sameRequests_bfsFbnToDbn _ _)
        intro dbn
        apply sameRequests_bind (sameRequests_bioWrite _ _ _)
        intro _
        exact ih _ _

theorem bfsExtend_log (inum count : Int) (st : State) :
    (bfsExtend inum count st).state.log = st.log ++ [.extend inum count] := by
  unfold bfsExtend
  simp only [bind_apply, trace, logged]
  split <;> rfl

/-- The trace of the growth step: one extension request, for
`fCurrentBlocks + blocksNeeded` blocks, when the new size exceeds both the old
size and the bytes of the blocks counted for the old size; none otherwise. -/
theorem fsWriteGrow_log (B inum fSize newfSize : Int) (st : State) :
    (fsWriteGrow B inum fSize newfSize st).state.log = st.log ++
      (if fSize < newfSize ∧ mul32 (fCurrentBlocks B fSize) B < newfSize then
        [.extend inum (add32 (fCurrentBlocks B fSize)
          (blocksNeeded B (sub32 newfSize (mul32 (fCurrentBlocks B fSize) B))))]
      else []) := by
  unfold fsWriteGrow
  by_cases hlt : fSize < newfSize
  · simp only [hlt, if_true, true_and]
    by_cases hav : mul32 (fCurrentBlocks B fSize) B < newfSize
    · simp only [hav, if_true, bind_apply]
      have hl := bfsExtend_log inum (add32 (fCurrentBlocks B fSize)
        (blocksNeeded B (sub32 newfSize (mul32 (fCurrentBlocks B fSize) B)))) st
      cases hx : bfsExtend inum (add32 (fCurrentBlocks B fSize)
          (blocksNeeded B (sub32 newfSize (mul32 (fCurrentBlocks B fSize) B)))) st with
      | ok r st1 =>
        rw [hx] at hl
        exact hl
      | abort e st1 =>
        rw [hx] at hl
        exact hl
    · simp only [hav, if_false, bind_apply, pure_apply, bfsSetSize]
      simp [Res.state]
  · simp only [hlt, if_false, false_and, pure_apply]
    simp [Res.state]

/-- C15: `fsWrite` of `n ≥ 0` bytes at cursor `c ≥ 0` on an open handle of a file
of size `s ≥ 0` (sizes within `i32`).  When `c + n > s`, the call makes an
extension request exactly if `ceil(s / B) * B < c + n`, and the request is for
`ceil((c + n) / B)` blocks; when `c + n ≤ s` it makes none. -/
theorem fsWrite_extension_request (B : Int) (st : State) (fd inum n : Int) (buf : Mem)
    (hB : 0 < B) (h : IsHandle st fd inum) (hs0 : 0 ≤ fileSize st inum)
    (hsB : fileSize st inum + B ≤ INT32_MAX) (hc : 0 ≤ cursorOf st fd) (hn : 0 ≤ n)
    (hcn : cursorOf st fd + n < INT32_MAX) :
    (fileSize st inum < cursorOf st fd + n →
      extendRequests (fsWrite B fd n buf st).state.log = extendRequests st.log ++
        (if ceilDiv (fileSize st inum) B * B < cursorOf st fd + n then
          [(inum, ceilDiv (cursorOf st fd + n) B)]
        else [])) ∧
    (cursorOf st fd + n ≤ fileSize st inum →
      extendRequests (fsWrite B fd n buf st).state.log = extendRequests st.log) := by
  unfold INT32_MAX at hsB hcn
  have hadd : add32 (cursorOf st fd) n = cursorOf st fd + n := add32_eq (by omega) (by omega)
  obtain ⟨st1, m, he, _⟩ := fsWriteGrow_spec B inum (fileSize st inum)
    (add32 (cursorOf st fd) n) st
  have hglog := fsWriteGrow_log B inum (fileSize st inum) (add32 (cursorOf st fd) n) st
  rw [he] at hglog
  have hg1 : st1.log = st.log ++
      (if fileSize st inum < add32 (cursorOf st fd) n ∧
          mul32 (fCurrentBlocks B (fileSize st inum)) B < add32 (cursorOf st fd) n then
        [.extend inum (add32 (fCurrentBlocks B (fileSize st inum))
          (blocksNeeded B (sub32 (add32 (cursorOf st fd) n)
            (mul32 (fCurrentBlocks B (fileSize st inum)) B))))]
      else []) := hglog
  -- the loop and the cursor update add no request
  have hfin : extendRequests (fsWrite B fd n buf st).state.log = extendRequests st1.log := by
    rw [fsWrite_eq h]
    simp only [he]
    have hp := sameRequests_fsWriteLoop B inum (cursorOf st fd) n buf (div32 (cursorOf st fd) B)
      (div32 (add32 (cursorOf st fd) n) B)
      (div32 (add32 (cursorOf st fd) n) B - div32 (cursorOf st fd) B + 1).toNat
      (div32 (cursorOf st fd) B) 0 st1
    cases hl : fsWriteLoop B inum (cursorOf st fd) n buf (div32 (cursorOf st fd) B)
        (div32 (add32 (cursorOf st fd) n) B)
        (div32 (add32 (cursorOf st fd) n) B - div32 (cursorOf st fd) B + 1).toNat
        (div32 (cursorOf st fd) B) 0 st1 with
    | abort e st2 =>
      rw [hl] at hp
      exact hp
    | ok r st2 =>
      rw [hl] at hp
      show extendRequests (withCursor st2 fd _).log = _
      rw [withCursor_log]
      exact hp
  rw [hfin, hg1, extendRequests_append, hadd]
  obtain ⟨c0, c1, c2⟩ := fCurrentBlocks_ceil hB hs0 (by omega)
  have hcb := fCurrentBlocks_eq_ceilDiv hB hs0 (show fileSize st inum ≤ 2147483646 by omega)
  have e1 : mul32 (fCurrentBlocks B (fileSize st inum)) B = ceilDiv (fileSize st inum) B * B := by
    rw [← hcb]
    apply mul32_eq
    · rw [Int.mul_comm]; omega
    · rw [Int.mul_comm]; omega
  have e1b : ceilDiv (fileSize st inum) B * B = B * fCurrentBlocks B (fileSize st inum) := by
    rw [← hcb, Int.mul_comm]
  constructor
  · intro hlt
    rw [e1]
    by_cases hav : ceilDiv (fileSize st inum) B * B < cursorOf st fd + n
    · have hcond : fileSize st inum < cursorOf st fd + n ∧
          ceilDiv (fileSize st inum) B * B < cursorOf st fd + n := ⟨hlt, hav⟩
      rw [if_pos hcond, if_pos hav]
      rw [e1b] at hav ⊢
      have e2 : sub32 (cursorOf st fd + n) (B * fCurrentBlocks B (fileSize st inum)) =
          cursorOf st fd + n - B * fCurrentBlocks B (fileSize st inum) :=
        sub32_eq (by omega) (by omega)
      rw [e2, blocksNeeded_eq]
      obtain ⟨m0, m1, m2⟩ := fCurrentBlocks_ceil hB
        (show 0 ≤ cursorOf st fd + n - B * fCurrentBlocks B (fileSize st inum) by omega)
        (by omega)
      have e6 : B * (fCurrentBlocks B (fileSize st inum) +
          fCurrentBlocks B (cursorOf st fd + n - B * fCurrentBlocks B (fileSize st inum)) - 1)
          = B * fCurrentBlocks B (fileSize st inum) +
            B * fCurrentBlocks B (cursorOf st fd + n - B * fCurrentBlocks B (fileSize st inum))
            - B := by
        ring
      have e7 : B * (fCurrentBlocks B (fileSize st inum) +
          fCurrentBlocks B (cursorOf st fd + n - B * fCurrentBlocks B (fileSize st inum)))
          = B * fCurrentBlocks B (fileSize st inum) +
            B * fCurrentBlocks B (cursorOf st fd + n - B * fCurrentBlocks B (fileSize st inum)) := by
        ring
      have hq3 : fCurrentBlocks B (fileSize st inum) +
          fCurrentBlocks B (cursorOf st fd + n - B * fCurrentBlocks B (fileSize st inum)) ≤
          cursorOf st fd + n := by
        by_cases hz : 0 ≤ fCurrentBlocks B (fileSize st inum) +
            fCurrentBlocks B (cursorOf st fd + n - B * fCurrentBlocks B (fileSize st inum)) - 1
        · have := le_mul_of_pos hB hz
          omega
        · omega
      have e3 : add32 (fCurrentBlocks B (fileSize st inum))
          (fCurrentBlocks B (cursorOf st fd + n - B * fCurrentBlocks B (fileSize st inum))) =
          fCurrentBlocks B (fileSize st inum) +
          fCurrentBlocks B (cursorOf st fd + n - B * fCurrentBlocks B (fileSize st inum)) :=
        add32_eq (by omega) (by omega)
      rw [e3]
      have hceil : ceilDiv (cursorOf st fd + n) B = fCurrentBlocks B (fileSize st inum) +
          fCurrentBlocks B (cursorOf st fd + n - B * fCurrentBlocks B (fileSize st inum)) :=
        ceilDiv_unique hB (by omega) (by omega)
      rw [hceil]
      rfl
    · have hcond : ¬ (fileSize st inum < cursorOf st fd + n ∧
          ceilDiv (fileSize st inum) B * B < cursorOf st fd + n) := fun hh => hav hh.2
      rw [if_neg hcond, if_neg hav]
      rfl
  · intro hle
    have hcond : ¬ (fileSize st inum < cursorOf st fd + n ∧
        mul32 (fCurrentBlocks B (fileSize st inum)) B < cursorOf st fd + n) := by
      intro hh
      omega
    rw [if_neg hcond]
    simp [extendRequests]

/-! ## Sequences of calls and the sign of the cursor -/

/-- A call in range that returns, made with a non-negative cursor on an open
handle of a file of non-negative size, leaves the handle open, the cursor
non-negative and the size non-negative. -/
theorem runCall_keeps_cursor_nonneg (B fd inum : Int) (c : Call) (st st1 : State) (r : Int)
    (h : IsHandle st fd inum) (hc : 0 ≤ cursorOf st fd) (hs : 0 ≤ fileSize st inum)
    (hr : callInRange st fd inum c = true) (hrun : runCall B fd c st = .ok r st1) :
    IsHandle st1 fd inum ∧ 0 ≤ cursorOf st1 fd ∧ 0 ≤ fileSize st1 inum := by
  cases c with
  | seek x w =>
    simp only [callInRange, decide_eq_true_eq] at hr
    unfold INT32_MAX at hr
    simp only [runCall] at hrun
    by_cases hx : x < 0
    · rw [fsSeek_neg st fd x w hx] at hrun
      cases hrun
    · have hx0 : 0 ≤ x := by omega
      rw [fsSeek_eq h x w hx0] at hrun
      by_cases h1 : w = SEEK_SET
      · rw [if_pos h1] at hrun
        simp only [Res.ok.injEq] at hrun
        rw [← hrun.2]
        exact ⟨isHandle_withCursor h x, by rw [cursorOf_withCursor h]; exact hx0,
          by rw [fileSize_withCursor]; exact hs⟩
      · rw [if_neg h1] at hrun
        by_cases h2 : w = SEEK_CUR
        · rw [if_pos h2] at hrun
          simp only [Res.ok.injEq] at hrun
          rw [← hrun.2]
          have := hr.1 h2
          have e : add32 (cursorOf st fd) x = cursorOf st fd + x :=
            add32_eq (by omega) (by omega)
          exact ⟨isHandle_withCursor h _, by rw [cursorOf_withCursor h, e]; omega,
            by rw [fileSize_withCursor]; exact hs⟩
        · rw [if_neg h2] at hrun
          by_cases h3 : w = SEEK_END
          · rw [if_pos h3] at hrun
            simp only [Res.ok.injEq] at hrun
            rw [← hrun.2]
            have := hr.2 h3
            have e : add32 (fileSize st inum) x = fileSize st inum + x :=
              add32_eq (by omega) (by omega)
            exact ⟨isHandle_withCursor h _, by rw [cursorOf_withCursor h, e]; omega,
              by rw [fileSize_withCursor]; exact hs⟩
          · rw [if_neg h3] at hrun
            cases hrun
  | read n =>
    simp only [callInRange, decide_eq_true_eq] at hr
    unfold INT32_MAX at hr
    simp only [runCall] at hrun
    rw [fsRead_eq h] at hrun
    have hp := sameStore_fsReadLoop B inum (cursorOf st fd) (div32 (cursorOf st fd) B)
      (div32 (add32 (cursorOf st fd) n) B - div32 (cursorOf st fd) B + 1).toNat
      (div32 (cursorOf st fd) B) 0 st
    cases hl : fsReadLoop B inum (cursorOf st fd) (div32 (cursorOf st fd) B)
        (div32 (add32 (cursorOf st fd) n) B - div32 (cursorOf st fd) B + 1).toNat
        (div32 (cursorOf st fd) B) 0 st with
    | abort e st2 =>
      rw [hl] at hrun
      cases hrun
    | ok a st2 =>
      rw [hl] at hrun hp
      simp only [Res.ok.injEq] at hrun
      rw [← hrun.2]
      have h2 : IsHandle st2 fd inum := isHandle_congr hp.1 h
      have hi : st2.inodes = st.inodes := hp.2.1
      have e : add32 (cursorOf st fd) n = cursorOf st fd + n := add32_eq (by omega) (by omega)
      refine ⟨isHandle_withCursor h2 _, by rw [cursorOf_withCursor h2, e]; omega, ?_⟩
      rw [fileSize_withCursor]
      unfold fileSize at hs ⊢
      rw [hi]
      exact hs
  | write n buf =>
    simp only [callInRange, decide_eq_true_eq] at hr
    unfold INT32_MAX at hr
    simp only [runCall] at hrun
    have e : add32 (cursorOf st fd) n = cursorOf st fd + n := add32_eq (by omega) (by omega)
    obtain ⟨st2, m, he, hg, _, _, _, hsize, _⟩ := fsWriteGrow_spec B inum (fileSize st inum)
      (add32 (cursorOf st fd) n) st
    rw [fsWrite_eq h] at hrun
    simp only [he] at hrun
    have hp := sameMeta_fsWriteLoop B inum (cursorOf st fd) n buf (div32 (cursorOf st fd) B)
      (div32 (add32 (cursorOf st fd) n) B)
      (div32 (add32 (cursorOf st fd) n) B - div32 (cursorOf st fd) B + 1).toNat
      (div32 (cursorOf st fd) B) 0 st2
    cases hl : fsWriteLoop B inum (cursorOf st fd) n buf (div32 (cursorOf st fd) B)
        (div32 (add32 (cursorOf st fd) n) B)
        (div32 (add32 (cursorOf st fd) n) B - div32 (cursorOf st fd) B + 1).toNat
        (div32 (cursorOf st fd) B) 0 st2 with
    | abort e2 st3 =>
      rw [hl] at hrun
      cases hrun
    | ok a st3 =>
      rw [hl] at hrun hp
      simp only [Res.ok.injEq] at hrun
      rw [← hrun.2]
      have h3 : IsHandle st3 fd inum := isHandle_congr (hp.1.trans hg) h
      have hi : st3.inodes = st2.inodes := hp.2.1
      refine ⟨isHandle_withCursor h3 _, by rw [cursorOf_withCursor h3, e]; omega, ?_⟩
      rw [fileSize_withCursor]
      unfold fileSize at hs ⊢
      rw [hi, hsize, e]
      split <;> omega

/-- C13 (amended): on an open handle with cursor 0 of a file of non-negative
size, after every sequence of `fsSeek`, `fsRead` and `fsWrite` calls that all
return, in which every byte count is non-negative and every new cursor
(cursor plus count, cursor plus offset for `SEEK_CUR`, size plus offset for
`SEEK_END`) is at most `INT32_MAX`, the cursor is non-negative. -/
theorem cursor_nonneg_after_calls (B fd inum : Int) (calls : List Call) (st st1 : State)
    (h : IsHandle st fd inum) (hc : cursorOf st fd = 0) (hs : 0 ≤ fileSize st inum)
    (hr : allInRange B fd inum calls st = true) (hrun : runAll B fd calls st = some st1) :
    0 ≤ cursorOf st1 fd := by
  have key : ∀ (cs : List Call) (s s1 : State), IsHandle s fd inum → 0 ≤ cursorOf s fd →
      0 ≤ fileSize s inum → allInRange B fd inum cs s = true → runAll B fd cs s = some s1 →
      0 ≤ cursorOf s1 fd := by
    intro cs
    induction cs with
    | nil =>
      intro s s1 _ h2 _ _ h5
      simp only [runAll, Option.some.injEq] at h5
      rw [← h5]
      exact h2
    | cons c cs ih =>
      intro s s1 h1 h2 h3 h4 h5
      simp only [allInRange, Bool.and_eq_true] at h4
      simp only [runAll] at h5
      cases hcall : runCall B fd c s with
      | abort e s2 =>
        rw [hcall] at h5
        cases h5
      | ok r s2 =>
        rw [hcall] at h5
        dsimp only at h5
        have h6 := h4.2
        rw [hcall] at h6
        obtain ⟨i1, i2, i3⟩ := runCall_keeps_cursor_nonneg B fd inum c s s2 r h1 h2 h3 h4.1 hcall
        exact ih s2 s1 i1 i2 i3 h6 h5
  exact key calls st st1 h (by omega) hs hr hrun

/-! ## fsRead: the trace of a call -/

theorem fetchedBlocks_append (l1 l2 : List Event) :
    fetchedBlocks (l1 ++ l2) = fetchedBlocks l1 ++ fetchedBlocks l2 := by
  induction l1 with
  | nil => rfl
  | cons ev l ih =>
    cases ev <;> simp [fetchedBlocks, ih]

theorem copiedBytes_append (l1 l2 : List Event) :
    copiedBytes (l1 ++ l2) = copiedBytes l1 + copiedBytes l2 := by
  induction l1 with
  | nil => simp [copiedBytes]
  | cons ev l ih =>
    cases ev <;> simp [copiedBytes, ih]
    omega

/-- One iteration of the read loop on an allocated block adds to the trace the
fetch of the block and one copy: of `B - c mod B` bytes to offset 0 for the
first block, of `B` bytes to offset `B * i - c` for the others. -/
theorem fsReadLoop_step_log {B c n first last r1 r2 : Int} (sp : Span B c n first last r1 r2)
    (inum : Int) (k : Nat) (i bo : Int) (st : State)
    (hi1 : first ≤ i) (hi2 : i ≤ last) (hbo0 : i = first → bo = 0)
    (hbo : first < i → bo = B * i - c) (d : Int) (hd : dbnOf st inum i = some d) :
    ∃ st1 bo1, fsReadLoop B inum c first (k + 1) i bo st =
        fsReadLoop B inum c first k (i + 1) bo1 st1 ∧
      SameStore st st1 ∧
      st1.log = st.log ++ [.fetch inum i,
        .copyOut (if i = first then 0 else B * i - c) (if i = first then B - r1 else B)] ∧
      (i < last → bo1 = B * (i + 1) - c) := by
  have hB := sp.hB
  have hBmax := sp.hBmax
  have hc := sp.hc
  have hn := sp.hn
  have hcn := sp.hcn
  have hfirst := sp.hfirst
  have hr1 := sp.hr1
  have hr1B := sp.hr1B
  have hlast := sp.hlast
  have hr2 := sp.hr2
  have hr2B := sp.hr2B
  have e5 : B * (i + 1) = B * i + B := by ring
  unfold INT32_MAX at hBmax hcn
  rw [fsReadLoop]
  by_cases e1 : i = first
  · subst e1
    simp only [if_true, bind_apply, malloc_eq, sp.mod_first]
    rw [bfsRead_some hd]
    dsimp only
    have e3 : sub32 B r1 = B - r1 := sub32_eq (by omega) (by omega)
    rw [e3]
    have hg : 0 ≤ r1 ∧ 0 ≤ B - r1 ∧ r1 + (B - r1) ≤ B := by omega
    rw [memcpyOut_ok hg]
    dsimp only
    refine ⟨_, _, rfl, ⟨rfl, rfl, rfl, rfl, rfl⟩, ?_, ?_⟩
    · simp [logged]
    · intro hlt
      have hm := mul_step hB hlt
      rw [hbo0 rfl]
      exact (add32_eq (by omega) (by omega)).trans (by omega)
  · have hlt1 : first < i := by omega
    have hm1 := mul_step hB hlt1
    have hm2 := mul_le_of_le hB hi2
    simp only [e1, if_false, bind_apply, malloc_eq]
    rw [bfsRead_some hd]
    dsimp only
    have hg : 0 ≤ (0 : Int) ∧ 0 ≤ B ∧ 0 + B ≤ B := by omega
    rw [memcpyOut_ok hg]
    dsimp only
    have hb := hbo hlt1
    refine ⟨_, _, rfl, ⟨rfl, rfl, rfl, rfl, rfl⟩, ?_, ?_⟩
    · simp [logged, hb]
    · intro hlt
      have hm := mul_step hB hlt
      exact (add32_eq (by omega) (by omega)).trans (by omega)

/-- When the blocks of its range are allocated, the read loop returns, having
fetched them in order and copied `B * (last + 1)` minus the position of its
first byte. -/
theorem fsReadLoop_trace {B c n first last r1 r2 : Int} (sp : Span B c n first last r1 r2)
    (inum : Int) (k : Nat) :
    ∀ (i bo : Int) (st : State), first ≤ i → i + k = last + 1 → (i = first → bo = 0) →
      (first < i → i ≤ last → bo = B * i - c) →
      (∀ f, i ≤ f → f ≤ last → ∃ e, dbnOf st inum f = some e) →
      ∃ bo1 st1 L, fsReadLoop B inum c first k i bo st = .ok bo1 st1 ∧
        st1.log = st.log ++ L ∧
        fetchedBlocks L = (blockRange i k).map (fun f => (inum, f)) ∧
        copiedBytes L = B * (last + 1) - (if i = first then c else B * i) := by
  have hB := sp.hB
  have hfirst := sp.hfirst
  induction k with
  | zero =>
    intro i bo st hi1 hik _ _ _
    refine ⟨bo, st, [], rfl, by simp, rfl, ?_⟩
    have e : i = last + 1 := by omega
    have hne : ¬ i = first := by
      have := sp.first_le_last
      omega
    rw [if_neg hne, e]
    simp [copiedBytes]
  | succ k ih =>
    intro i bo st hi1 hik hbo0 hbo hall
    have hi2 : i ≤ last := by omega
    have e5 : B * (i + 1) = B * i + B := by ring
    obtain ⟨d, hd⟩ := hall i (le_refl i) hi2
    obtain ⟨st1, bo1, he, hs, hlog, hbo1⟩ := fsReadLoop_step_log sp inum k i bo st hi1 hi2 hbo0
      (fun h => hbo h hi2) d hd
    obtain ⟨bo2, st2, L, he2, hlog2, hf2, hc2⟩ := ih (i + 1) bo1 st1 (by omega) (by omega)
      (by intro h; omega) (by intro _ h2; exact hbo1 (by omega)) (by
        intro f g1 g2
        rw [dbnOf_congr hs.2.1]
        exact hall f (by omega) g2)
    refine ⟨bo2, st2, [.fetch inum i,
      .copyOut (if i = first then 0 else B * i - c) (if i = first then B - r1 else B)] ++ L,
      he.trans he2, ?_, ?_, ?_⟩
    · rw [hlog2, hlog, List.append_assoc]
    · rw [fetchedBlocks_append, hf2]
      rfl
    · rw [copiedBytes_append, hc2]
      have hne : ¬ i + 1 = first := by omega
      rw [if_neg hne]
      by_cases e1 : i = first
      · simp only [e1, if_true, copiedBytes]
        rw [e1] at e5
        omega
      · simp only [e1, if_false, copiedBytes]
        omega

/-- With the modelled Block Store, which ends the process on the fetch of a
block the file does not have: on an open handle at cursor `c ≥ 0`, for `n ≥ 0`
(with `c + n` within `i32`), when the blocks `c / B` through `(c + n) / B` of the
file are all allocated, `fsRead` returns `n`, fetches exactly these blocks, in
order, and copies `(B - c mod B) + ((c + n) / B - c / B) * B`, that is
`n + B - (c + n) mod B`, bytes into the caller's buffer. -/
theorem fsRead_copy_volume_allocated (B : Int) (st : State) (fd inum n : Int) (hB : 0 < B)
    (hBmax : B ≤ INT32_MAX) (h : IsHandle st fd inum) (hc : 0 ≤ cursorOf st fd) (hn : 0 ≤ n)
    (hcn : cursorOf st fd + n ≤ INT32_MAX)
    (hall : ∀ f, cursorOf st fd / B ≤ f → f ≤ (cursorOf st fd + n) / B →
      ∃ d, dbnOf st inum f = some d) :
    (fsRead B fd n st).value = some n ∧
    fetchedBlocks (callTrace st (fsRead B fd n st).state) =
      (blockRange (cursorOf st fd / B)
        ((cursorOf st fd + n) / B - cursorOf st fd / B + 1).toNat).map (fun f => (inum, f)) ∧
    copiedBytes (callTrace st (fsRead B fd n st).state) =
      (B - cursorOf st fd % B) + ((cursorOf st fd + n) / B - cursorOf st fd / B) * B ∧
    (B - cursorOf st fd % B) + ((cursorOf st fd + n) / B - cursorOf st fd / B) * B =
      n + B - (cursorOf st fd + n) % B := by
  have sp := span_of_range hB hBmax hc hn hcn
  have hk := sp.toNat_count
  have hfirst := sp.hfirst
  have hlast := sp.hlast
  obtain ⟨bo1, st1, L, he, hlog, hf, hcp⟩ := fsReadLoop_trace sp inum
    ((cursorOf st fd + n) / B - cursorOf st fd / B + 1).toNat (cursorOf st fd / B) 0 st
    (le_refl _) hk (fun _ => rfl) (fun h1 _ => absurd h1 (lt_irrefl _)) hall
  have hres : fsRead B fd n st = .ok n (withCursor st1 fd (add32 (cursorOf st fd) n)) := by
    rw [fsRead_eq h, sp.div_first, sp.div_last, he]
  have htr : callTrace st (fsRead B fd n st).state = L := by
    rw [hres]
    unfold callTrace
    show List.drop st.log.length (withCursor st1 fd _).log = L
    rw [withCursor_log, hlog, List.drop_left]
  have e1 : ((cursorOf st fd + n) / B - cursorOf st fd / B) * B =
      B * ((cursorOf st fd + n) / B) - B * (cursorOf st fd / B) := by ring
  have e2 : B * ((cursorOf st fd + n) / B + 1) = B * ((cursorOf st fd + n) / B) + B := by ring
  refine ⟨by rw [hres]; rfl, by rw [htr, hf], ?_, ?_⟩
  · rw [htr, hcp, if_pos rfl, e1, e2]
    omega
  · rw [e1]
    omega

/-! ## fsRead over any fetch that returns -/

theorem fsReadLoopWith_bfsRead (B inum cursor firstFBN : Int) (k : Nat) (i bufOffset : Int) :
    fsReadLoopWith (bfsRead B) B inum cursor firstFBN k i bufOffset =
      fsReadLoop B inum cursor firstFBN k i bufOffset := by
  induction k generalizing i bufOffset with
  | zero => rfl
  | succ k ih =>
    rw [fsReadLoopWith, fsReadLoop]
    simp only [ih]

/-- The function `fsRead` is `fsReadWith` at the modelled `bfsRead`. -/
theorem fsReadWith_bfsRead (B fd numb : Int) :
    fsReadWith (bfsRead B) B fd numb = fsRead B fd numb := by
  unfold fsReadWith fsRead
  simp only [fsReadLoopWith_bfsRead]

theorem fetchesOnly_refl (first last : Int) (st : State) : FetchesOnly first last st st :=
  ⟨[], by simp, by intro inum f h; cases h⟩

theorem fetchesOnly_trans {first last : Int} {a b c : State} (h1 : FetchesOnly first last a b)
    (h2 : FetchesOnly first last b c) : FetchesOnly first last a c := by
  obtain ⟨L1, e1, p1⟩ := h1
  obtain ⟨L2, e2, p2⟩ := h2
  refine ⟨L1 ++ L2, by rw [e2, e1, List.append_assoc], ?_⟩
  intro inum f hm
  rcases List.mem_append.1 hm with h | h
  · exact p1 inum f h
  · exact p2 inum f h

theorem fetchesOnly_bind {first last : Int} {α β : Type} {m : M α} {f : α → M β}
    (hm : Preserves (FetchesOnly first last) m)
    (hf : ∀ a, Preserves (FetchesOnly first last) (f a)) :
    Preserves (FetchesOnly first last) (m >>= f) :=
  @preserves_bind (FetchesOnly first last) (fun _ _ _ h1 h2 => fetchesOnly_trans h1 h2)
    _ _ _ _ hm hf

theorem fetchesOnly_of_log {first last : Int} {α : Type} {m : M α}
    (h : ∀ st, (m st).state.log = st.log) : Preserves (FetchesOnly first last) m := by
  intro st
  refine ⟨[], by rw [h st]; simp, ?_⟩
  intro inum f hm
  cases hm

theorem fetchesOnly_trace {first last : Int} (ev : Event)
    (h : ∀ inum f, ev = .fetch inum f → f = first ∨ f = last) :
    Preserves (FetchesOnly first last) (trace ev) := by
  intro st
  refine ⟨[ev], rfl, ?_⟩
  intro inum f hm
  exact h inum f (List.mem_singleton.1 hm).symm

theorem preserves_ite_cond {R : State → State → Prop} {α : Type} (c : Prop) [Decidable c]
    {m1 m2 : M α} (h1 : c → Preserves R m1) (h2 : ¬ c → Preserves R m2) :
    Preserves R (if c then m1 else m2) := by
  by_cases hc : c
  · rw [if_pos hc]
    exact h1 hc
  · rw [if_neg hc]
    exact h2 hc

theorem fetchesOnly_malloc {first last : Int} : Preserves (FetchesOnly first last) malloc :=
  fun st => fetchesOnly_refl first last st

theorem fetchesOnly_bfsRead {first last : Int} (B inum fbn : Int) (buf : Mem)
    (h : fbn = first ∨ fbn = last) :
    Preserves (FetchesOnly first last) (bfsRead B inum fbn buf) := by
  unfold bfsRead
  apply fetchesOnly_bind (fetchesOnly_trace (.fetch inum fbn) (by
    intro i f e
    cases e
    exact h))
  intro _
  apply fetchesOnly_of_log
  intro st
  dsimp only
  split <;> rfl

theorem fetchesOnly_bfsFbnToDbn {first last : Int} (inum fbn : Int) :
    Preserves (FetchesOnly first last) (bfsFbnToDbn inum fbn) := by
  unfold bfsFbnToDbn
  apply fetchesOnly_bind (fetchesOnly_trace (.resolve inum fbn) (by
    intro i f e
    cases e))
  intro _
  apply fetchesOnly_of_log
  intro st
  dsimp only
  split <;> rfl

theorem fetchesOnly_memcpyIn {first last : Int} (B : Int) (bioBuf : Mem) (dOff : Int) (src : Mem)
    (sOff len : Int) :
    Preserves (FetchesOnly first last) (memcpyIn B bioBuf dOff src sOff len) := by
  unfold memcpyIn
  apply preserves_ite
  · exact preserves_pure (fetchesOnly_refl first last) _
  · exact preserves_FATAL (fetchesOnly_refl first last) _

theorem fetchesOnly_bioWrite {first last : Int} (B dbn : Int) (buf : Mem) :
    Preserves (FetchesOnly first last) (bioWrite B dbn buf) := by
  unfold bioWrite
  apply fetchesOnly_bind (fetchesOnly_trace (.store dbn) (by
    intro i f e
    cases e))
  intro _
  apply fetchesOnly_of_log
  intro st
  rfl

/-- The write loop fetches no block other than `fbnStart` and `fbnEnd`. -/
theorem fetchesOnly_fsWriteLoop (B inum cursor numb : Int) (buf : Mem) (fbnStart fbnEnd : Int)
    (k : Nat) (i bufOffset : Int) :
    Preserves (FetchesOnly fbnStart fbnEnd)
      (fsWriteLoop B inum cursor numb buf fbnStart fbnEnd k i bufOffset) := by
  induction k generalizing i bufOffset with
  | zero => exact preserves_pure (fetchesOnly_refl _ _) _
  | succ k ih =>
    unfold fsWriteLoop
    apply fetchesOnly_bind fetchesOnly_malloc
    intro bioBuf
    apply preserves_ite_cond
    · intro hc
      apply fetchesOnly_bind (fetchesOnly_bfsRead _ _ _ _ (Or.inl hc))
      intro b1
      apply fetchesOnly_bind (fetchesOnly_memcpyIn _ _ _ _ _ _)
      intro b2
      apply fetchesOnly_bind (fetchesOnly_bfsFbnToDbn _ _)
      intro dbn
      apply fetchesOnly_bind (fetchesOnly_bioWrite _ _ _)
      intro _
      exact ih _ _
    · intro _
      apply preserves_ite_cond
      · intro hc
        apply fetchesOnly_bind (fetchesOnly_bfsRead _ _ _ _ (Or.inr hc))
        intro b1
        apply fetchesOnly_bind (fetchesOnly_memcpyIn _ _ _ _ _ _)
        intro b2
        apply fetchesOnly_bind (fetchesOnly_bfsFbnToDbn _ _)
        intro dbn
        apply fetchesOnly_bind (fetchesOnly_bioWrite _ _ _)
        intro _
        exact ih _ _
      · intro _
        apply fetchesOnly_bind (fetchesOnly_memcpyIn _ _ _ _ _ _)
        intro b2
        apply fetchesOnly_bind (fetchesOnly_bfsFbnToDbn _ _)
        intro dbn
        apply fetchesOnly_bind (fetchesOnly_bioWrite _ _ _)
        intro _
        exact ih _ _

/-- The call `fsWrite` fetches no block other than the first and the last of
its range. -/
theorem fetchesOnly_fsWrite {st : State} {fd inum : Int} (h : IsHandle st fd inum) (B n : Int)
    (buf : Mem) :
    FetchesOnly (div32 (cursorOf st fd) B) (div32 (add32 (cursorOf st fd) n) B) st
      (fsWrite B fd n buf st).state := by
  have hg := fsWriteGrow_log B inum (fileSize st inum) (add32 (cursorOf st fd) n) st
  obtain ⟨st1, m, he, _⟩ := fsWriteGrow_spec B inum (fileSize st inum)
    (add32 (cursorOf st fd) n) st
  rw [he] at hg
  have h01 : FetchesOnly (div32 (cursorOf st fd) B) (div32 (add32 (cursorOf st fd) n) B) st st1 := by
    refine ⟨_, hg, ?_⟩
    intro i f hm
    split at hm
    · rw [List.mem_singleton] at hm
      cases hm
    · cases hm
  have hl := fetchesOnly_fsWriteLoop B inum (cursorOf st fd) n buf (div32 (cursorOf st fd) B)
    (div32 (add32 (cursorOf st fd) n) B)
    (div32 (add32 (cursorOf st fd) n) B - div32 (cursorOf st fd) B + 1).toNat
    (div32 (cursorOf st fd) B) 0 st1
  rw [fsWrite_eq h]
  simp only [he]
  cases hx : fsWriteLoop B inum (cursorOf st fd) n buf (div32 (cursorOf st fd) B)
      (div32 (add32 (cursorOf st fd) n) B)
      (div32 (add32 (cursorOf st fd) n) B - div32 (cursorOf st fd) B + 1).toNat
      (div32 (cursorOf st fd) B) 0 st1 with
  | abort e st2 =>
    rw [hx] at hl
    exact fetchesOnly_trans h01 hl
  | ok r st2 =>
    rw [hx] at hl
    refine fetchesOnly_trans h01 (fetchesOnly_trans hl ?_)
    refine ⟨[], ?_, ?_⟩
    · show (withCursor st2 fd _).log = st2.log ++ []
      rw [withCursor_log, List.append_nil]
    · intro i f hm
      cases hm

/-- One iteration of the write loop on an allocated block adds to `bufOffset`
the number of bytes it takes from the input: `n` when the range lies in one
block, else `B - c mod B` for the first block, `(c + n) - B * last` for the last
block and `B` for a block between them. -/
theorem fsWriteLoop_step_offset {B c n first last r1 r2 : Int}
    (sp : Span B c n first last r1 r2)
    (inum : Int) (buf : Mem) (k : Nat) (i bo : Int) (st : State)
    (hi1 : first ≤ i) (hi2 : i ≤ last) (hbo0 : i = first → bo = 0)
    (hbo : first < i → bo = B * i - c) (d : Int) (hd : dbnOf st inum i = some d) :
    ∃ st1 bo1, fsWriteLoop B inum c n buf first last (k + 1) i bo st =
        fsWriteLoop B inum c n buf first last k (i + 1) bo1 st1 ∧
      SameMeta st st1 ∧
      bo1 = bo + (if i = first then (if first = last then n else B - r1)
        else if i = last then r2 else B) := by
  have hB := sp.hB
  have hBmax := sp.hBmax
  have hc := sp.hc
  have hn := sp.hn
  have hcn := sp.hcn
  have hfirst := sp.hfirst
  have hr1 := sp.hr1
  have hr1B := sp.hr1B
  have hlast := sp.hlast
  have hr2 := sp.hr2
  have hr2B := sp.hr2B
  have hfl := sp.first_le_last
  unfold INT32_MAX at hBmax hcn
  rw [fsWriteLoop]
  by_cases e1 : i = first
  · subst e1
    simp only [if_true, bind_apply, malloc_eq, sp.mod_first]
    rw [bfsRead_some hd]
    dsimp only
    by_cases e2 : i = last
    · subst e2
      simp only [if_true]
      have hg : 0 ≤ r1 ∧ 0 ≤ n ∧ r1 + n ≤ B := by omega
      rw [memcpyIn_ok hg]
      dsimp only
      rw [bfsFbnToDbn_some (by exact hd)]
      dsimp only
      rw [bioWrite_eq]
      dsimp only
      refine ⟨_, _, rfl, ⟨rfl, rfl, rfl, rfl⟩, ?_⟩
      rw [hbo0 rfl]
      exact add32_eq (by omega) (by omega)
    · have hlt : i < last := by omega
      have hm := mul_step hB hlt
      have e3 : sub32 B r1 = B - r1 := sub32_eq (by omega) (by omega)
      have e4 : add32 bo (B - r1) = B - r1 := by
        rw [hbo0 rfl]
        exact (add32_eq (by omega) (by omega)).trans (by omega)
      have hgt : last > i := hlt
      simp only [e2, if_false, hgt, if_true, e3, e4]
      have hg : 0 ≤ r1 ∧ 0 ≤ B - r1 ∧ r1 + (B - r1) ≤ B := by omega
      rw [memcpyIn_ok hg]
      dsimp only
      rw [bfsFbnToDbn_some (by exact hd)]
      dsimp only
      rw [bioWrite_eq]
      dsimp only
      refine ⟨_, _, rfl, ⟨rfl, rfl, rfl, rfl⟩, ?_⟩
      rw [hbo0 rfl]
      omega
  · have hlt1 : first < i := by omega
    have hm1 := mul_step hB hlt1
    have hb := hbo hlt1
    by_cases e2 : i = last
    · subst e2
      simp only [e1, if_false, if_true, bind_apply, malloc_eq, sp.add_eq]
      rw [bfsRead_some hd]
      dsimp only
      have e3 : mul32 B i = B * i := mul32_eq (by omega) (by omega)
      have e4 : sub32 (c + n) (B * i) = r2 :=
        (sub32_eq (by omega) (by omega)).trans (by omega)
      have e5 : sub32 n r2 = n - r2 := sub32_eq (by omega) (by omega)
      simp only [e3, e4, e5]
      have hg : 0 ≤ (0 : Int) ∧ 0 ≤ r2 ∧ 0 + r2 ≤ B := by omega
      rw [memcpyIn_ok hg]
      dsimp only
      rw [bfsFbnToDbn_some (by exact hd)]
      dsimp only
      rw [bioWrite_eq]
      dsimp only
      refine ⟨_, _, rfl, ⟨rfl, rfl, rfl, rfl⟩, ?_⟩
      exact add32_eq (by omega) (by omega)
    · have hlt2 : i < last := by omega
      have hm2 := mul_step hB hlt2
      simp only [e1, e2, if_false, bind_apply, malloc_eq]
      have hg : 0 ≤ (0 : Int) ∧ 0 ≤ B ∧ 0 + B ≤ B := by omega
      rw [memcpyIn_ok hg]
      dsimp only
      rw [bfsFbnToDbn_some hd]
      dsimp only
      rw [bioWrite_eq]
      dsimp only
      refine ⟨_, _, rfl, ⟨rfl, rfl, rfl, rfl⟩, ?_⟩
      exact add32_eq (by omega) (by omega)

/-- When the blocks of its range are allocated, the write loop returns, and the
byte counts it has added to `bufOffset` sum to `n`. -/
theorem fsWriteLoop_returns_count {B c n first last r1 r2 : Int}
    (sp : Span B c n first last r1 r2) (inum : Int) (buf : Mem) (k : Nat) :
    ∀ (i bo : Int) (st : State), first ≤ i → i + k = last + 1 →
      bo = (if i = first then 0 else if i ≤ last then B * i - c else n) →
      (∀ fbn, i ≤ fbn → fbn ≤ last → ∃ d, dbnOf st inum fbn = some d) →
      ∃ st1, fsWriteLoop B inum c n buf first last k i bo st = .ok n st1 ∧ SameMeta st st1 := by
  have hB := sp.hB
  have hfirst := sp.hfirst
  have hlast := sp.hlast
  have hfl := sp.first_le_last
  induction k with
  | zero =>
    intro i bo st hi1 hik hbo _
    have e1 : ¬ i = first := by omega
    have e2 : ¬ i ≤ last := by omega
    rw [if_neg e1, if_neg e2] at hbo
    rw [hbo]
    exact ⟨st, rfl, sameMeta_refl st⟩
  | succ k ih =>
    intro i bo st hi1 hik hbo halloc
    have hi2 : i ≤ last := by omega
    have e5 : B * (i + 1) = B * i + B := by ring
    obtain ⟨d, hd⟩ := halloc i (le_refl i) hi2
    obtain ⟨st1, bo1, he, hm, hbo1⟩ := fsWriteLoop_step_offset sp inum buf k i bo st hi1 hi2
      (by intro h; rw [hbo, if_pos h])
      (by
        intro h
        have e1 : ¬ i = first := by omega
        rw [hbo, if_neg e1, if_pos hi2]) d hd
    have hne : ¬ i + 1 = first := by omega
    obtain ⟨st2, he2, hm2⟩ := ih (i + 1) bo1 st1 (by omega) (by omega) (by
        rw [hbo1, hbo, if_neg hne]
        by_cases e1 : i = first
        · rw [if_pos e1, if_pos e1]
          by_cases e2 : first = last
          · have e3 : ¬ i + 1 ≤ last := by omega
            rw [if_pos e2, if_neg e3]
            omega
          · have e3 : i + 1 ≤ last := by omega
            rw [if_neg e2, if_pos e3]
            rw [e1] at e5 ⊢
            omega
        · rw [if_neg e1, if_neg e1, if_pos hi2]
          by_cases e2 : i = last
          · have e3 : ¬ i + 1 ≤ last := by omega
            rw [if_pos e2, if_neg e3]
            rw [e2]
            omega
          · have e3 : i + 1 ≤ last := by omega
            rw [if_neg e2, if_pos e3]
            omega)
      (by
        intro f g1 g2
        rw [dbnOf_congr hm.2.1]
        exact halloc f (by omega) g2)
    exact ⟨st2, he.trans he2, sameMeta_trans hm hm2⟩

/-- In the state in which the write loop ends, returning or not, every
allocated block of its range holds the input where the block meets the written
range `[c, c + n)` and its former bytes elsewhere. -/
theorem fsWriteLoop_written {B c n first last r1 r2 : Int} (sp : Span B c n first last r1 r2)
    (inum : Int) (buf : Mem) (k : Nat) :
    ∀ (i bo : Int) (st : State), first ≤ i → i + k = last + 1 → (i = first → bo = 0) →
      (first < i → i ≤ last → bo = B * i - c) →
      (st.inodes inum).blocks.Nodup →
      ∀ fbn d j, i ≤ fbn → fbn ≤ last → dbnOf st inum fbn = some d → 0 ≤ j → j < B →
        (fsWriteLoop B inum c n buf first last k i bo st).state.disk d j =
          if c ≤ B * fbn + j ∧ B * fbn + j < c + n then buf (B * fbn + j - c)
          else st.disk d j := by
  have hf0 := sp.first_nonneg
  induction k with
  | zero =>
    intro i bo st _ hik _ _ _ fbn d j h1 h2
    omega
  | succ k ih =>
    intro i bo st hi1 hik hbo0 hbo hnd fbn d j h1 h2 hd hj0 hjB
    have hi2 : i ≤ last := by omega
    have hstep := fsWriteLoop_step sp inum buf k i bo st hi1 hi2 hbo0 (fun h => hbo h hi2)
    cases hdi : dbnOf st inum i with
    | none =>
      exfalso
      have hlen := (@dbnOf_some_iff st inum fbn).1 ⟨d, hd⟩
      have hex : ∃ e, dbnOf st inum i = some e := (@dbnOf_some_iff st inum i).2 ⟨by omega, by omega⟩
      obtain ⟨e, he⟩ := hex
      rw [hdi] at he
      cases he
    | some d0 =>
      obtain ⟨st1, bo1, he, hm, hdisk, hbo1⟩ := hstep.2 d0 hdi
      have hnd1 : (st1.inodes inum).blocks.Nodup := by
        rw [hm.2.1]
        exact hnd
      have hh1 : first ≤ i + 1 := by omega
      have hh2 : i + 1 + (k : Int) = last + 1 := by omega
      have hh3 : i + 1 = first → bo1 = 0 := by intro h; omega
      have hh4 : first < i + 1 → i + 1 ≤ last → bo1 = B * (i + 1) - c := by
        intro _ h2
        exact hbo1 (by omega)
      rw [he]
      by_cases hfi : fbn = i
      · subst hfi
        have hdd : d = d0 := by
          rw [hdi] at hd
          exact (Option.some.inj hd).symm
        subst hdd
        have hfr := fsWriteLoop_frame sp inum buf k (fbn + 1) bo1 st1 hh1 hh2 hh3 hh4 d j (by
          intro f g1 g2 g3
          rw [dbnOf_congr hm.2.1] at g3
          have := dbnOf_inj hnd g3 hdi
          omega)
        rw [hfr, hdisk]
        by_cases hin : c ≤ B * fbn + j ∧ B * fbn + j < c + n
        · have h5 : d = d ∧ 0 ≤ j ∧ j < B ∧ c ≤ B * fbn + j ∧ B * fbn + j < c + n :=
            ⟨rfl, hj0, hjB, hin.1, hin.2⟩
          rw [if_pos h5, if_pos hin]
        · have h5 : ¬ (d = d ∧ 0 ≤ j ∧ j < B ∧ c ≤ B * fbn + j ∧ B * fbn + j < c + n) := by
            intro h6
            exact hin ⟨h6.2.2.2.1, h6.2.2.2.2⟩
          rw [if_neg h5, if_neg hin]
      · have hd1 : dbnOf st1 inum fbn = some d := by
          rw [dbnOf_congr hm.2.1]
          exact hd
        rw [ih (i + 1) bo1 st1 hh1 hh2 hh3 hh4 hnd1 fbn d j (by omega) h2 hd1 hj0 hjB, hdisk]
        have hne : ¬ d = d0 := by
          intro hdd
          rw [hdd] at hd
          exact hfi (dbnOf_inj hnd hd hdi)
        have h5 : ¬ (d = d0 ∧ 0 ≤ j ∧ j < B ∧ c ≤ B * i + j ∧ B * i + j < c + n) := by
          intro h6
          exact hne h6.1
        rw [if_neg h5]

/-- C16: `fsWrite` of `n ≥ 0` bytes at cursor `c ≥ 0` (with `c + n` within `i32`)
on an open handle of a file whose blocks, together with the free blocks of the
store, are pairwise distinct physical blocks, with `first = c / B` and
`last = (c + n) / B`.  In the state in which the call ends, for the allocated
blocks of the file: if `first = last`, block `first` has the bytes
`[c mod B, c mod B + n)` replaced by the whole input; otherwise block `first` has
the bytes `[c mod B, B)` replaced by the first `B - c mod B` input bytes, every
block `i` with `first < i < last` holds the input bytes
`[i * B - c, (i + 1) * B - c)` and is not fetched by the call, and block `last`
has the bytes `[0, tail)` replaced by the last `tail = (c + n) - last * B` input
bytes; the other bytes of the blocks `first` and `last` are kept.  The byte
counts of the blocks sum to `n`; when block `last` is allocated as the call
ends, the call returns 0 and its loop returns with `bufOffset`, the sum of
the byte counts it copied, equal to `n`. -/
theorem fsWrite_block_decomposition (B : Int) (st : State) (fd inum n c first last : Int)
    (buf : Mem) (hB : 0 < B) (hBmax : B ≤ INT32_MAX) (h : IsHandle st fd inum)
    (hcur : cursorOf st fd = c) (hc : 0 ≤ c) (hn : 0 ≤ n) (hcn : c + n ≤ INT32_MAX)
    (hnodup : ((st.inodes inum).blocks ++ st.free).Nodup)
    (hfirst : first = c / B) (hlast : last = (c + n) / B) :
    (first = last → ∀ d j, dbnOf (fsWrite B fd n buf st).state inum first = some d →
      0 ≤ j → j < B →
      (fsWrite B fd n buf st).state.disk d j =
        if c % B ≤ j ∧ j < c % B + n then buf (j - c % B) else st.disk d j) ∧
    (first < last → ∀ d j, dbnOf (fsWrite B fd n buf st).state inum first = some d →
      0 ≤ j → j < B →
      (fsWrite B fd n buf st).state.disk d j =
        if c % B ≤ j then buf (j - c % B) else st.disk d j) ∧
    (∀ i, first < i → i < last →
      Event.fetch inum i ∉ callTrace st (fsWrite B fd n buf st).state ∧
      ∀ d j, dbnOf (fsWrite B fd n buf st).state inum i = some d → 0 ≤ j → j < B →
        (fsWrite B fd n buf st).state.disk d j = buf (i * B - c + j)) ∧
    (first < last → ∀ d j, dbnOf (fsWrite B fd n buf st).state inum last = some d →
      0 ≤ j → j < B →
      (fsWrite B fd n buf st).state.disk d j =
        if j < (c + n) - last * B then buf (n - ((c + n) - last * B) + j) else st.disk d j) ∧
    (if first = last then n
      else (B - c % B) + (last - first - 1) * B + ((c + n) - last * B)) = n ∧
    (last < blockCount (fsWrite B fd n buf st).state inum →
      (fsWrite B fd n buf st).value = some 0 ∧
      ∃ st1 st2, fsWriteGrow B inum (fileSize st inum) (c + n) st = .ok () st1 ∧
        fsWriteLoop B inum c n buf first last (last - first + 1).toNat first 0 st1 =
          .ok n st2) := by
  subst hcur
  subst hfirst
  subst hlast
  have sp := span_of_range hB hBmax hc hn hcn
  have hk := sp.toNat_count
  have hf := sp.hfirst
  have hl := sp.hlast
  have hr1 := sp.hr1
  have hr1B := sp.hr1B
  have hr2 := sp.hr2
  have hr2B := sp.hr2B
  have hfl := sp.first_le_last
  have hf0 := sp.first_nonneg
  obtain ⟨st1, m, he, hg, hdisk, _, _, _, hblocks, _⟩ := fsWriteGrow_spec B inum (fileSize st inum)
    (add32 (cursorOf st fd) n) st
  obtain ⟨hsi, hsd, hsr⟩ := fsWrite_state h B n buf st1 he
  rw [sp.div_first, sp.div_last] at hsd hsr
  have hnd1 : (st1.inodes inum).blocks.Nodup := by
    rw [hblocks]
    exact List.Nodup.sublist ((List.take_sublist m st.free).append_left _) hnodup
  have core : ∀ i d j, cursorOf st fd / B ≤ i → i ≤ (cursorOf st fd + n) / B →
      dbnOf (fsWrite B fd n buf st).state inum i = some d → 0 ≤ j → j < B →
      (fsWrite B fd n buf st).state.disk d j =
        if cursorOf st fd ≤ B * i + j ∧ B * i + j < cursorOf st fd + n
        then buf (B * i + j - cursorOf st fd) else st.disk d j := by
    intro i d j hi1 hi2 hd hj0 hjB
    rw [dbnOf_congr hsi] at hd
    rw [hsd, fsWriteLoop_written sp inum buf
      ((cursorOf st fd + n) / B - cursorOf st fd / B + 1).toNat (cursorOf st fd / B) 0 st1
      (le_refl _) hk (fun _ => rfl) (fun h1 _ => absurd h1 (lt_irrefl _)) hnd1 i d j hi1 hi2 hd
      hj0 hjB, hdisk]
  have hcomm : ∀ x : Int, x * B = B * x := fun x => Int.mul_comm x B
  refine ⟨?_, ?_, ?_, ?_, ?_, ?_⟩
  · intro heq d j hd hj0 hjB
    have e1 : B * ((cursorOf st fd + n) / B) = B * (cursorOf st fd / B) := by rw [← heq]
    rw [core _ d j (le_refl _) hfl hd hj0 hjB]
    by_cases hq : cursorOf st fd % B ≤ j ∧ j < cursorOf st fd % B + n
    · rw [if_pos hq, if_pos (by omega)]
      congr 1
      omega
    · rw [if_neg hq, if_neg (by omega)]
  · intro hlt d j hd hj0 hjB
    have hm := mul_step hB hlt
    rw [core _ d j (le_refl _) hfl hd hj0 hjB]
    by_cases hq : cursorOf st fd % B ≤ j
    · rw [if_pos hq, if_pos (by omega)]
      congr 1
      omega
    · rw [if_neg hq, if_neg (by omega)]
  · intro i hi1 hi2
    constructor
    · have hfo := fetchesOnly_fsWrite h B n buf
      rw [sp.div_first, sp.div_last] at hfo
      obtain ⟨L, hL, hp⟩ := hfo
      unfold callTrace
      rw [hL, List.drop_left]
      intro hmem
      rcases hp inum i hmem with e | e
      · omega
      · omega
    · intro d j hd hj0 hjB
      have hm1 := mul_step hB hi1
      have hm2 := mul_step hB hi2
      rw [core i d j (le_of_lt hi1) (le_of_lt hi2) hd hj0 hjB, if_pos (by omega), hcomm]
      congr 1
      omega
  · intro hlt d j hd hj0 hjB
    have hm := mul_step hB hlt
    rw [core _ d j hfl (le_refl _) hd hj0 hjB, hcomm]
    by_cases hq : j < cursorOf st fd + n - B * ((cursorOf st fd + n) / B)
    · rw [if_pos hq, if_pos (by omega)]
      congr 1
      omega
    · rw [if_neg hq, if_neg (by omega)]
  · by_cases heq : cursorOf st fd / B = (cursorOf st fd + n) / B
    · rw [if_pos heq]
    · rw [if_neg heq, hcomm, hcomm]
      have e1 : B * ((cursorOf st fd + n) / B - cursorOf st fd / B - 1) =
          B * ((cursorOf st fd + n) / B) - B * (cursorOf st fd / B) - B := by ring
      omega
  · intro hal
    have hal1 : (cursorOf st fd + n) / B < ((st1.inodes inum).blocks.length : Int) := by
      unfold blockCount at hal
      rw [hsi] at hal
      exact hal
    obtain ⟨st2, hl2, _⟩ := fsWriteLoop_returns_count sp inum buf
      ((cursorOf st fd + n) / B - cursorOf st fd / B + 1).toNat (cursorOf st fd / B) 0 st1
      (le_refl _) hk (by rw [if_pos rfl]) (by
        intro f g1 g2
        rw [dbnOf_some_iff]
        omega)
    have hres := hsr n st2 hl2
    refine ⟨by rw [hres]; rfl, st1, st2, ?_, hl2⟩
    rw [← sp.add_eq]
    exact he

/-! ## The round trip: when the write returns -/

/-- A sufficient condition for the write of the round trip to return: the store
covers the file size and has the free blocks the new size needs, and
`o + len(v)` is not a multiple of `B`. -/
theorem seekWrite_returns (B : Int) (st : State) (fd inum o : Int) (v : List Byte)
    (hB : 0 < B) (hBmax : B ≤ INT32_MAX) (h : IsHandle st fd inum) (ho : 0 ≤ o)
    (hov : o + (v.length : Int) < INT32_MAX)
    (hs0 : 0 ≤ fileSize st inum) (hsB : fileSize st inum + B ≤ INT32_MAX)
    (hwf : fileSize st inum ≤ B * blockCount st inum)
    (hfree : o + (v.length : Int) ≤ B * (blockCount st inum + (st.free.length : Int)))
    (hnb : (o + (v.length : Int)) % B ≠ 0) :
    (seekWrite B fd o v st).value = some 0 := by
  have hn : 0 ≤ (v.length : Int) := Int.ofNat_nonneg _
  have hov2 : o + (v.length : Int) ≤ 2147483646 := by
    unfold INT32_MAX at hov
    omega
  have hcn : o + (v.length : Int) ≤ INT32_MAX := by
    unfold INT32_MAX
    omega
  have hA : IsHandle (withCursor st fd o) fd inum := isHandle_withCursor h o
  have cA : cursorOf (withCursor st fd o) fd = o := cursorOf_withCursor h o
  have sp : Span B o (v.length : Int) (o / B) ((o + (v.length : Int)) / B) (o % B)
      ((o + (v.length : Int)) % B) := span_of_range hB hBmax ho hn hcn
  have hk := sp.toNat_count
  have hf0 := sp.first_nonneg
  have hlast := sp.hlast
  have hr2 := sp.hr2
  obtain ⟨st1, m, he, _⟩ := fsWriteGrow_spec B inum
    (fileSize (withCursor st fd o) inum) (add32 (cursorOf (withCursor st fd o) fd) (v.length : Int))
    (withCursor st fd o)
  have he2 := he
  simp only [cA, sp.add_eq, fileSize_withCursor] at he
  have hcov := fsWriteGrow_covers hB hs0 hsB hov2 inum (withCursor st fd o) st1
    (by rw [withCursor_inodes]; exact hwf)
    (by rw [withCursor_inodes, withCursor_free]; exact hfree) he
  have hlastlt : (o + (v.length : Int)) / B < ((st1.inodes inum).blocks.length : Int) :=
    lt_of_mul_lt hB (by omega)
  obtain ⟨st2, hl, _⟩ := fsWriteLoop_returns_count sp inum (fun j => v.getD j.toNat 0)
    ((o + (v.length : Int)) / B - o / B + 1).toNat (o / B) 0 st1 (le_refl _) hk
    (by rw [if_pos rfl]) (by
      intro f g1 g2
      rw [dbnOf_some_iff]
      omega)
  obtain ⟨_, _, hsr⟩ := fsWrite_state hA B (v.length : Int) (fun j => v.getD j.toNat 0) st1 he2
  rw [cA, sp.div_first, sp.div_last] at hsr
  have hW := hsr (v.length : Int) st2 hl
  unfold seekWrite
  simp only [bind_apply, fsSeek_set h ho, hW]
  rfl

/-! ## Evaluations at concrete inputs -/

/-- Witness of `fsWrite_size`: 600 bytes written at offset 0 of an empty file;
the call returns 0 and the size is 600. -/
theorem fsWrite_size_witness :
    IsHandle emptyFile 0 7 ∧ IsI32 (cursorOf emptyFile 0 + 600) ∧
    (fsWrite 512 0 600 pattern emptyFile).value = some 0 ∧
    fileSize (fsWrite 512 0 600 pattern emptyFile).state 7 =
      max (fileSize emptyFile 7) (cursorOf emptyFile 0 + 600) :=
  ⟨by decide, by decide, by decide!,
    (fsWrite_size 512 emptyFile 0 7 600 pattern (by decide) (by decide)).2.2.1⟩

/-- Witness of `fsRead_frame`: a read of 5 bytes at offset 0 of a 10-byte file,
which returns 5. -/
theorem fsRead_frame_witness :
    IsHandle smallFile 0 7 ∧ IsI32 (cursorOf smallFile 0 + 5) ∧
    (fsRead 512 0 5 smallFile).value = some 5 ∧
    ((fsRead 512 0 5 smallFile).state.inodes = smallFile.inodes ∧
      (fsRead 512 0 5 smallFile).state.disk = smallFile.disk ∧
      (fsRead 512 0 5 smallFile).state.free = smallFile.free ∧
      (∀ ret, (fsRead 512 0 5 smallFile).value = some ret →
        cursorOf (fsRead 512 0 5 smallFile).state 0 = cursorOf smallFile 0 + ret)) :=
  ⟨by decide, by decide, by decide!,
    fsRead_frame 512 smallFile 0 7 5 (by decide) (by decide)⟩

/-- C2, evaluated: on a 10-byte file `fsRead` of 100 bytes at cursor 0 returns
100 (not 10), and `fsRead` of 5 bytes at cursor 20, past the end, returns 5
(not 0), moving the cursor to 25. -/
theorem fsRead_ignores_eof :
    fileSize smallFile 7 = 10 ∧ cursorOf smallFile 0 = 0 ∧
    (fsRead 512 0 100 smallFile).value = some 100 ∧
    cursorOf (fsRead 512 0 100 smallFile).state 0 = 100 ∧
    fileSize smallFilePastEnd 7 = 10 ∧ cursorOf smallFilePastEnd 0 = 20 ∧
    (fsRead 512 0 5 smallFilePastEnd).value = some 5 ∧
    cursorOf (fsRead 512 0 5 smallFilePastEnd).state 0 = 25 := by
  decide!

/-- C9, evaluated: with block size 512, `fsRead` of 1 byte at cursor 0 returns 1,
fetches block 0 and copies 512 bytes into the caller's buffer: the bytes at
offsets 1 and 511 of the buffer, zero before the call, hold the block's bytes
after it. -/
theorem fsRead_copies_whole_block :
    (fsRead 512 0 1 smallFile).value = some 1 ∧
    (fsRead 512 0 1 smallFile).state.log = [.fetch 7 0, .copyOut 0 512] ∧
    smallFile.userBuf 1 = 0 ∧ smallFile.userBuf 511 = 0 ∧
    (fsRead 512 0 1 smallFile).state.userBuf 1 = 2 ∧
    (fsRead 512 0 1 smallFile).state.userBuf 511 = 10 := by
  decide!

/-- C5, evaluated: in a store without free block, `fsWrite` of 1000 bytes at
cursor 0 of a 10-byte, one-block file: the extension to 2 blocks fails with
`AllocationError`, and the call goes on: it sets the size to 1000, overwrites
block 0, and only ends when it fetches the missing block 1. -/
theorem fsWrite_ignores_failed_extend :
    (bfsExtend 7 2 smallFileFull).value = some .AllocationError ∧
    (fsWrite 512 0 1000 ones smallFileFull).fatal = some .badBlockIndex ∧
    fileSize smallFileFull 7 = 10 ∧
    fileSize (fsWrite 512 0 1000 ones smallFileFull).state 7 = 1000 ∧
    smallFileFull.disk 20 0 = 1 ∧
    (fsWrite 512 0 1000 ones smallFileFull).state.disk 20 0 = 255 ∧
    (fsWrite 512 0 1000 ones smallFileFull).state.log =
      [.extend 7 2, .fetch 7 0, .resolve 7 0, .store 20, .fetch 7 1] := by
  decide!

/-- Witness of `fsWrite_preserves_outside`: `3 * 512` bytes written at cursor 512
of a file of `5 * 512` bytes. -/
theorem fsWrite_preserves_outside_witness :
    IsHandle fiveBlockFile 0 7 ∧
    ((fiveBlockFile.inodes 7).blocks ++ fiveBlockFile.free).Nodup ∧
    fileSize fiveBlockFile 7 = 5 * 512 ∧ cursorOf fiveBlockFile 0 = 512 ∧
    (fsWrite 512 0 1536 pattern fiveBlockFile).value = some 0 :=
  ⟨by decide, by decide, by decide, by decide,
    ((fsWrite_preserves_outside 512 fiveBlockFile 0 7 1536 pattern (by decide) (by decide)
      (by decide) (by decide) (by decide) (by decide) (by decide)).2
      (by decide) (by decide) (by decide) (by decide)).1⟩

/-- Witness of `fsRead_content`: five bytes read at cursor 0 of a 10-byte
file. -/
theorem fsRead_content_witness :
    IsHandle smallFile 0 7 ∧ cursorOf smallFile 0 + 5 ≤ fileSize smallFile 7 ∧
    fileSize smallFile 7 ≤ 512 * blockCount smallFile 7 ∧
    (fsRead 512 0 5 smallFile).value = some 5 ∧
    (fsRead 512 0 5 smallFile).state.userBuf 4 = fileByte 512 smallFile 7 (cursorOf smallFile 0 + 4) :=
  ⟨by decide, by decide, by decide,
    (fsRead_content 512 smallFile 0 7 5 (by decide) (by decide) (by decide) (by decide)
      (by decide) (by decide) (by decide) (by decide)).2 (Or.inl (by decide)),
    (fsRead_content 512 smallFile 0 7 5 (by decide) (by decide) (by decide) (by decide)
      (by decide) (by decide) (by decide) (by decide)).1 4 (by decide) (by decide)⟩

/-- C11, evaluated: with block size 512 and four free blocks, `fsWrite` of 512
bytes at cursor 0 of an empty file gets its extension to 1 block, sets the size
to 512 and stores block 0, then fetches block 1 and ends the process: it
returns nothing, and the cursor is still 0, not 512.  `fsWrite` of 0 bytes on
the empty file ends the same way on block 0. -/
theorem fsWrite_no_return_on_boundary :
    IsHandle emptyFile 0 7 ∧ cursorOf emptyFile 0 = 0 ∧
    (bfsExtend 7 1 emptyFile).value = some .Ok ∧
    (fsWrite 512 0 512 pattern emptyFile).value = none ∧
    (fsWrite 512 0 512 pattern emptyFile).fatal = some .badBlockIndex ∧
    (fsWrite 512 0 512 pattern emptyFile).state.free = [21, 22, 23] ∧
    cursorOf (fsWrite 512 0 512 pattern emptyFile).state 0 = 0 ∧
    (fsWrite 512 0 0 pattern emptyFile).value = none ∧
    (fsWrite 512 0 0 pattern emptyFile).fatal = some .badBlockIndex := by
  decide!

/-- C12, evaluated: with block size 512, `fsRead` of 0 bytes at cursor 0 of a
10-byte file returns 0 and keeps the cursor, but fetches block 0 and copies 512
bytes into the caller's buffer (offset 5 held 0 before and holds 6 after); on
an empty file it ends the process on the fetch of block 0. -/
theorem fsRead_zero_touches_block :
    (fsRead 512 0 0 smallFile).value = some 0 ∧
    cursorOf (fsRead 512 0 0 smallFile).state 0 = cursorOf smallFile 0 ∧
    (fsRead 512 0 0 smallFile).state.log = [.fetch 7 0, .copyOut 0 512] ∧
    smallFile.userBuf 5 = 0 ∧ (fsRead 512 0 0 smallFile).state.userBuf 5 = 6 ∧
    (fsRead 512 0 0 emptyFile).value = none ∧
    (fsRead 512 0 0 emptyFile).state.log = [.fetch 7 0] := by
  decide!

/-- C17, evaluated: with block size 512, on a file of size 512 with its one
block, `fsRead` of 512 bytes at cursor 0 (so cursor + n = size) fetches block 0
and then block 1, which is not below the block count 1, and ends the process
there. -/
theorem fsRead_fetches_past_last_block :
    IsHandle oneBlockFile 0 7 ∧
    cursorOf oneBlockFile 0 + 512 ≤ fileSize oneBlockFile 7 ∧
    blockCount oneBlockFile 7 = 1 ∧
    (fsRead 512 0 512 oneBlockFile).state.log = [.fetch 7 0, .copyOut 0 512, .fetch 7 1] ∧
    (fsRead 512 0 512 oneBlockFile).value = none ∧
    (fsRead 512 0 512 oneBlockFile).fatal = some .badBlockIndex := by
  decide!

/-- C18, evaluated: with block size 512, `fsWrite` of 512 bytes at cursor 0 of an
empty file leaves the file with size 512 and 1 block, and fetches block 1;
`fsWrite` of 0 bytes on the empty file leaves it with no block and fetches
block 0. -/
theorem fsWrite_fetches_past_last_block :
    fileSize (fsWrite 512 0 512 pattern emptyFile).state 7 = 512 ∧
    blockCount (fsWrite 512 0 512 pattern emptyFile).state 7 = 1 ∧
    (fsWrite 512 0 512 pattern emptyFile).state.log =
      [.extend 7 1, .fetch 7 0, .resolve 7 0, .store 20, .fetch 7 1] ∧
    fileSize (fsWrite 512 0 0 pattern emptyFile).state 7 = 0 ∧
    blockCount (fsWrite 512 0 0 pattern emptyFile).state 7 = 0 ∧
    (fsWrite 512 0 0 pattern emptyFile).state.log = [.fetch 7 0] := by
  decide!

/-! ## fsOpen and fsCreate -/

theorem fsOpen_eq (EFNF : Int) (lookup : String → M Int) (inumToFd : Int → M Int)
    (fname : String) (st : State) :
    fsOpen EFNF lookup inumToFd fname st =
      match lookup fname st with
      | .ok inum st1 => if inum = EFNF then .ok EFNF st1 else inumToFd inum st1
      | .abort e st1 => .abort e st1 := by
  unfold fsOpen
  rw [bind_apply]
  cases lookup fname st with
  | abort e st1 => rfl
  | ok inum st1 =>
    dsimp only
    split <;> rfl

theorem fsCreate_eq (EFNF : Int) (create : String → M Int) (inumToFd : Int → M Int)
    (fname : String) (st : State) :
    fsCreate EFNF create inumToFd fname st = fsOpen EFNF create inumToFd fname st := rfl

/-- C14: whatever the directory lookup, the file creation and the descriptor
layer are, provided no descriptor equals `EFNF`: when the lookup of `fname`
returns `inum`, `fsOpen` returns (does not abort with) `EFNF` if `inum` is
`EFNF`, and otherwise is the call of the descriptor layer on `inum`; so it
returns `EFNF` exactly when the lookup reported `EFNF`.  The same holds for
`fsCreate` and the creation. -/
theorem fsOpen_fsCreate_report (EFNF : Int) (lookup create : String → M Int)
    (inumToFd : Int → M Int) (fname : String) (st : State)
    (hdist : ∀ inum s fd s1, inumToFd inum s = .ok fd s1 → fd ≠ EFNF) :
    (∀ inum st1, lookup fname st = .ok inum st1 →
      (inum = EFNF → fsOpen EFNF lookup inumToFd fname st = .ok EFNF st1) ∧
      (inum ≠ EFNF → fsOpen EFNF lookup inumToFd fname st = inumToFd inum st1) ∧
      ((fsOpen EFNF lookup inumToFd fname st).value = some EFNF ↔ inum = EFNF)) ∧
    (∀ inum st1, create fname st = .ok inum st1 →
      (inum = EFNF → fsCreate EFNF create inumToFd fname st = .ok EFNF st1) ∧
      (inum ≠ EFNF → fsCreate EFNF create inumToFd fname st = inumToFd inum st1) ∧
      ((fsCreate EFNF create inumToFd fname st).value = some EFNF ↔ inum = EFNF)) := by
  have key : ∀ (f : String → M Int) inum st1, f fname st = .ok inum st1 →
      (inum = EFNF → fsOpen EFNF f inumToFd fname st = .ok EFNF st1) ∧
      (inum ≠ EFNF → fsOpen EFNF f inumToFd fname st = inumToFd inum st1) ∧
      ((fsOpen EFNF f inumToFd fname st).value = some EFNF ↔ inum = EFNF) := by
    intro f inum st1 hf
    rw [fsOpen_eq, hf]
    dsimp only
    by_cases he : inum = EFNF
    · rw [if_pos he]
      exact ⟨fun _ => rfl, fun h => absurd he h, fun _ => he, fun _ => rfl⟩
    · rw [if_neg he]
      refine ⟨fun h => absurd h he, fun _ => rfl, fun hv => ?_, fun h => absurd h he⟩
      cases hr : inumToFd inum st1 with
      | abort e s1 =>
        rw [hr] at hv
        cases hv
      | ok fd s1 =>
        rw [hr] at hv
        simp only [Res.value, Option.some.injEq] at hv
        exact absurd hv (hdist inum st1 fd s1 hr)
  refine ⟨fun inum st1 h => key lookup inum st1 h, fun inum st1 h => ?_⟩
  rw [fsCreate_eq]
  exact key create inum st1 h

theorem bfsFindOFTE_nonneg (inum : Int) (s : State) (fd : Int) (s1 : State)
    (h : bfsFindOFTE inum s = .ok fd s1) : 0 ≤ fd := by
  unfold bfsFindOFTE at h
  cases hf : s.g_oft.findIdx? (fun e => e.inum == inum) with
  | none =>
    rw [hf] at h
    cases h
  | some i =>
    rw [hf] at h
    simp only [Res.ok.injEq] at h
    omega

/-- Witness of `fsOpen_fsCreate_report`: `EFNF` is -1, only the name `"a"` is in
the directory, descriptors are slots of the open file table; opening `"b"`
returns -1, opening `"a"` returns descriptor 0. -/
theorem fsOpen_fsCreate_report_witness :
    (∀ inum s fd s1, bfsFindOFTE inum s = .ok fd s1 → fd ≠ -1) ∧
    (fsOpen (-1) (lookupOnlyA (-1)) bfsFindOFTE "b" emptyFile).value = some (-1) ∧
    (fsOpen (-1) (lookupOnlyA (-1)) bfsFindOFTE "a" emptyFile).value = some 0 ∧
    ((fsOpen (-1) (lookupOnlyA (-1)) bfsFindOFTE "b" emptyFile).value = some (-1) ↔
      (-1 : Int) = -1) :=
  ⟨fun inum s fd s1 h => by have := bfsFindOFTE_nonneg inum s fd s1 h; omega,
    by decide, by decide,
    ((fsOpen_fsCreate_report (-1) (lookupOnlyA (-1)) (lookupOnlyA (-1)) bfsFindOFTE "b" emptyFile
      (fun inum s fd s1 h => by have := bfsFindOFTE_nonneg inum s fd s1 h; omega)).1
      (-1) emptyFile rfl).2.2⟩

/-- Witness of `fsWrite_extension_request`: 600 bytes written at offset 0 of an
empty file with block size 512: one request, for 2 blocks, and size 600. -/
theorem fsWrite_extension_request_witness :
    IsHandle emptyFile 0 7 ∧ fileSize emptyFile 7 < cursorOf emptyFile 0 + 600 ∧
    extendRequests (fsWrite 512 0 600 pattern emptyFile).state.log =
      extendRequests emptyFile.log ++
        (if ceilDiv (fileSize emptyFile 7) 512 * 512 < cursorOf emptyFile 0 + 600 then
          [(7, ceilDiv (cursorOf emptyFile 0 + 600) 512)]
        else []) ∧
    extendRequests (fsWrite 512 0 600 pattern emptyFile).state.log = [(7, 2)] ∧
    fileSize (fsWrite 512 0 600 pattern emptyFile).state 7 = 600 :=
  ⟨by decide, by decide,
    (fsWrite_extension_request 512 emptyFile 0 7 600 pattern (by decide) (by decide) (by decide)
      (by decide) (by decide) (by decide) (by decide)).1 (by decide),
    by decide!, by decide!⟩

theorem eq_some_getD_of_isSome {α : Type} (o : Option α) (d : α) (h : o.isSome = true) :
    o = some (o.getD d) := by
  cases o with
  | none => cases h
  | some a => rfl

/-- C13, refuted as stated: on a fresh handle (cursor 0) of a 10-byte file,
`fsRead(fd, -5, buf)` returns (the value -5) and leaves the cursor at -5; and on
a fresh handle `fsSeek(fd, 2147483647, SEEK_SET)` followed by
`fsSeek(fd, 1, SEEK_CUR)` both return and leave the cursor at -2147483648. -/
theorem cursor_negative_after_calls :
    IsHandle smallFile 0 7 ∧ cursorOf smallFile 0 = 0 ∧
    (fsRead 512 0 (-5) smallFile).value = some (-5) ∧
    (runAll 512 0 [.read (-5)] smallFile).map (fun s => cursorOf s 0) = some (-5) ∧
    IsHandle emptyFile 0 7 ∧ cursorOf emptyFile 0 = 0 ∧
    (runAll 512 0 [.seek 2147483647 SEEK_SET, .seek 1 SEEK_CUR] emptyFile).map
      (fun s => cursorOf s 0) = some (-2147483648) := by
  decide!

/-- Witness of `cursor_nonneg_after_calls`: seek to 510, write 10 bytes, seek to
0, read 10 bytes, on the fresh handle of an empty file. -/
theorem cursor_nonneg_after_calls_witness :
    IsHandle emptyFile 0 7 ∧ cursorOf emptyFile 0 = 0 ∧
    allInRange 512 0 7 [.seek 510 SEEK_SET, .write 10 pattern, .seek 0 SEEK_SET, .read 10]
      emptyFile = true ∧
    (runAll 512 0 [.seek 510 SEEK_SET, .write 10 pattern, .seek 0 SEEK_SET, .read 10]
      emptyFile).isSome = true ∧
    0 ≤ cursorOf ((runAll 512 0
      [.seek 510 SEEK_SET, .write 10 pattern, .seek 0 SEEK_SET, .read 10] emptyFile).getD
      emptyFile) 0 :=
  ⟨by decide, by decide, by decide!, by decide!,
    cursor_nonneg_after_calls 512 0 7
      [.seek 510 SEEK_SET, .write 10 pattern, .seek 0 SEEK_SET, .read 10] emptyFile _
      (by decide) (by decide) (by decide) (by decide!)
      (eq_some_getD_of_isSome _ emptyFile (by decide!))⟩

/-! ## fsRead: the trace, evaluated -/

/-- With the modelled Block Store and block size 512, on a 10-byte file with its
one block, `fsRead` of 600 bytes at cursor 0 requests the blocks 0 and 1, copies
512 bytes (block 0) into the caller's buffer, and ends the process on block 1,
which the file does not have. -/
theorem fsRead_copy_volume_needs_blocks :
    IsHandle smallFile 0 7 ∧ cursorOf smallFile 0 = 0 ∧ blockCount smallFile 7 = 1 ∧
    (fsRead 512 0 600 smallFile).value = none ∧
    (fsRead 512 0 600 smallFile).fatal = some .badBlockIndex ∧
    fetchedBlocks (callTrace smallFile (fsRead 512 0 600 smallFile).state) = [(7, 0), (7, 1)] ∧
    copiedBytes (callTrace smallFile (fsRead 512 0 600 smallFile).state) = 512 ∧
    ¬ copiedBytes (callTrace smallFile (fsRead 512 0 600 smallFile).state) =
      600 + 512 - (cursorOf smallFile 0 + 600) % 512 := by
  decide!

/-- Witness of `fsWrite_block_decomposition`: 10 bytes written at cursor 510 of
an empty file with `B = 512`, so `first = 0` and `last = 1`: the call returns 0,
block 0 (physical block 20) takes 2 input bytes at its offsets 510 and 511, and
block 1 (physical block 21) takes the 8 last input bytes at its offsets 0 to
7. -/
theorem fsWrite_block_decomposition_witness :
    IsHandle emptyFileAt510 0 7 ∧ cursorOf emptyFileAt510 0 = 510 ∧
    ((emptyFileAt510.inodes 7).blocks ++ emptyFileAt510.free).Nodup ∧
    dbnOf (fsWrite 512 0 10 pattern emptyFileAt510).state 7 0 = some 20 ∧
    dbnOf (fsWrite 512 0 10 pattern emptyFileAt510).state 7 1 = some 21 ∧
    (∀ j, 0 ≤ j → j < 512 →
      (fsWrite 512 0 10 pattern emptyFileAt510).state.disk 20 j =
        if 510 % 512 ≤ j then pattern (j - 510 % 512) else emptyFileAt510.disk 20 j) ∧
    (∀ j, 0 ≤ j → j < 512 →
      (fsWrite 512 0 10 pattern emptyFileAt510).state.disk 21 j =
        if j < (510 + 10) - 1 * 512 then pattern (10 - ((510 + 10) - 1 * 512) + j)
        else emptyFileAt510.disk 21 j) ∧
    (fsWrite 512 0 10 pattern emptyFileAt510).value = some 0 ∧
    (fsWrite 512 0 10 pattern emptyFileAt510).state.log =
      [.extend 7 2, .fetch 7 0, .resolve 7 0, .store 20, .fetch 7 1, .resolve 7 1, .store 21] ∧
    (fsWrite 512 0 10 pattern emptyFileAt510).state.disk 20 509 = 0 ∧
    (fsWrite 512 0 10 pattern emptyFileAt510).state.disk 20 510 = pattern 0 ∧
    (fsWrite 512 0 10 pattern emptyFileAt510).state.disk 20 511 = pattern 1 ∧
    (fsWrite 512 0 10 pattern emptyFileAt510).state.disk 21 0 = pattern 2 ∧
    (fsWrite 512 0 10 pattern emptyFileAt510).state.disk 21 7 = pattern 9 ∧
    (fsWrite 512 0 10 pattern emptyFileAt510).state.disk 21 8 = 0 := by
  have T := fsWrite_block_decomposition 512 emptyFileAt510 0 7 10 510 0 1 pattern (by decide)
    (by decide) (by decide) (by decide) (by decide) (by decide) (by decide) (by decide)
    (by decide) (by decide)
  have d0 : dbnOf (fsWrite 512 0 10 pattern emptyFileAt510).state 7 0 = some 20 := by decide!
  have d1 : dbnOf (fsWrite 512 0 10 pattern emptyFileAt510).state 7 1 = some 21 := by decide!
  exact ⟨by decide, by decide, by decide, d0, d1, fun j => T.2.1 (by decide) 20 j d0,
    fun j => T.2.2.2.1 (by decide) 21 j d1, (T.2.2.2.2.2 (by decide!)).1, by decide!, by decide!,
    by decide!, by decide!, by decide!, by decide!, by decide!⟩

end BFS
